import Mathlib

/-!
# AnswerAnalyzer: a shallow embedding of `answerAnalyzer.h` / `answerAnalyzer.cpp`
and of `answerTracker.h` / `answerTracker.cpp`

Conventions of the embedding.

* `double` values are exact rationals (`ℚ`): arithmetic is the ideal arithmetic the
  source formulas describe, without rounding, infinities or NaN.  The literals
  `0.1`, `0.2`, `0.3`, `0.5`, `0.7` are the fractions they denote.  What depends on
  NaN or on rounding is stated on two further embeddings: the guards of `addAttempt`
  on `DoubleValue`, which has NaN and the infinities, and `getAnswerConfidences` and
  `predictScore` in namespace `Binary64`, where every operation rounds as IEEE 754
  prescribes.
* `std::vector<T>` is `List T`; `std::string` is `String`, ordered lexicographically;
  its `length()` is the number of bytes of the UTF-8 text.
* `std::map<std::string, V>` is `SMap V`, an association list kept in ascending key
  order, so that iterating it visits the keys as the C++ container does.
* The library routines `std::exp`, `std::sqrt` and `std::sort` (with the comparator
  `a->percentage > b->percentage`) are the three fields of `Prims`; what the
  theorems need to know about them is `Prims.Lawful`.
* A member function that can throw returns its outcome together with the object
  state it leaves behind.  A `const` member function returns `Option`: `none` stands
  for an access outside a container or a division by zero.
-/

/-! ## Data model (`answerAnalyzer.h`) -/

/-- Exception class `AnswerAnalyzerException`, carrying its message. -/
structure AnswerAnalyzerException where
  message : String
  deriving DecidableEq, Repr

/-- Record `TestAttempt`: the answers of one submission and its overall score. -/
structure TestAttempt where
  answers : List String
  percentage : ℚ
  deriving DecidableEq

/-- Class `AnswerAnalyzer`: all five data members of the C++ class. -/
structure AnswerAnalyzer where
  attempts : List TestAttempt
  maxAnswers : Nat
  possibleCombinations : List (List Bool)
  combinationsCalculated : Bool
  definiteAnswers : List (Option Bool)
  deriving DecidableEq

/-- Library routines the analysis calls: `std::exp`, `std::sqrt`, and `std::sort`
with the comparator `a->percentage > b->percentage`. -/
structure Prims where
  exp : ℚ → ℚ
  sqrt : ℚ → ℚ
  sort : List TestAttempt → List TestAttempt

/-- What the theorems assume of the library routines: `std::sort` returns a
rearrangement of its input in which no later element compares greater than an
earlier one (the order of ties is left open), `std::exp` is positive, and
`std::sqrt` is non-negative, vanishes at zero, and its square is not below its
argument. -/
structure Prims.Lawful (P : Prims) : Prop where
  sort_perm : ∀ l, (P.sort l).Perm l
  sort_sorted : ∀ l, (P.sort l).Pairwise (fun a b => b.percentage ≤ a.percentage)
  exp_pos : ∀ x, 0 < P.exp x
  sqrt_nonneg : ∀ x, 0 ≤ P.sqrt x
  sqrt_zero : P.sqrt 0 = 0
  sqrt_sq_ge : ∀ x, 0 ≤ x → x ≤ P.sqrt x * P.sqrt x

/-- One concrete choice of the library routines with rational values: insertion
sort, `1 / (1 - x + x²/2)` for the exponential and `(x + 1) / 2` for the square
root of a positive argument. -/
def refPrims : Prims where
  exp := fun x => 1 / (1 - x + x * x / 2)
  sqrt := fun x => if x ≤ 0 then 0 else (x + 1) / 2
  sort := fun l => l.insertionSort (fun a b => b.percentage ≤ a.percentage)

namespace AnswerAnalyzer

/-- Constructor `AnswerAnalyzer(size_t maxAns = 10)`. -/
def new (maxAns : Nat) : AnswerAnalyzer where
  attempts := []
  maxAnswers := maxAns
  possibleCombinations := []
  combinationsCalculated := false
  definiteAnswers := List.replicate maxAns none

/-- Method `addAttempt`: the three guards in source order, then `emplace_back`.
The second component is the object after the call. -/
def addAttempt (self : AnswerAnalyzer) (answers : List String) (percentage : ℚ) :
    Except AnswerAnalyzerException Unit × AnswerAnalyzer :=
  if percentage < 0 ∨ percentage > 100 then
    (.error ⟨"Percentage must be between 0 and 100"⟩, self)
  else if answers.isEmpty ∨ answers.length > self.maxAnswers then
    (.error ⟨"Invalid number of answers"⟩, self)
  else
    match self.attempts with
    | [] =>
      (.ok (), { self with
        attempts := self.attempts ++ [⟨answers, percentage⟩],
        combinationsCalculated := false })
    | first :: _ =>
      if answers.length ≠ first.answers.length then
        (.error ⟨"Number of answers must match previous attempts"⟩, self)
      else
        (.ok (), { self with
          attempts := self.attempts ++ [⟨answers, percentage⟩],
          combinationsCalculated := false })

/-- Method `clear`. -/
def clear (self : AnswerAnalyzer) : AnswerAnalyzer :=
  { self with
    attempts := []
    possibleCombinations := []
    combinationsCalculated := false
    definiteAnswers := List.replicate self.maxAnswers none }

/-- Getter `getNumAttempts`. -/
def getNumAttempts (self : AnswerAnalyzer) : Nat := self.attempts.length

/-- An `addAttempt` call threw. -/
def Failed (r : Except AnswerAnalyzerException Unit × AnswerAnalyzer) : Prop :=
  ∃ e, r.1 = .error e

/-- Stores obtained from a freshly constructed analyzer by `addAttempt` calls
(whatever their outcome) and `clear` calls. -/
inductive Reachable : AnswerAnalyzer → Prop
  | init (maxAns : Nat) : Reachable (new maxAns)
  | add {s : AnswerAnalyzer} (answers : List String) (percentage : ℚ) :
      Reachable s → Reachable (s.addAttempt answers percentage).2
  | clear {s : AnswerAnalyzer} : Reachable s → Reachable s.clear

/-- The store invariant: every stored attempt has between one and `maxAnswers`
answers and a percentage in `[0, 100]`, and any two stored attempts have the same
number of answers. -/
def StoreInv (s : AnswerAnalyzer) : Prop :=
  (∀ a ∈ s.attempts, 1 ≤ a.answers.length ∧ a.answers.length ≤ s.maxAnswers ∧
      0 ≤ a.percentage ∧ a.percentage ≤ 100) ∧
  (∀ a ∈ s.attempts, ∀ b ∈ s.attempts, a.answers.length = b.answers.length)

/-! ## `addAttempt` with its `double` argument as passed -/

/-- A `double` as a caller can pass it to `addAttempt`: NaN, an infinity or a finite
value. -/
inductive DoubleValue
  | nan
  | negInf
  | finite (value : ℚ)
  | posInf
  deriving DecidableEq

/-- IEEE comparison `x < y`: false as soon as one operand is NaN. -/
def DoubleValue.lt : DoubleValue → DoubleValue → Bool
  | .nan, _ => false
  | _, .nan => false
  | .negInf, .negInf => false
  | .negInf, _ => true
  | .finite _, .negInf => false
  | .finite x, .finite y => decide (x < y)
  | .finite _, .posInf => true
  | .posInf, _ => false

/-- The value lies in `[0, 100]`. -/
def DoubleValue.InRange (p : DoubleValue) : Prop :=
  ∃ q, p = .finite q ∧ 0 ≤ q ∧ q ≤ 100

/-- Record `TestAttempt` with the percentage as the `double` that was passed. -/
structure DoubleAttempt where
  answers : List String
  percentage : DoubleValue
  deriving DecidableEq

/-- A stored attempt of the rational model as the record the C++ object holds. -/
def TestAttempt.toDouble (t : TestAttempt) : DoubleAttempt :=
  ⟨t.answers, .finite t.percentage⟩

/-- Method `addAttempt` with the `double` argument as passed: the three guards in
source order, the comparisons of the first being IEEE comparisons, then
`emplace_back`.  The arguments are `maxAnswers` and `attempts`, the two data members
the guards read; the result is the outcome and `attempts` after the call. -/
def addAttemptDouble (maxAnswers : Nat) (attempts : List DoubleAttempt)
    (answers : List String) (percentage : DoubleValue) :
    Except AnswerAnalyzerException Unit × List DoubleAttempt :=
  if percentage.lt (.finite 0) || (DoubleValue.finite 100).lt percentage then
    (.error ⟨"Percentage must be between 0 and 100"⟩, attempts)
  else if answers.isEmpty ∨ answers.length > maxAnswers then
    (.error ⟨"Invalid number of answers"⟩, attempts)
  else
    match attempts with
    | [] => (.ok (), attempts ++ [⟨answers, percentage⟩])
    | first :: _ =>
      if answers.length ≠ first.answers.length then
        (.error ⟨"Number of answers must match previous attempts"⟩, attempts)
      else
        (.ok (), attempts ++ [⟨answers, percentage⟩])

/-! ## Ordered maps (`std::map<std::string, V>`) -/

/-- Container `std::map<std::string, V>`, as its entries in ascending key order. -/
abbrev SMap (V : Type) := List (String × V)

/-- Statement `m[k] = f(m[k])`: `operator[]` creates the entry with the
value-initialised `d` when the key is absent, then `f` is applied in place. -/
def SMap.update {V : Type} (d : V) (f : V → V) (k : String) : SMap V → SMap V
  | [] => [(k, f d)]
  | (k', v) :: rest =>
    if k < k' then (k, f d) :: (k', v) :: rest
    else if k = k' then (k', f v) :: rest
    else (k', v) :: SMap.update d f k rest

/-- Expression `m[k]` read as a value: the stored value, or the value-initialised
`d` when the key is absent. -/
def SMap.get {V : Type} (d : V) (m : SMap V) (k : String) : V :=
  match m.lookup k with
  | some v => v
  | none => d

/-- Algorithm `std::max_element(first, last, comp)`: the first element that no
other element exceeds; `none` on an empty range (the end iterator). -/
def maxElement {α : Type} (comp : α → α → Bool) : List α → Option α
  | [] => none
  | x :: xs => some (xs.foldl (fun largest y => if comp largest y then y else largest) x)

/-- Floating division `x / y`, with a zero divisor reported as a failure. -/
def checkedDiv (x y : ℚ) : Option ℚ :=
  if y = 0 then none else some (x / y)

/-! ## Analysis methods (`answerAnalyzer.cpp`) -/

/-- Loop of `getMostCommonAnswers` filling `answerCounts` for question `q`. -/
def countAnswers (attempts : List TestAttempt) (q : Nat) : Option (SMap Int) :=
  attempts.foldlM (fun counts attempt => do
    let answer ← attempt.answers[q]?
    pure (SMap.update 0 (· + 1) answer counts)) []

/-- Body of the question loop of `getMostCommonAnswers`: the answer pushed for `q`. -/
def mostCommonAt (attempts : List TestAttempt) (q : Nat) : Option String := do
  let answerCounts ← countAnswers attempts q
  let maxEl ← maxElement (fun p1 p2 => decide (p1.2 < p2.2)) answerCounts
  pure maxEl.1

/-- Method `getMostCommonAnswers`. -/
def getMostCommonAnswers (self : AnswerAnalyzer) : Option (List String) :=
  match self.attempts with
  | [] => some []
  | first :: _ => (List.range first.answers.length).mapM (mostCommonAt self.attempts)

/-- First loop of `getAnswerConfidences` for question `q`: `answerScores`, the
scores of the attempts giving each answer, in insertion order. -/
def collectScores (attempts : List TestAttempt) (q : Nat) : Option (SMap (List ℚ)) :=
  attempts.foldlM (fun answerScores attempt => do
    let answer ← attempt.answers[q]?
    pure (SMap.update [] (· ++ [attempt.percentage]) answer answerScores)) []

/-- The `weight` of the attempt at rank `i` of the sorted list:
`std::exp(-0.1 * i) * scoreWeight`. -/
def rankWeight (P : Prims) (i : Nat) (percentage : ℚ) : ℚ :=
  P.exp (-(1 / 10) * (i : ℚ)) * (if percentage < 20 then -(1 / 2) else 1)

/-- Second loop of `getAnswerConfidences` for question `q`: `weightedScores` and
`totalWeights`, accumulated over the sorted attempts with their ranks. -/
def accumulateWeights (P : Prims) (sortedAttempts : List TestAttempt) (q : Nat) :
    Option (SMap ℚ × SMap ℚ) :=
  sortedAttempts.enum.foldlM (fun acc ia => do
    let answer ← ia.2.answers[q]?
    let weight := rankWeight P ia.1 ia.2.percentage
    pure (SMap.update 0 (· + ia.2.percentage * weight) answer acc.1,
          SMap.update 0 (· + |weight|) answer acc.2)) ([], [])

/-- Loop over the top `size / 2 + 1` sorted attempts: `highScoreSuccesses` and
`highScoreTotal` for `answer`. -/
def highScoreCounts (sortedAttempts : List TestAttempt) (q : Nat) (answer : String) :
    Option (Int × Int) :=
  (List.range (sortedAttempts.length / 2 + 1)).foldlM (fun acc i => do
    let attempt ← sortedAttempts[i]?
    let given ← attempt.answers[q]?
    let successes := if given = answer ∧ 40 ≤ attempt.percentage then acc.1 + 1 else acc.1
    pure (successes, acc.2 + 1)) (0, 0)

/-- Body of the candidate loop of `getAnswerConfidences` after the disqualification
test: the `confidence` of `answer`, whose scores are `scores`. -/
def candidateConfidence (P : Prims) (sortedAttempts : List TestAttempt) (q : Nat)
    (weightedScores totalWeights : SMap ℚ) (answer : String) (scores : List ℚ) : Option ℚ := do
  let avgScore ← checkedDiv (SMap.get 0 weightedScores answer) (SMap.get 0 totalWeights answer)
  let variance := scores.foldl (fun v score => v + (score - avgScore) * (score - avgScore)) 0
  let variance ← if scores.length > 1 then checkedDiv variance ((scores.length - 1 : Nat) : ℚ)
                 else pure 0
  let counts ← highScoreCounts sortedAttempts q answer
  let highScoreRate ← checkedDiv (counts.1 : ℚ) (counts.2 : ℚ)
  let confidence := avgScore * (3 / 10) + highScoreRate * 100 * (7 / 10)
  let confidence ← checkedDiv confidence (1 + P.sqrt variance * (2 / 10))
  pure (scores.foldl (fun c score => if score < 20 then c * (1 / 2) else c) confidence)

/-- Candidate loop of `getAnswerConfidences`: `(bestAnswer, bestConfidence)` after
visiting every entry of `answerScores` in key order. -/
def selectBest (P : Prims) (sortedAttempts : List TestAttempt) (q : Nat)
    (weightedScores totalWeights : SMap ℚ) (answerScores : SMap (List ℚ)) :
    Option (String × ℚ) :=
  answerScores.foldlM (fun best entry =>
    if entry.2.all (fun score => decide (score < 20)) then pure best
    else do
      let confidence ← candidateConfidence P sortedAttempts q weightedScores totalWeights
        entry.1 entry.2
      pure (if confidence > best.2 then (entry.1, confidence) else best)) ("", -1)

/-- Body of the question loop of `getAnswerConfidences`: the pair pushed for `q`. -/
def questionConfidence (P : Prims) (attempts sortedAttempts : List TestAttempt) (q : Nat) :
    Option (String × ℚ) := do
  let answerScores ← collectScores attempts q
  let weights ← accumulateWeights P sortedAttempts q
  let best ← selectBest P sortedAttempts q weights.1 weights.2 answerScores
  pure (best.1, max 0 (min 100 best.2))

/-- Method `getAnswerConfidences`. -/
def getAnswerConfidences (P : Prims) (self : AnswerAnalyzer) : Option (List (String × ℚ)) :=
  match self.attempts with
  | [] => some []
  | first :: _ =>
    (List.range first.answers.length).mapM
      (questionConfidence P self.attempts (P.sort self.attempts))

/-- Method `suggestNextAttempt`: the answers of `getAnswerConfidences`. -/
def suggestNextAttempt (P : Prims) (self : AnswerAnalyzer) : Option (List String) := do
  let confidences ← getAnswerConfidences P self
  pure (confidences.map (fun p => p.1))

/-- Inner loop of `predictScore`: the `similarity` of `answers` to one attempt.
The confidences are recomputed at every position, as in the source. -/
def similarityTo (P : Prims) (self : AnswerAnalyzer) (answers : List String)
    (attempt : TestAttempt) : Option ℚ := do
  let acc ← (List.range (min answers.length attempt.answers.length)).foldlM (fun acc i => do
    let confidences ← getAnswerConfidences P self
    let entry ← confidences[i]?
    let weight := 1 + entry.2 / 100
    let mine ← answers[i]?
    let theirs ← attempt.answers[i]?
    pure (if mine = theirs then acc.1 + weight else acc.1, acc.2 + weight)) ((0 : ℚ), (0 : ℚ))
  pure (if acc.2 > 0 then acc.1 / acc.2 else 0)

/-- Method `predictScore`.  The sorted copy the source builds first is never read
and is left out; `attempts[i]` and `similarityScores[i]` are visited together. -/
def predictScore (P : Prims) (self : AnswerAnalyzer) (answers : List String) : Option ℚ :=
  if self.attempts.isEmpty ∨ answers.isEmpty then some 0
  else do
    let similarityScores ← self.attempts.mapM (similarityTo P self answers)
    let sums := (self.attempts.zip similarityScores).foldl (fun acc p =>
      let weight := p.2 * p.2 * (1 + p.1.percentage / 100)
      (acc.1 + weight, acc.2 + weight * p.1.percentage)) ((0 : ℚ), (0 : ℚ))
    pure (if sums.1 > 0 then sums.2 / sums.1 else 0)

/-! ## Statistics and patterns (`answerAnalyzer.cpp`) -/

/-- Method `getAverageScore`: `std::accumulate` of the percentages from `0.0`,
divided by the number of attempts; `0.0` on an empty store. -/
def getAverageScore (self : AnswerAnalyzer) : ℚ :=
  if self.attempts.isEmpty then 0
  else
    let sum := self.attempts.foldl (fun acc attempt => acc + attempt.percentage) 0
    sum / (self.attempts.length : ℚ)

/-- Method `getScoreVariance`: `std::accumulate` of the squared differences from
`getAverageScore()`, divided by the number of attempts; `0.0` on an empty store. -/
def getScoreVariance (self : AnswerAnalyzer) : ℚ :=
  if self.attempts.isEmpty then 0
  else
    let mean := getAverageScore self
    let sumSquares := self.attempts.foldl (fun acc attempt =>
      let diff := attempt.percentage - mean
      acc + diff * diff) 0
    sumSquares / (self.attempts.length : ℚ)

/-- The number of attempts that give answer `a` to question `q`. -/
def occurrences (attempts : List TestAttempt) (q : Nat) (a : String) : Nat :=
  attempts.countP (fun t => decide (t.answers[q]? = some a))

/-- Container `std::map<size_t, V>`, as its entries in ascending key order. -/
abbrev NMap (V : Type) := List (Nat × V)

/-- Statement `m[k] = v`: the entry for `k` is created or overwritten. -/
def NMap.assign {V : Type} (k : Nat) (v : V) : NMap V → NMap V
  | [] => [(k, v)]
  | (k', v') :: rest =>
    if k < k' then (k, v) :: (k', v') :: rest
    else if k = k' then (k', v) :: rest
    else (k', v') :: NMap.assign k v rest

/-- Function `std::round`: the nearest integer, halfway cases away from zero. -/
def stdRound (x : ℚ) : ℤ :=
  if 0 ≤ x then ⌊x + 1 / 2⌋ else -⌊-x + 1 / 2⌋

/-- The key `static_cast<size_t>(std::round(attempt.percentage))` of an attempt
(the cast is the identity on the non-negative values the store invariant allows). -/
def scoreKey (attempt : TestAttempt) : Nat := (stdRound attempt.percentage).toNat

/-- Method `getAnswerPatterns`. -/
def getAnswerPatterns (self : AnswerAnalyzer) : NMap (List String) :=
  self.attempts.foldl (fun patterns attempt =>
    NMap.assign (scoreKey attempt) attempt.answers patterns) []

/-! ## Persistence (`answerAnalyzer.cpp`) -/

/-- Method `saveToFile`, as the text it writes to a file that opened and accepted
every write.  `operator<<` for `size_t` writes the decimal digits; `showDouble`
stands for `operator<<` for `double`. -/
def saveToFile (showDouble : ℚ → String) (self : AnswerAnalyzer) : String :=
  let file := toString self.attempts.length ++ "\n"
  self.attempts.foldl (fun file attempt =>
    let file := file ++ toString attempt.answers.length ++ "\n"
    let file := attempt.answers.foldl (fun file answer => file ++ answer ++ "\n") file
    file ++ showDouble attempt.percentage ++ "\n") file

/-! ## `getAnswerConfidences` and `predictScore` in binary64 arithmetic

The two methods once more, with every arithmetic operation on `double` followed by the
rounding IEEE 754 prescribes (to nearest, ties to even); each operation is rounded on
its own, without fused multiply-add and without extended precision.  A `double` is
the rational it denotes; magnitudes of `2 ^ 1024` and above, which binary64 replaces
by an infinity, are not represented, and a division by zero is reported as a failure.
The library routines are the fields of `Library`; they answer `none` where their
result is left open, and a method that needs such a result answers `none` too. -/

namespace Binary64

/-- The integer nearest to `n / d`, the even one of the two when `n / d` lies halfway
between them. -/
def nearestEven (n d : Nat) : Nat :=
  let q := n / d
  let r := n % d
  if 2 * r < d then q
  else if d < 2 * r then q + 1
  else if q % 2 = 0 then q else q + 1

/-- The number of times `n` can be halved before it drops below 2, at most `fuel`
times. -/
def halvings : Nat → Nat → Nat
  | 0, _ => 0
  | fuel + 1, n => if n < 2 then 0 else halvings fuel (n / 2) + 1

/-- The position of the leading bit of `n`: the `k` with `2 ^ k ≤ n < 2 ^ (k + 1)`
for positive `n`. -/
def log2 (n : Nat) : Nat := halvings n n

/-- The binary exponent of the positive rational `n / d`: the `e` with
`2 ^ e ≤ n / d < 2 ^ (e + 1)`. -/
def exponent (n d : Nat) : Int :=
  let e : Int := (log2 n : Int) - (log2 d : Int)
  if n * 2 ^ (-e).toNat < d * 2 ^ e.toNat then e - 1 else e

/-- The binary64 value nearest to `x`, ties to even: 53 significant bits, and below
`2 ^ (-1022)` the fixed spacing `2 ^ (-1074)` of the subnormal range. -/
def roundDouble (x : ℚ) : ℚ :=
  if x = 0 then 0
  else
    let n := x.num.natAbs
    let d := x.den
    let ulp : Int := max (exponent n d) (-1022) - 52
    let m := nearestEven (n * 2 ^ (-ulp).toNat) (d * 2 ^ ulp.toNat)
    let y : ℚ := ((m * 2 ^ ulp.toNat : Nat) : ℚ) / ((2 ^ (-ulp).toNat : Nat) : ℚ)
    if x < 0 then -y else y

/-- Operator `+` on `double`. -/
def add (x y : ℚ) : ℚ := roundDouble (x + y)

/-- Operator `-` on `double`. -/
def sub (x y : ℚ) : ℚ := roundDouble (x - y)

/-- Operator `*` on `double`. -/
def mul (x y : ℚ) : ℚ := roundDouble (x * y)

/-- Operator `/` on `double`, with a zero divisor reported as a failure. -/
def div (x y : ℚ) : Option ℚ :=
  if y = 0 then none else some (roundDouble (x / y))

/-- Conversion of a `size_t` or `int` value to `double`. -/
def ofInt (n : Int) : ℚ := roundDouble (n : ℚ)

/-- Library routines the analysis calls, `std::exp`, `std::sqrt` and `std::sort` with
the comparator `a->percentage > b->percentage`, as far as their results are known. -/
structure Library where
  exp : ℚ → Option ℚ
  sqrt : ℚ → Option ℚ
  sort : List TestAttempt → Option (List TestAttempt)

/-- The results every conforming library gives: `exp(±0) = 1` and `sqrt(±0) = ±0`
(C standard, Annex F), and the descending arrangement of attempts no two of which
have the same percentage.  All other results are left open. -/
def standard : Library where
  exp := fun x => if x = 0 then some 1 else none
  sqrt := fun x => if x = 0 then some 0 else none
  sort := fun l =>
    if (l.map (fun a => a.percentage)).Nodup then
      some (l.insertionSort (fun a b => b.percentage ≤ a.percentage))
    else none

/-- The `weight` of the attempt at rank `i` of the sorted list:
`std::exp(-0.1 * i) * scoreWeight`. -/
def rankWeight (L : Library) (i : Nat) (percentage : ℚ) : Option ℚ := do
  let e ← L.exp (mul (-(roundDouble (1 / 10))) (ofInt i))
  pure (mul e (if percentage < 20 then -(1 / 2) else 1))

/-- Second loop of `getAnswerConfidences` for question `q`: `weightedScores` and
`totalWeights`, accumulated over the sorted attempts with their ranks. -/
def accumulateWeights (L : Library) (sortedAttempts : List TestAttempt) (q : Nat) :
    Option (SMap ℚ × SMap ℚ) :=
  sortedAttempts.enum.foldlM (fun acc ia => do
    let answer ← ia.2.answers[q]?
    let weight ← rankWeight L ia.1 ia.2.percentage
    pure (SMap.update 0 (fun w => add w (mul ia.2.percentage weight)) answer acc.1,
          SMap.update 0 (fun w => add w |weight|) answer acc.2)) ([], [])

/-- Body of the candidate loop of `getAnswerConfidences` after the disqualification
test: the `confidence` of `answer`, whose scores are `scores`. -/
def candidateConfidence (L : Library) (sortedAttempts : List TestAttempt) (q : Nat)
    (weightedScores totalWeights : SMap ℚ) (answer : String) (scores : List ℚ) : Option ℚ := do
  let avgScore ← div (SMap.get 0 weightedScores answer) (SMap.get 0 totalWeights answer)
  let variance := scores.foldl
    (fun v score => add v (mul (sub score avgScore) (sub score avgScore))) 0
  let variance ← if scores.length > 1 then div variance (ofInt (scores.length - 1 : Nat))
                 else pure 0
  let counts ← highScoreCounts sortedAttempts q answer
  let highScoreRate ← div (ofInt counts.1) (ofInt counts.2)
  let confidence := add (mul avgScore (roundDouble (3 / 10)))
    (mul (mul highScoreRate 100) (roundDouble (7 / 10)))
  let root ← L.sqrt variance
  let confidence ← div confidence (add 1 (mul root (roundDouble (2 / 10))))
  pure (scores.foldl (fun c score => if score < 20 then mul c (1 / 2) else c) confidence)

/-- Candidate loop of `getAnswerConfidences`: `(bestAnswer, bestConfidence)` after
visiting every entry of `answerScores` in key order. -/
def selectBest (L : Library) (sortedAttempts : List TestAttempt) (q : Nat)
    (weightedScores totalWeights : SMap ℚ) (answerScores : SMap (List ℚ)) :
    Option (String × ℚ) :=
  answerScores.foldlM (fun best entry =>
    if entry.2.all (fun score => decide (score < 20)) then pure best
    else do
      let confidence ← candidateConfidence L sortedAttempts q weightedScores totalWeights
        entry.1 entry.2
      pure (if confidence > best.2 then (entry.1, confidence) else best)) ("", -1)

/-- Body of the question loop of `getAnswerConfidences`: the pair pushed for `q`. -/
def questionConfidence (L : Library) (attempts sortedAttempts : List TestAttempt) (q : Nat) :
    Option (String × ℚ) := do
  let answerScores ← collectScores attempts q
  let weights ← accumulateWeights L sortedAttempts q
  let best ← selectBest L sortedAttempts q weights.1 weights.2 answerScores
  pure (best.1, max 0 (min 100 best.2))

/-- Method `getAnswerConfidences`. -/
def getAnswerConfidences (L : Library) (self : AnswerAnalyzer) : Option (List (String × ℚ)) :=
  match self.attempts with
  | [] => some []
  | first :: _ => do
    let sortedAttempts ← L.sort self.attempts
    (List.range first.answers.length).mapM (questionConfidence L self.attempts sortedAttempts)

/-- Inner loop of `predictScore`: the `similarity` of `answers` to one attempt.
The confidences are recomputed at every position, as in the source. -/
def similarityTo (L : Library) (self : AnswerAnalyzer) (answers : List String)
    (attempt : TestAttempt) : Option ℚ := do
  let acc ← (List.range (min answers.length attempt.answers.length)).foldlM (fun acc i => do
    let confidences ← getAnswerConfidences L self
    let entry ← confidences[i]?
    let confidence ← div entry.2 100
    let weight := add 1 confidence
    let mine ← answers[i]?
    let theirs ← attempt.answers[i]?
    pure (if mine = theirs then add acc.1 weight else acc.1, add acc.2 weight))
    ((0 : ℚ), (0 : ℚ))
  if acc.2 > 0 then div acc.1 acc.2 else pure 0

/-- Method `predictScore`.  The sorted copy the source builds first is never read
and is left out; `attempts[i]` and `similarityScores[i]` are visited together. -/
def predictScore (L : Library) (self : AnswerAnalyzer) (answers : List String) : Option ℚ :=
  if self.attempts.isEmpty ∨ answers.isEmpty then some 0
  else do
    let similarityScores ← self.attempts.mapM (similarityTo L self answers)
    let sums ← (self.attempts.zip similarityScores).foldlM (fun acc p => do
      let ratio ← div p.1.percentage 100
      let weight := mul (mul p.2 p.2) (add 1 ratio)
      pure (add acc.1 weight, add acc.2 (mul weight p.1.percentage))) ((0 : ℚ), (0 : ℚ))
    if sums.1 > 0 then div sums.2 sums.1 else pure 0

end Binary64

/-! ## The confidence model in the words of the specification (section 4.1) -/

/-- The answer attempt `t` gives to question `q` (the empty string past its end). -/
def answerAt (t : TestAttempt) (q : Nat) : String := (t.answers[q]?).getD ""

/-- The raw scores of the attempts in which `a` occurred at question `q`. -/
def scoresOf (attempts : List TestAttempt) (q : Nat) (a : String) : List ℚ :=
  (attempts.filter (fun t => decide (t.answers[q]? = some a))).map (fun t => t.percentage)

/-- Answer `a` is a qualifying candidate at question `q`: it occurred there in an
attempt with a score of at least 20. -/
def Qualifies (attempts : List TestAttempt) (q : Nat) (a : String) : Prop :=
  ∃ t ∈ attempts, t.answers[q]? = some a ∧ 20 ≤ t.percentage

/-- Answer `a` is observed at question `q` and disqualified: every occurrence of it
there is in an attempt with a score below 20. -/
def Disqualified (attempts : List TestAttempt) (q : Nat) (a : String) : Prop :=
  (∃ t ∈ attempts, t.answers[q]? = some a) ∧
  ∀ t ∈ attempts, t.answers[q]? = some a → t.percentage < 20

/-- Step 2 of the specification: `weightedScoreSum` of `a` over the ranked attempts. -/
def specWeightedScoreSum (P : Prims) (ranked : List TestAttempt) (q : Nat) (a : String) : ℚ :=
  ((ranked.enum.filter (fun it => decide (it.2.answers[q]? = some a))).map
    (fun it => it.2.percentage * rankWeight P it.1 it.2.percentage)).sum

/-- Step 2 of the specification: `totalAbsWeight` of `a` over the ranked attempts. -/
def specTotalAbsWeight (P : Prims) (ranked : List TestAttempt) (q : Nat) (a : String) : ℚ :=
  ((ranked.enum.filter (fun it => decide (it.2.answers[q]? = some a))).map
    (fun it => |rankWeight P it.1 it.2.percentage|)).sum

/-- Step 3 of the specification: the sample variance of `scores` around `mean`
(divide by `n - 1`; zero when `n ≤ 1`). -/
def specVariance (scores : List ℚ) (mean : ℚ) : ℚ :=
  if scores.length ≤ 1 then 0
  else (scores.map (fun s => (s - mean) * (s - mean))).sum / ((scores.length : ℚ) - 1)

/-- Step 3 of the specification: among the top `⌊N/2⌋ + 1` ranked attempts, the
number in which `a` occurred with a score of at least 40, divided by the window size. -/
def specHighScoreRate (ranked : List TestAttempt) (q : Nat) (a : String) : ℚ :=
  (((ranked.take (ranked.length / 2 + 1)).countP
      (fun t => decide (t.answers[q]? = some a ∧ 40 ≤ t.percentage)) : Nat) : ℚ) /
    ((ranked.length / 2 + 1 : Nat) : ℚ)

/-- Step 3 of the specification: the confidence of answer `a` at question `q`,
`(avgScore × 0.3 + highScoreRate × 100 × 0.7) / (1 + sqrt(variance) × 0.2)`, halved
once for every occurrence of `a` with a score below 20. -/
def specRawConfidence (P : Prims) (attempts : List TestAttempt) (q : Nat) (a : String) : ℚ :=
  let ranked := P.sort attempts
  let scores := scoresOf attempts q a
  let avgScore := specWeightedScoreSum P ranked q a / specTotalAbsWeight P ranked q a
  let variance := specVariance scores avgScore
  (avgScore * (3 / 10) + specHighScoreRate ranked q a * 100 * (7 / 10)) /
      (1 + P.sqrt variance * (2 / 10)) *
    (1 / 2) ^ (scores.countP (fun s => decide (s < 20)))

/-! ## The score predictor in the words of the specification (section 4.2) -/

/-- Step 1 of the specification: the similarity of `candidate` to `attempt`.  Over
the positions both share, `weight_i = 1 + confidence_i / 100`; `matchingScore` adds
the weights of the positions where the two agree, `totalWeight` adds them all, and
the similarity is their quotient (0 if `totalWeight` is 0). -/
def specSimilarity (confidences : List (String × ℚ)) (candidate : List String)
    (attempt : TestAttempt) : ℚ :=
  let shared := List.range (min candidate.length attempt.answers.length)
  let weight := fun i => 1 + ((confidences[i]?).map (fun e => e.2)).getD 0 / 100
  let matchingScore :=
    ((shared.filter (fun i => decide (candidate[i]? = attempt.answers[i]?))).map weight).sum
  let totalWeight := (shared.map weight).sum
  if totalWeight = 0 then 0 else matchingScore / totalWeight

/-- Step 2 of the specification: the prediction weight of a stored attempt,
`similarity² × (1 + percentage / 100)`. -/
def specPredictionWeight (confidences : List (String × ℚ)) (candidate : List String)
    (attempt : TestAttempt) : ℚ :=
  specSimilarity confidences candidate attempt * specSimilarity confidences candidate attempt *
    (1 + attempt.percentage / 100)

/-- Step 3 of the specification: the weighted average of the stored percentages
under the prediction weights, 0 if the total weight is 0. -/
def specPredictedScore (confidences : List (String × ℚ)) (attempts : List TestAttempt)
    (candidate : List String) : ℚ :=
  let totalWeight := (attempts.map (specPredictionWeight confidences candidate)).sum
  let weightedSum := (attempts.map
    (fun t => specPredictionWeight confidences candidate t * t.percentage)).sum
  if totalWeight = 0 then 0 else weightedSum / totalWeight

/-! ## Example stores -/

/-- The store of the specification's scenario: `(["A","B"], 90)`, `(["A","C"], 10)`,
`(["A","B"], 95)` added in this order to a fresh analyzer. -/
def scenarioStore : AnswerAnalyzer :=
  ((((new 10).addAttempt ["A", "B"] 90).2.addAttempt ["A", "C"] 10).2.addAttempt
    ["A", "B"] 95).2

/-- A fresh analyzer after `addAttempt({"a\nb", "c"}, 50)`: the first answer contains
a line break. -/
def lineBreakStoreA : AnswerAnalyzer :=
  ((new 10).addAttempt ["a\nb", "c"] 50).2

/-- A fresh analyzer after `addAttempt({"a", "b\nc"}, 50)`: the second answer
contains a line break. -/
def lineBreakStoreB : AnswerAnalyzer :=
  ((new 10).addAttempt ["a", "b\nc"] 50).2

/-- The attempts of the scenario store inserted in the opposite order. -/
def reorderedStore : AnswerAnalyzer :=
  ((((new 10).addAttempt ["A", "B"] 95).2.addAttempt ["A", "C"] 10).2.addAttempt
    ["A", "B"] 90).2

/-- A fresh analyzer after `addAttempt({"A","B"}, 50)`. -/
def singleStore : AnswerAnalyzer :=
  ((new 10).addAttempt ["A", "B"] 50).2

/-- A fresh analyzer after `addAttempt({""}, 10)`: one question, answered with the
empty string, in an attempt scoring 10. -/
def emptyAnswerStore : AnswerAnalyzer :=
  ((new 10).addAttempt [""] 10).2

/-- A fresh analyzer after `addAttempt` of seven answers `"A"` with the score 100. -/
def sevenStore : AnswerAnalyzer :=
  ((new 10).addAttempt ["A", "A", "A", "A", "A", "A", "A"] 100).2

end AnswerAnalyzer

/-! ## The pair tracker (`answerTracker.h` / `answerTracker.cpp`) -/

/-- Exception class `AnswerTrackerException`, carrying its message. -/
structure AnswerTrackerException where
  message : String
  deriving DecidableEq, Repr

/-- Record `AnswerPair`. -/
structure AnswerPair where
  expected : String
  actual : String
  deriving DecidableEq, Repr

/-- Class `AnswerTracker`: its three data members. -/
structure AnswerTracker where
  answerPairs : List AnswerPair
  successPercentage : ℚ
  maxAnswers : Nat
  deriving DecidableEq

namespace AnswerTracker

/-- Constructor `AnswerTracker()`: `successPercentage(0.0), maxAnswers(10)`. -/
def new : AnswerTracker where
  answerPairs := []
  successPercentage := 0
  maxAnswers := 10

/-- Member `std::string::length()`: the number of `char`s, that is of bytes of the
UTF-8 text. -/
def strLength (s : String) : Nat := s.utf8ByteSize

/-- Helper `toLowerCase`: `::tolower` applied to every character. -/
def toLowerCase (str : String) : String := String.mk (str.data.map Char.toLower)

/-- Helper `validateInput`. -/
def validateInput (input : String) : Except AnswerTrackerException Unit :=
  if input = "" then .error ⟨"Input cannot be empty"⟩
  else if strLength input > 100 then .error ⟨"Input is too long (max 100 characters)"⟩
  else .ok ()

/-- Method `addAnswer`: both validations, the capacity test, then `emplace_back`
(the `catch` clause only rethrows).  The second component is the object after the
call. -/
def addAnswer (self : AnswerTracker) (expected actual : String) :
    Except AnswerTrackerException Bool × AnswerTracker :=
  match validateInput expected with
  | .error e => (.error e, self)
  | .ok () =>
    match validateInput actual with
    | .error e => (.error e, self)
    | .ok () =>
      if self.answerPairs.length ≥ self.maxAnswers then (.ok false, self)
      else (.ok true, { self with answerPairs := self.answerPairs ++ [⟨expected, actual⟩] })

/-- Method `setSuccessPercentage`. -/
def setSuccessPercentage (self : AnswerTracker) : AnswerTracker :=
  if self.answerPairs.isEmpty then { self with successPercentage := 0 }
  else
    let correctCount : Nat := self.answerPairs.foldl (fun count pair =>
      if toLowerCase pair.expected = toLowerCase pair.actual then count + 1 else count) 0
    { self with
      successPercentage := (correctCount : ℚ) / (self.answerPairs.length : ℚ) * 100 }

/-- Getter `getSuccessPercentage`. -/
def getSuccessPercentage (self : AnswerTracker) : ℚ := self.successPercentage

/-- Getter `getTotalAnswers`. -/
def getTotalAnswers (self : AnswerTracker) : Nat := self.answerPairs.length

/-- Method `clear`. -/
def clear (self : AnswerTracker) : AnswerTracker :=
  { self with answerPairs := [], successPercentage := 0 }

/-- A string `validateInput` rejects: empty, or longer than 100 characters. -/
def Invalid (input : String) : Prop := input = "" ∨ strLength input > 100

/-- Trackers obtained from a freshly constructed one by the mutating members:
`addAnswer` (whatever its outcome), `setSuccessPercentage`, `clear`, and the
assignment `file >> successPercentage` of `loadFromFile`. -/
inductive Reachable : AnswerTracker → Prop
  | init : Reachable new
  | add {t : AnswerTracker} (expected actual : String) :
      Reachable t → Reachable (t.addAnswer expected actual).2
  | setPercentage {t : AnswerTracker} : Reachable t → Reachable t.setSuccessPercentage
  | clear {t : AnswerTracker} : Reachable t → Reachable t.clear
  | readPercentage {t : AnswerTracker} (x : ℚ) :
      Reachable t → Reachable { t with successPercentage := x }

end AnswerTracker

/-! ## Theorems -/

namespace AnswerAnalyzer

/-! ### Loops in the `Option` monad -/

theorem foldlM_eq_some_foldl {α β : Type} (f : β → α → Option β) (g : β → α → β)
    (l : List α) (h : ∀ x ∈ l, ∀ acc, f acc x = some (g acc x)) (init : β) :
    l.foldlM f init = some (l.foldl g init) := by
  induction l generalizing init with
  | nil => rfl
  | cons x xs ih =>
    rw [List.foldlM_cons, h x (List.mem_cons_self _ _) init]
    exact ih (fun y hy acc => h y (List.mem_cons_of_mem _ hy) acc) (g init x)

theorem mapM_eq_some_map {α β : Type} (f : α → Option β) (g : α → β)
    (l : List α) (h : ∀ x ∈ l, f x = some (g x)) :
    l.mapM f = some (l.map g) := by
  induction l with
  | nil => rfl
  | cons x xs ih =>
    rw [List.mapM_cons, h x (List.mem_cons_self _ _),
      ih (fun y hy => h y (List.mem_cons_of_mem _ hy))]
    rfl

/-! ### Ordered maps -/

theorem SMap.mem_update {V : Type} (d : V) (f : V → V) (k : String) (m : SMap V)
    (e : String × V) (he : e ∈ SMap.update d f k m) : e.1 = k ∨ e ∈ m := by
  induction m with
  | nil =>
    simp only [SMap.update, List.mem_singleton] at he
    exact Or.inl (by rw [he])
  | cons hd rest ih =>
    obtain ⟨k', v⟩ := hd
    simp only [SMap.update] at he
    split_ifs at he with h1 h2
    · rcases List.mem_cons.mp he with rfl | he
      · exact Or.inl rfl
      · exact Or.inr he
    · rcases List.mem_cons.mp he with rfl | he
      · exact Or.inl h2.symm
      · exact Or.inr (List.mem_cons_of_mem _ he)
    · rcases List.mem_cons.mp he with rfl | he
      · exact Or.inr (List.mem_cons_self _ _)
      · rcases ih he with h | h
        · exact Or.inl h
        · exact Or.inr (List.mem_cons_of_mem _ h)

theorem SMap.update_sorted {V : Type} (d : V) (f : V → V) (k : String) (m : SMap V)
    (hm : m.Pairwise (fun a b => a.1 < b.1)) :
    (SMap.update d f k m).Pairwise (fun a b => a.1 < b.1) := by
  induction m with
  | nil => simp [SMap.update]
  | cons hd rest ih =>
    obtain ⟨k', v⟩ := hd
    rw [List.pairwise_cons] at hm
    simp only [SMap.update]
    split_ifs with h1 h2
    · rw [List.pairwise_cons]
      refine ⟨?_, List.pairwise_cons.mpr hm⟩
      intro e he
      rcases List.mem_cons.mp he with rfl | he
      · exact h1
      · exact lt_trans h1 (hm.1 e he)
    · rw [List.pairwise_cons]
      exact ⟨hm.1, hm.2⟩
    · rw [List.pairwise_cons]
      refine ⟨?_, ih hm.2⟩
      intro e he
      rcases SMap.mem_update d f k rest e he with h | h
      · rw [h]
        exact lt_of_le_of_ne (not_lt.mp h1) (fun hh => h2 hh.symm)
      · exact hm.1 e h

theorem SMap.lookup_eq_none_of_lt {V : Type} (k : String) (m : SMap V)
    (h : ∀ e ∈ m, k < e.1) : m.lookup k = none := by
  induction m with
  | nil => rfl
  | cons hd rest ih =>
    obtain ⟨k', v⟩ := hd
    have hk : k < k' := h (k', v) (List.mem_cons_self _ _)
    have hne : (k == k') = false := by
      simp only [beq_eq_false_iff_ne, ne_eq]
      exact ne_of_lt hk
    rw [List.lookup_cons, hne]
    exact ih (fun e he => h e (List.mem_cons_of_mem _ he))

theorem SMap.lookup_update {V : Type} (d : V) (f : V → V) (k : String) (m : SMap V)
    (hm : m.Pairwise (fun a b => a.1 < b.1)) (k' : String) :
    (SMap.update d f k m).lookup k' =
      if k' = k then some (f (SMap.get d m k)) else m.lookup k' := by
  induction m with
  | nil =>
    simp only [SMap.update, SMap.get, List.lookup_cons, List.lookup_nil]
    by_cases h : k' = k
    · simp [h]
    · have : (k' == k) = false := by simpa using h
      simp [h, this]
  | cons hd rest ih =>
    obtain ⟨k0, v⟩ := hd
    rw [List.pairwise_cons] at hm
    simp only [SMap.update]
    split_ifs with h1 h2 h3 h4 h5
    · -- k < k0, k' = k
      subst h2
      have hnone : List.lookup k' ((k0, v) :: rest) = none := by
        apply SMap.lookup_eq_none_of_lt
        intro e he
        rcases List.mem_cons.mp he with rfl | he
        · exact h1
        · exact lt_trans h1 (hm.1 e he)
      simp [SMap.get, hnone]
    · -- k < k0, k' ≠ k
      have : (k' == k) = false := by simpa using h2
      rw [List.lookup_cons, this]
    · -- k = k0, k' = k
      subst h3
      subst h4
      simp [SMap.get, List.lookup_cons]
    · -- k = k0, k' ≠ k
      subst h3
      have : (k' == k) = false := by simpa using h4
      simp [List.lookup_cons, this]
    · -- k0 < k, k' = k
      subst h5
      have hne : (k' == k0) = false := by simpa using h3
      rw [List.lookup_cons, hne, ih hm.2]
      simp [SMap.get, List.lookup_cons, hne]
    · -- k0 < k, k' ≠ k
      rw [List.lookup_cons, List.lookup_cons, ih hm.2, if_neg h5]

theorem SMap.lookup_of_mem {V : Type} (m : SMap V)
    (hm : m.Pairwise (fun a b => a.1 < b.1)) (e : String × V) (he : e ∈ m) :
    m.lookup e.1 = some e.2 := by
  induction m with
  | nil => cases he
  | cons hd rest ih =>
    obtain ⟨k0, v⟩ := hd
    rw [List.pairwise_cons] at hm
    rcases List.mem_cons.mp he with rfl | he
    · simp [List.lookup_cons]
    · have hne : (e.1 == k0) = false := by
        simp only [beq_eq_false_iff_ne, ne_eq]
        exact (ne_of_lt (hm.1 e he)).symm
      rw [List.lookup_cons, hne]
      exact ih hm.2 he

theorem SMap.mem_of_lookup {V : Type} (m : SMap V) (k : String) (v : V)
    (h : m.lookup k = some v) : (k, v) ∈ m := by
  induction m with
  | nil => simp at h
  | cons hd rest ih =>
    obtain ⟨k0, v0⟩ := hd
    rw [List.lookup_cons] at h
    by_cases hk : k = k0
    · subst hk
      simp only [beq_self_eq_true, Option.some.injEq] at h
      subst h
      exact List.mem_cons_self _ _
    · have hne : (k == k0) = false := by simpa using hk
      rw [hne] at h
      exact List.mem_cons_of_mem _ (ih h)

theorem SMap.foldl_update_sorted {X V : Type} (d : V) (key : X → String) (upd : X → V → V)
    (xs : List X) (m : SMap V) (hm : m.Pairwise (fun a b => a.1 < b.1)) :
    (xs.foldl (fun m x => SMap.update d (upd x) (key x) m) m).Pairwise
      (fun a b => a.1 < b.1) := by
  induction xs generalizing m with
  | nil => exact hm
  | cons x xs ih => exact ih _ (SMap.update_sorted d (upd x) (key x) m hm)

theorem SMap.build_sorted {X V : Type} (d : V) (key : X → String) (upd : X → V → V)
    (xs : List X) :
    (xs.foldl (fun m x => SMap.update d (upd x) (key x) m) []).Pairwise
      (fun a b => a.1 < b.1) :=
  SMap.foldl_update_sorted d key upd xs [] List.Pairwise.nil

theorem SMap.build_spec {X V : Type} (d : V) (key : X → String) (upd : X → V → V)
    (xs : List X) (k : String) :
    ((xs.foldl (fun m x => SMap.update d (upd x) (key x) m) []).lookup k = none ↔
        ∀ x ∈ xs, key x ≠ k) ∧
    SMap.get d (xs.foldl (fun m x => SMap.update d (upd x) (key x) m) []) k =
      (xs.filter (fun x => decide (key x = k))).foldl (fun v x => upd x v) d := by
  induction xs using List.reverseRecOn with
  | nil => simp [SMap.get]
  | append_singleton xs x ih =>
    have hs := SMap.build_sorted d key upd xs
    rw [List.foldl_append, List.foldl_cons, List.foldl_nil]
    have hl := SMap.lookup_update d (upd x) (key x) _ hs k
    by_cases hk : k = key x
    · rw [if_pos hk] at hl
      constructor
      · rw [hl]
        simp only [reduceCtorEq, List.mem_append, List.mem_singleton, false_iff, not_forall]
        exact ⟨x, Or.inr rfl, fun h => h hk.symm⟩
      · rw [SMap.get, hl]
        simp only
        rw [List.filter_append, List.foldl_append]
        have : List.filter (fun x => decide (key x = k)) [x] = [x] := by
          simp [hk]
        rw [this, List.foldl_cons, List.foldl_nil, ← hk, ih.2]
    · rw [if_neg hk] at hl
      constructor
      · rw [hl, ih.1]
        constructor
        · intro h y hy
          rcases List.mem_append.mp hy with hy | hy
          · exact h y hy
          · rw [List.mem_singleton] at hy
            rw [hy]
            exact fun hh => hk hh.symm
        · intro h y hy
          exact h y (List.mem_append_left _ hy)
      · have hg : SMap.get d (SMap.update d (upd x) (key x)
            (xs.foldl (fun m x => SMap.update d (upd x) (key x) m) [])) k =
            SMap.get d (xs.foldl (fun m x => SMap.update d (upd x) (key x) m) []) k := by
          simp only [SMap.get, hl]
        rw [hg, ih.2, List.filter_append]
        have : List.filter (fun x => decide (key x = k)) [x] = [] := by
          have hne : ¬ key x = k := fun hh => hk hh.symm
          simp [hne]
        rw [this, List.append_nil]

theorem SMap.build_mem {X V : Type} (d : V) (key : X → String) (upd : X → V → V)
    (xs : List X) (e : String × V)
    (he : e ∈ xs.foldl (fun m x => SMap.update d (upd x) (key x) m) []) :
    (∃ x ∈ xs, key x = e.1) ∧
    e.2 = (xs.filter (fun x => decide (key x = e.1))).foldl (fun v x => upd x v) d := by
  have hs := SMap.build_sorted d key upd xs
  have hl := SMap.lookup_of_mem _ hs e he
  have hsp := SMap.build_spec d key upd xs e.1
  constructor
  · by_contra hc
    have : ∀ x ∈ xs, key x ≠ e.1 := fun x hx hh => hc ⟨x, hx, hh⟩
    rw [hsp.1.mpr this] at hl
    cases hl
  · rw [← hsp.2, SMap.get, hl]

theorem SMap.mem_build {X V : Type} (d : V) (key : X → String) (upd : X → V → V)
    (xs : List X) (x : X) (hx : x ∈ xs) :
    (key x, (xs.filter (fun y => decide (key y = key x))).foldl (fun v y => upd y v) d) ∈
      xs.foldl (fun m x => SMap.update d (upd x) (key x) m) [] := by
  have hsp := SMap.build_spec d key upd xs (key x)
  cases hl : (xs.foldl (fun m x => SMap.update d (upd x) (key x) m) []).lookup (key x) with
  | none => exact absurd rfl (hsp.1.mp hl x hx)
  | some v =>
    have hv := hsp.2
    rw [SMap.get, hl] at hv
    simp only at hv
    rw [← hv]
    exact SMap.mem_of_lookup _ _ _ hl

/-! ### The loops of `getAnswerConfidences`, one at a time -/

theorem getElem?_eq_answerAt (t : TestAttempt) (q : Nat) (h : q < t.answers.length) :
    t.answers[q]? = some (answerAt t q) := by
  rw [answerAt, List.getElem?_eq_getElem h]
  rfl

theorem answerAt_eq_iff (t : TestAttempt) (q : Nat) (a : String) (h : q < t.answers.length) :
    answerAt t q = a ↔ t.answers[q]? = some a := by
  rw [getElem?_eq_answerAt t q h]
  simp

theorem foldl_snoc_eq {X : Type} (g : X → ℚ) (l : List X) (init : List ℚ) :
    l.foldl (fun v x => v ++ [g x]) init = init ++ l.map g := by
  induction l generalizing init with
  | nil => simp
  | cons x xs ih => rw [List.foldl_cons, ih]; simp

theorem foldl_add_eq {X : Type} (g : X → ℚ) (l : List X) (init : ℚ) :
    l.foldl (fun v x => v + g x) init = init + (l.map g).sum := by
  induction l generalizing init with
  | nil => simp
  | cons x xs ih => rw [List.foldl_cons, ih]; simp [add_assoc]

theorem foldl_pair {X A B : Type} (f : A → X → A) (g : B → X → B) (l : List X) (a : A) (b : B) :
    l.foldl (fun acc x => (f acc.1 x, g acc.2 x)) (a, b) = (l.foldl f a, l.foldl g b) := by
  induction l generalizing a b with
  | nil => rfl
  | cons x xs ih => rw [List.foldl_cons, ih]; rfl

theorem filter_answerAt (l : List TestAttempt) (q : Nat) (a : String)
    (hq : ∀ t ∈ l, q < t.answers.length) :
    l.filter (fun t => decide (answerAt t q = a)) =
      l.filter (fun t => decide (t.answers[q]? = some a)) := by
  apply List.filter_congr
  intro t ht
  rw [decide_eq_decide]
  exact answerAt_eq_iff t q a (hq t ht)

theorem filter_enum_answerAt (l : List TestAttempt) (q : Nat) (a : String)
    (hq : ∀ t ∈ l, q < t.answers.length) :
    l.enum.filter (fun it => decide (answerAt it.2 q = a)) =
      l.enum.filter (fun it => decide (it.2.answers[q]? = some a)) := by
  apply List.filter_congr
  intro it hit
  rw [decide_eq_decide]
  exact answerAt_eq_iff it.2 q a (hq it.2 (List.snd_mem_of_mem_enum hit))

theorem collectScores_spec (attempts : List TestAttempt) (q : Nat)
    (hq : ∀ t ∈ attempts, q < t.answers.length) :
    ∃ m, collectScores attempts q = some m ∧
      m.Pairwise (fun a b => a.1 < b.1) ∧
      (∀ e ∈ m, (∃ t ∈ attempts, t.answers[q]? = some e.1) ∧ e.2 = scoresOf attempts q e.1) ∧
      (∀ t ∈ attempts, ∀ a, t.answers[q]? = some a → (a, scoresOf attempts q a) ∈ m) := by
  refine ⟨attempts.foldl (fun m t =>
    SMap.update [] (fun v => v ++ [t.percentage]) (answerAt t q) m) [], ?_, ?_, ?_, ?_⟩
  · unfold collectScores
    apply foldlM_eq_some_foldl
    intro t ht acc
    rw [getElem?_eq_answerAt t q (hq t ht)]
    rfl
  · exact SMap.build_sorted _ _ _ _
  · intro e he
    obtain ⟨⟨t, ht, hk⟩, hv⟩ := SMap.build_mem [] (fun t => answerAt t q)
      (fun t v => v ++ [t.percentage]) attempts e he
    refine ⟨⟨t, ht, (answerAt_eq_iff t q e.1 (hq t ht)).mp hk⟩, ?_⟩
    rw [hv, foldl_snoc_eq (fun t : TestAttempt => t.percentage), List.nil_append, scoresOf,
      filter_answerAt attempts q e.1 hq]
  · intro t ht a ha
    have hm := SMap.mem_build [] (fun t => answerAt t q)
      (fun t v => v ++ [t.percentage]) attempts t ht
    have hk : answerAt t q = a := (answerAt_eq_iff t q a (hq t ht)).mpr ha
    simp only [hk] at hm
    rw [foldl_snoc_eq (fun t : TestAttempt => t.percentage), List.nil_append,
      filter_answerAt attempts q a hq] at hm
    exact hm

theorem accumulateWeights_spec (P : Prims) (sorted : List TestAttempt) (q : Nat)
    (hq : ∀ t ∈ sorted, q < t.answers.length) :
    ∃ ws tw, accumulateWeights P sorted q = some (ws, tw) ∧
      (∀ a, SMap.get 0 ws a = specWeightedScoreSum P sorted q a) ∧
      (∀ a, SMap.get 0 tw a = specTotalAbsWeight P sorted q a) := by
  refine ⟨sorted.enum.foldl (fun m it => SMap.update 0
      (fun v => v + it.2.percentage * rankWeight P it.1 it.2.percentage) (answerAt it.2 q) m) [],
    sorted.enum.foldl (fun m it => SMap.update 0
      (fun v => v + |rankWeight P it.1 it.2.percentage|) (answerAt it.2 q) m) [], ?_, ?_, ?_⟩
  · unfold accumulateWeights
    rw [← foldl_pair]
    apply foldlM_eq_some_foldl
    intro it hit acc
    rw [getElem?_eq_answerAt it.2 q (hq it.2 (List.snd_mem_of_mem_enum hit))]
    rfl
  · intro a
    rw [(SMap.build_spec 0 (fun it : Nat × TestAttempt => answerAt it.2 q)
      (fun it v => v + it.2.percentage * rankWeight P it.1 it.2.percentage) sorted.enum a).2,
      foldl_add_eq (fun it : Nat × TestAttempt =>
        it.2.percentage * rankWeight P it.1 it.2.percentage),
      zero_add, specWeightedScoreSum, filter_enum_answerAt sorted q a hq]
  · intro a
    rw [(SMap.build_spec 0 (fun it : Nat × TestAttempt => answerAt it.2 q)
      (fun it v => v + |rankWeight P it.1 it.2.percentage|) sorted.enum a).2,
      foldl_add_eq (fun it : Nat × TestAttempt => |rankWeight P it.1 it.2.percentage|),
      zero_add, specTotalAbsWeight, filter_enum_answerAt sorted q a hq]

theorem foldlM_range_getElem? {α β : Type} (l : List α) (F : β → α → Option β) (n : Nat)
    (hn : n ≤ l.length) (init : β) :
    (List.range n).foldlM (fun acc i => (l[i]?).bind (fun x => F acc x)) init =
      (l.take n).foldlM F init := by
  induction n with
  | zero => simp
  | succ n ih =>
    have hlt : n < l.length := hn
    rw [List.range_succ, List.foldlM_append, ih (Nat.le_of_lt hlt), List.take_succ,
      List.foldlM_append, List.getElem?_eq_getElem hlt]
    congr 1
    funext init
    simp [List.foldlM_cons, List.getElem?_eq_getElem hlt]

theorem foldl_counts (p : TestAttempt → Prop) [DecidablePred p] (l : List TestAttempt)
    (c n : Int) :
    l.foldl (fun acc t => ((if p t then acc.1 + 1 else acc.1), acc.2 + 1)) (c, n) =
      (c + (l.countP (fun t => decide (p t)) : Nat), n + (l.length : Nat)) := by
  induction l generalizing c n with
  | nil => simp
  | cons t ts ih =>
    rw [List.foldl_cons, ih, List.countP_cons, List.length_cons]
    by_cases h : p t
    · simp only [h, if_true, decide_True, Prod.mk.injEq]
      push_cast
      constructor <;> ring
    · simp only [h, if_false, decide_False, Prod.mk.injEq]
      push_cast
      constructor <;> ring

theorem highScoreCounts_spec (sorted : List TestAttempt) (q : Nat) (a : String)
    (hq : ∀ t ∈ sorted, q < t.answers.length) (hne : sorted ≠ []) :
    highScoreCounts sorted q a =
      some ((((sorted.take (sorted.length / 2 + 1)).countP
          (fun t => decide (t.answers[q]? = some a ∧ 40 ≤ t.percentage)) : Nat) : Int),
        ((sorted.length / 2 + 1 : Nat) : Int)) := by
  have hlen : 0 < sorted.length := List.length_pos.mpr hne
  have hn : sorted.length / 2 + 1 ≤ sorted.length := by omega
  have h1 := foldlM_range_getElem? sorted
    (fun (acc : Int × Int) (attempt : TestAttempt) =>
      (attempt.answers[q]?).bind (fun given =>
        some ((if given = a ∧ 40 ≤ attempt.percentage then acc.1 + 1 else acc.1), acc.2 + 1)))
    (sorted.length / 2 + 1) hn (0, 0)
  have h2 := foldlM_eq_some_foldl
    (fun (acc : Int × Int) (attempt : TestAttempt) =>
      (attempt.answers[q]?).bind (fun given =>
        some ((if given = a ∧ 40 ≤ attempt.percentage then acc.1 + 1 else acc.1), acc.2 + 1)))
    (fun acc t => ((if t.answers[q]? = some a ∧ 40 ≤ t.percentage then acc.1 + 1 else acc.1),
      acc.2 + 1))
    (sorted.take (sorted.length / 2 + 1))
    (by
      intro t ht acc
      have htq := hq t (List.mem_of_mem_take ht)
      simp only [getElem?_eq_answerAt t q htq, Option.some_bind, Option.some.injEq])
    (0, 0)
  have h3 := foldl_counts (fun t => t.answers[q]? = some a ∧ 40 ≤ t.percentage)
    (sorted.take (sorted.length / 2 + 1)) 0 0
  rw [h3] at h2
  rw [h2] at h1
  have hl : (sorted.take (sorted.length / 2 + 1)).length = sorted.length / 2 + 1 := by
    rw [List.length_take]
    omega
  rw [hl] at h1
  simp only [zero_add] at h1
  exact h1

theorem checkedDiv_of_ne (x y : ℚ) (h : y ≠ 0) : checkedDiv x y = some (x / y) := by
  rw [checkedDiv, if_neg h]

theorem foldl_halve (l : List ℚ) (c : ℚ) :
    l.foldl (fun c score => if score < 20 then c * (1 / 2) else c) c =
      c * (1 / 2) ^ (l.countP (fun s => decide (s < 20))) := by
  induction l generalizing c with
  | nil => simp
  | cons s ss ih =>
    rw [List.foldl_cons, ih, List.countP_cons]
    by_cases h : s < 20
    · simp only [h, if_true, decide_True, pow_succ]
      ring
    · simp [h]

theorem rankWeight_abs_pos (P : Prims) (hP : P.Lawful) (i : Nat) (p : ℚ) :
    0 < |rankWeight P i p| := by
  rw [abs_pos, rankWeight]
  have := hP.exp_pos (-(1 / 10) * (i : ℚ))
  split_ifs
  · exact mul_ne_zero (ne_of_gt this) (by norm_num)
  · exact mul_ne_zero (ne_of_gt this) (by norm_num)

theorem sum_pos_of_pos (l : List ℚ) (hne : l ≠ []) (h : ∀ x ∈ l, 0 < x) : 0 < l.sum := by
  induction l with
  | nil => exact absurd rfl hne
  | cons x xs ih =>
    rw [List.sum_cons]
    by_cases hxs : xs = []
    · subst hxs
      simpa using h x (List.mem_cons_self _ _)
    · exact add_pos (h x (List.mem_cons_self _ _))
        (ih hxs (fun y hy => h y (List.mem_cons_of_mem _ hy)))

theorem specTotalAbsWeight_pos (P : Prims) (hP : P.Lawful) (sorted : List TestAttempt)
    (q : Nat) (a : String) (hocc : ∃ t ∈ sorted, t.answers[q]? = some a) :
    0 < specTotalAbsWeight P sorted q a := by
  obtain ⟨t, ht, hta⟩ := hocc
  obtain ⟨i, hi⟩ := List.mem_iff_getElem?.mp ht
  have hmem : (i, t) ∈ sorted.enum := List.mk_mem_enum_iff_getElem?.mpr hi
  apply sum_pos_of_pos
  · intro hnil
    have : (i, t) ∈ sorted.enum.filter (fun it => decide (it.2.answers[q]? = some a)) := by
      rw [List.mem_filter]
      exact ⟨hmem, by simpa using hta⟩
    rw [List.map_eq_nil_iff] at hnil
    rw [hnil] at this
    cases this
  · intro x hx
    obtain ⟨it, -, rfl⟩ := List.mem_map.mp hx
    exact rankWeight_abs_pos P hP _ _

theorem foldl_variance (scores : List ℚ) (avg : ℚ) :
    scores.foldl (fun v score => v + (score - avg) * (score - avg)) 0 =
      (scores.map (fun s => (s - avg) * (s - avg))).sum := by
  rw [foldl_add_eq (fun s : ℚ => (s - avg) * (s - avg)), zero_add]

theorem variance_step (scores : List ℚ) (avg : ℚ) :
    (if scores.length > 1 then
        checkedDiv ((scores.map (fun s => (s - avg) * (s - avg))).sum)
          ((scores.length - 1 : Nat) : ℚ)
      else pure 0) = some (specVariance scores avg) := by
  unfold specVariance
  by_cases h : scores.length > 1
  · rw [if_pos h, if_neg (not_le.mpr h)]
    have hc : ((scores.length - 1 : Nat) : ℚ) = (scores.length : ℚ) - 1 := by
      rw [Nat.cast_sub (le_of_lt h)]
      simp
    have hne : ((scores.length - 1 : Nat) : ℚ) ≠ 0 := by
      have : 0 < scores.length - 1 := by omega
      exact_mod_cast ne_of_gt this
    rw [checkedDiv_of_ne _ _ hne, hc]
  · rw [if_neg h, if_pos (not_lt.mp h)]
    rfl

theorem sqrt_denominator_pos (P : Prims) (hP : P.Lawful) (v : ℚ) :
    0 < 1 + P.sqrt v * (2 / 10) := by
  have := hP.sqrt_nonneg v
  linarith

theorem candidateConfidence_spec (P : Prims) (hP : P.Lawful) (attempts : List TestAttempt)
    (q : Nat) (a : String) (hq : ∀ t ∈ attempts, q < t.answers.length)
    (hocc : ∃ t ∈ attempts, t.answers[q]? = some a) (ws tw : SMap ℚ)
    (hws : SMap.get 0 ws a = specWeightedScoreSum P (P.sort attempts) q a)
    (htw : SMap.get 0 tw a = specTotalAbsWeight P (P.sort attempts) q a) :
    candidateConfidence P (P.sort attempts) q ws tw a (scoresOf attempts q a) =
      some (specRawConfidence P attempts q a) := by
  have hperm := hP.sort_perm attempts
  have hqs : ∀ t ∈ P.sort attempts, q < t.answers.length :=
    fun t ht => hq t (hperm.mem_iff.mp ht)
  have hoccs : ∃ t ∈ P.sort attempts, t.answers[q]? = some a := by
    obtain ⟨t, ht, hta⟩ := hocc
    exact ⟨t, hperm.mem_iff.mpr ht, hta⟩
  have hne : P.sort attempts ≠ [] := by
    obtain ⟨t, ht, -⟩ := hoccs
    exact List.ne_nil_of_mem ht
  have htwpos := specTotalAbsWeight_pos P hP (P.sort attempts) q a hoccs
  have hwin : (((P.sort attempts).length / 2 + 1 : Nat) : ℚ) ≠ 0 := by
    have : (P.sort attempts).length / 2 + 1 ≠ 0 := Nat.succ_ne_zero _
    exact_mod_cast this
  unfold candidateConfidence
  rw [hws, htw, checkedDiv_of_ne _ _ (ne_of_gt htwpos)]
  simp only [Option.bind_eq_bind, Option.some_bind, foldl_variance]
  have hv := variance_step (scoresOf attempts q a)
    (specWeightedScoreSum P (P.sort attempts) q a / specTotalAbsWeight P (P.sort attempts) q a)
  by_cases hlen : (scoresOf attempts q a).length > 1
  all_goals
    first
    | rw [if_pos hlen] at hv ⊢
    | rw [if_neg hlen] at hv ⊢
  all_goals
    rw [hv]
    simp only [Option.some_bind]
    rw [highScoreCounts_spec (P.sort attempts) q a hqs hne]
    simp only [Option.some_bind, Int.cast_natCast]
    rw [checkedDiv_of_ne _ _ hwin]
    simp only [Option.some_bind]
    rw [checkedDiv_of_ne _ _ (ne_of_gt (sqrt_denominator_pos P hP _))]
    simp only [Option.some_bind, foldl_halve]
    rfl

/-! ### The candidate loop: first maximum in key order -/

theorem bestStep_cases {S : Type} (skip : String × S → Bool) (val : String → ℚ)
    (best : String × ℚ) (e : String × S) :
    ((if skip e then best else if val e.1 > best.2 then (e.1, val e.1) else best) = best ∧
        (skip e = false → val e.1 ≤ best.2)) ∨
    (skip e = false ∧ best.2 < val e.1 ∧
      (if skip e then best else if val e.1 > best.2 then (e.1, val e.1) else best) =
        (e.1, val e.1)) := by
  by_cases hs : skip e = true
  · left
    simp [hs]
  · have hs' : skip e = false := by simpa using hs
    by_cases hv : val e.1 > best.2
    · right
      simp [hs', hv]
    · left
      simp [hs', hv]
      exact not_lt.mp hv

theorem foldl_best_spec {S : Type} (skip : String × S → Bool) (val : String → ℚ)
    (l : List (String × S)) (init : String × ℚ) :
    (l.foldl (fun best e =>
        if skip e then best else if val e.1 > best.2 then (e.1, val e.1) else best) init = init ∨
      ∃ e ∈ l, skip e = false ∧ init.2 < val e.1 ∧
        l.foldl (fun best e =>
          if skip e then best else if val e.1 > best.2 then (e.1, val e.1) else best) init =
          (e.1, val e.1)) ∧
    init.2 ≤ (l.foldl (fun best e =>
        if skip e then best else if val e.1 > best.2 then (e.1, val e.1) else best) init).2 ∧
    (∀ e ∈ l, skip e = false → val e.1 ≤ (l.foldl (fun best e =>
        if skip e then best else if val e.1 > best.2 then (e.1, val e.1) else best) init).2) ∧
    (l.Pairwise (fun a b => a.1 < b.1) → ∀ e ∈ l, skip e = false →
      val e.1 = (l.foldl (fun best e =>
        if skip e then best else if val e.1 > best.2 then (e.1, val e.1) else best) init).2 →
      init.2 < (l.foldl (fun best e =>
        if skip e then best else if val e.1 > best.2 then (e.1, val e.1) else best) init).2 →
      (l.foldl (fun best e =>
        if skip e then best else if val e.1 > best.2 then (e.1, val e.1) else best) init).1 ≤
        e.1) := by
  induction l generalizing init with
  | nil =>
    refine ⟨Or.inl rfl, le_refl _, ?_, ?_⟩
    · intro e he
      cases he
    · intro _ e he
      cases he
  | cons x xs ih =>
    rw [List.foldl_cons]
    obtain ⟨ihA, ihB, ihC, ihD⟩ :=
      ih (if skip x then init else if val x.1 > init.2 then (x.1, val x.1) else init)
    rcases bestStep_cases skip val init x with ⟨hst, hle⟩ | ⟨hsk, hlt, hst⟩
    · -- the head leaves the running best unchanged
      rw [hst] at ihA ihB ihC ihD ⊢
      refine ⟨?_, ihB, ?_, ?_⟩
      · rcases ihA with h | ⟨e, he, h1, h2, h3⟩
        · exact Or.inl h
        · exact Or.inr ⟨e, List.mem_cons_of_mem _ he, h1, h2, h3⟩
      · intro e he hs
        rcases List.mem_cons.mp he with rfl | he
        · exact le_trans (hle hs) ihB
        · exact ihC e he hs
      · intro hp e he hs hv hgt
        rw [List.pairwise_cons] at hp
        rcases List.mem_cons.mp he with rfl | he
        · exact absurd (hv ▸ hle hs) (not_le.mpr hgt)
        · exact ihD hp.2 e he hs hv hgt
    · -- the head becomes the running best
      rw [hst] at ihA ihB ihC ihD ⊢
      refine ⟨?_, le_trans (le_of_lt hlt) ihB, ?_, ?_⟩
      · right
        rcases ihA with h | ⟨e, he, h1, h2, h3⟩
        · exact ⟨x, List.mem_cons_self _ _, hsk, hlt, h⟩
        · exact ⟨e, List.mem_cons_of_mem _ he, h1, lt_trans hlt h2, h3⟩
      · intro e he hs
        rcases List.mem_cons.mp he with rfl | he
        · exact ihB
        · exact ihC e he hs
      · intro hp e he hs hv _
        rw [List.pairwise_cons] at hp
        rcases ihA with h | ⟨e', he', h1, h2, h3⟩
        · rw [h]
          rcases List.mem_cons.mp he with rfl | he
          · exact le_refl _
          · exact le_of_lt (hp.1 e he)
        · rcases List.mem_cons.mp he with rfl | he
          · rw [h3] at hv
            have h2' : val e.1 < val e'.1 := h2
            have hv' : val e.1 = val e'.1 := hv
            rw [hv'] at h2'
            exact absurd h2' (lt_irrefl _)
          · apply ihD hp.2 e he hs hv
            rw [h3]
            exact h2

/-! ### Bounds on the confidence of a qualifying candidate -/

theorem mem_scoresOf (attempts : List TestAttempt) (q : Nat) (a : String) (s : ℚ) :
    s ∈ scoresOf attempts q a ↔
      ∃ t ∈ attempts, t.answers[q]? = some a ∧ t.percentage = s := by
  simp only [scoresOf, List.mem_map, List.mem_filter, decide_eq_true_eq]
  constructor
  · rintro ⟨t, ⟨ht, hta⟩, hs⟩
    exact ⟨t, ht, hta, hs⟩
  · rintro ⟨t, ht, hta, hs⟩
    exact ⟨t, ⟨ht, hta⟩, hs⟩

theorem sum_sq_ge (l : List ℚ) (avg : ℚ) (h0 : ∀ s ∈ l, 0 ≤ s) (ha : avg ≤ 0) :
    (l.length : ℚ) * (avg * avg) ≤ (l.map (fun s => (s - avg) * (s - avg))).sum := by
  induction l with
  | nil => simp
  | cons s ss ih =>
    have hs := h0 s (List.mem_cons_self _ _)
    have := ih (fun y hy => h0 y (List.mem_cons_of_mem _ hy))
    rw [List.map_cons, List.sum_cons, List.length_cons]
    push_cast
    nlinarith [mul_nonneg hs hs, mul_nonneg hs (neg_nonneg.mpr ha)]

theorem length_ge_two_of_mixed (l : List ℚ) (hhi : ∃ s ∈ l, 20 ≤ s) (hlo : ∃ s ∈ l, s < 20) :
    2 ≤ l.length := by
  obtain ⟨s1, h1, hs1⟩ := hhi
  obtain ⟨s2, h2, hs2⟩ := hlo
  match l, h1, h2 with
  | [x], h1, h2 =>
    rw [List.mem_singleton] at h1 h2
    rw [h1] at hs1
    rw [h2] at hs2
    exact absurd hs1 (not_le.mpr hs2)
  | _ :: _ :: _, _, _ => simp

theorem specVariance_ge (scores : List ℚ) (avg : ℚ) (h0 : ∀ s ∈ scores, 0 ≤ s)
    (ha : avg ≤ 0) (hlen : 2 ≤ scores.length) : avg * avg ≤ specVariance scores avg := by
  unfold specVariance
  rw [if_neg (by omega)]
  have hn : (2 : ℚ) ≤ (scores.length : ℚ) := by exact_mod_cast hlen
  have hpos : (0 : ℚ) < (scores.length : ℚ) - 1 := by linarith
  rw [le_div_iff₀ hpos]
  have := sum_sq_ge scores avg h0 ha
  nlinarith [mul_self_nonneg avg]

theorem specWeightedScoreSum_nonneg (P : Prims) (hP : P.Lawful) (sorted : List TestAttempt)
    (q : Nat) (a : String)
    (hhi : ∀ t ∈ sorted, t.answers[q]? = some a → 20 ≤ t.percentage) :
    0 ≤ specWeightedScoreSum P sorted q a := by
  apply List.sum_nonneg
  intro x hx
  obtain ⟨it, hit, rfl⟩ := List.mem_map.mp hx
  rw [List.mem_filter] at hit
  have h20 := hhi it.2 (List.snd_mem_of_mem_enum hit.1) (by simpa using hit.2)
  have he := hP.exp_pos (-(1 / 10) * (it.1 : ℚ))
  rw [rankWeight, if_neg (not_lt.mpr h20), mul_one]
  exact mul_nonneg (by linarith) (le_of_lt he)

theorem specHighScoreRate_nonneg (sorted : List TestAttempt) (q : Nat) (a : String) :
    0 ≤ specHighScoreRate sorted q a := by
  unfold specHighScoreRate
  exact div_nonneg (Nat.cast_nonneg _) (Nat.cast_nonneg _)

theorem half_pow_bounds (k : Nat) : (0 : ℚ) < (1 / 2) ^ k ∧ ((1 : ℚ) / 2) ^ k ≤ 1 ∧
    (1 ≤ k → ((1 : ℚ) / 2) ^ k ≤ 1 / 2) := by
  refine ⟨by positivity, pow_le_one₀ (by norm_num) (by norm_num), ?_⟩
  intro hk
  obtain ⟨j, rfl⟩ : ∃ j, k = j + 1 := ⟨k - 1, by omega⟩
  rw [pow_succ]
  have : ((1 : ℚ) / 2) ^ j ≤ 1 := pow_le_one₀ (by norm_num) (by norm_num)
  linarith

theorem specRawConfidence_gt_neg_one (P : Prims) (hP : P.Lawful) (attempts : List TestAttempt)
    (q : Nat) (a : String) (hpct : ∀ t ∈ attempts, 0 ≤ t.percentage)
    (hqual : Qualifies attempts q a) : -1 < specRawConfidence P attempts q a := by
  have hperm := hP.sort_perm attempts
  have h0 : ∀ s ∈ scoresOf attempts q a, 0 ≤ s := by
    intro s hs
    obtain ⟨t, ht, -, rfl⟩ := (mem_scoresOf attempts q a s).mp hs
    exact hpct t ht
  have hhi : ∃ s ∈ scoresOf attempts q a, 20 ≤ s := by
    obtain ⟨t, ht, hta, h20⟩ := hqual
    exact ⟨t.percentage, (mem_scoresOf attempts q a _).mpr ⟨t, ht, hta, rfl⟩, h20⟩
  have hocc : ∃ t ∈ P.sort attempts, t.answers[q]? = some a := by
    obtain ⟨t, ht, hta, -⟩ := hqual
    exact ⟨t, hperm.mem_iff.mpr ht, hta⟩
  have htw := specTotalAbsWeight_pos P hP (P.sort attempts) q a hocc
  have hrate := specHighScoreRate_nonneg (P.sort attempts) q a
  unfold specRawConfidence
  simp only
  generalize hav : specWeightedScoreSum P (P.sort attempts) q a /
    specTotalAbsWeight P (P.sort attempts) q a = avg
  have hD := sqrt_denominator_pos P hP (specVariance (scoresOf attempts q a) avg)
  have hpow := half_pow_bounds ((scoresOf attempts q a).countP (fun s => decide (s < 20)))
  by_cases havg : 0 ≤ avg
  · have : 0 ≤ (avg * (3 / 10) + specHighScoreRate (P.sort attempts) q a * 100 * (7 / 10)) /
        (1 + P.sqrt (specVariance (scoresOf attempts q a) avg) * (2 / 10)) *
        (1 / 2) ^ ((scoresOf attempts q a).countP (fun s => decide (s < 20))) := by
      apply mul_nonneg _ (le_of_lt hpow.1)
      apply div_nonneg _ (le_of_lt hD)
      nlinarith
    linarith
  · have havg' : avg < 0 := not_le.mp havg
    -- a negative average needs an occurrence with a score below 20
    have hlo : ∃ s ∈ scoresOf attempts q a, s < 20 := by
      by_contra hc
      have hall : ∀ t ∈ P.sort attempts, t.answers[q]? = some a → 20 ≤ t.percentage := by
        intro t ht hta
        by_contra h20
        exact hc ⟨t.percentage,
          (mem_scoresOf attempts q a _).mpr ⟨t, hperm.mem_iff.mp ht, hta, rfl⟩, not_le.mp h20⟩
      have hws := specWeightedScoreSum_nonneg P hP (P.sort attempts) q a hall
      have : 0 ≤ avg := by
        rw [← hav]
        exact div_nonneg hws (le_of_lt htw)
      exact havg this
    have hk : 1 ≤ (scoresOf attempts q a).countP (fun s => decide (s < 20)) := by
      apply List.countP_pos_iff.mpr
      obtain ⟨s, hs, hs20⟩ := hlo
      exact ⟨s, hs, by simpa using hs20⟩
    have hvar := specVariance_ge (scoresOf attempts q a) avg h0 (le_of_lt havg')
      (length_ge_two_of_mixed _ hhi hlo)
    have hsq := hP.sqrt_sq_ge (specVariance (scoresOf attempts q a) avg)
      (le_trans (mul_self_nonneg avg) hvar)
    have hsn := hP.sqrt_nonneg (specVariance (scoresOf attempts q a) avg)
    generalize P.sqrt (specVariance (scoresOf attempts q a) avg) = r at hD hsq hsn ⊢
    have hr : -avg ≤ r := by
      by_contra hc
      have hc' : r < -avg := not_le.mp hc
      nlinarith
    generalize specHighScoreRate (P.sort attempts) q a = rate at hrate ⊢
    generalize ((1 : ℚ) / 2) ^ ((scoresOf attempts q a).countP (fun s => decide (s < 20))) = h
      at hpow ⊢
    have hh := hpow.2.2 hk
    have hy : -2 < (avg * (3 / 10) + rate * 100 * (7 / 10)) / (1 + r * (2 / 10)) := by
      rw [lt_div_iff₀ hD]
      nlinarith
    generalize (avg * (3 / 10) + rate * 100 * (7 / 10)) / (1 + r * (2 / 10)) = y at hy ⊢
    by_cases hy0 : 0 ≤ y
    · have := mul_nonneg hy0 (le_of_lt hpow.1)
      linarith
    · have hy0' : y < 0 := not_le.mp hy0
      nlinarith [hpow.1]

/-! ### One question of `getAnswerConfidences` -/

theorem all_low_iff (attempts : List TestAttempt) (q : Nat) (a : String) :
    (scoresOf attempts q a).all (fun score => decide (score < 20)) = false ↔
      Qualifies attempts q a := by
  rw [Bool.eq_false_iff, ne_eq, List.all_eq_true]
  constructor
  · intro h
    by_contra hc
    apply h
    intro s hs
    obtain ⟨t, ht, hta, rfl⟩ := (mem_scoresOf attempts q a s).mp hs
    rw [decide_eq_true_eq]
    by_contra h20
    exact hc ⟨t, ht, hta, not_lt.mp h20⟩
  · rintro ⟨t, ht, hta, h20⟩ h
    have := h t.percentage ((mem_scoresOf attempts q a _).mpr ⟨t, ht, hta, rfl⟩)
    rw [decide_eq_true_eq] at this
    exact absurd h20 (not_le.mpr this)

theorem questionConfidence_spec (P : Prims) (hP : P.Lawful) (attempts : List TestAttempt)
    (q : Nat) (hq : ∀ t ∈ attempts, q < t.answers.length)
    (hpct : ∀ t ∈ attempts, 0 ≤ t.percentage) :
    ∃ best : String × ℚ,
      questionConfidence P attempts (P.sort attempts) q =
        some (best.1, max 0 (min 100 best.2)) ∧
      ((∀ a, ¬ Qualifies attempts q a) → best = ("", -1)) ∧
      ((∃ a, Qualifies attempts q a) →
        Qualifies attempts q best.1 ∧ best.2 = specRawConfidence P attempts q best.1 ∧
        ∀ a, Qualifies attempts q a →
          specRawConfidence P attempts q a ≤ best.2 ∧
          (specRawConfidence P attempts q a = best.2 → best.1 ≤ a)) := by
  have hperm := hP.sort_perm attempts
  have hqs : ∀ t ∈ P.sort attempts, q < t.answers.length :=
    fun t ht => hq t (hperm.mem_iff.mp ht)
  obtain ⟨m, hm, hsorted, hmem, hall⟩ := collectScores_spec attempts q hq
  obtain ⟨ws, tw, hw, hws, htw⟩ := accumulateWeights_spec P (P.sort attempts) q hqs
  have hsel : selectBest P (P.sort attempts) q ws tw m =
      some (m.foldl (fun best e =>
        if e.2.all (fun score => decide (score < 20)) then best
        else if specRawConfidence P attempts q e.1 > best.2 then
          (e.1, specRawConfidence P attempts q e.1)
        else best) ("", -1)) := by
    unfold selectBest
    apply foldlM_eq_some_foldl
    intro e he acc
    by_cases hs : e.2.all (fun score => decide (score < 20)) = true
    · simp only [hs, if_true]
      rfl
    · obtain ⟨hocc, hsc⟩ := hmem e he
      simp only [hs, Bool.false_eq_true, if_false]
      rw [hsc, candidateConfidence_spec P hP attempts q e.1 hq hocc ws tw (hws e.1) (htw e.1)]
      rfl
  obtain ⟨hA, -, hC, hD⟩ := foldl_best_spec
    (fun e : String × List ℚ => e.2.all (fun score => decide (score < 20)))
    (specRawConfidence P attempts q) m ("", -1)
  have hskip : ∀ e ∈ m, (e.2.all (fun score => decide (score < 20)) = false ↔
      Qualifies attempts q e.1) := by
    intro e he
    rw [(hmem e he).2]
    exact all_low_iff attempts q e.1
  have hin : ∀ a, Qualifies attempts q a → (a, scoresOf attempts q a) ∈ m := by
    rintro a ⟨t, ht, hta, -⟩
    exact hall t ht a hta
  refine ⟨m.foldl (fun best e =>
        if e.2.all (fun score => decide (score < 20)) then best
        else if specRawConfidence P attempts q e.1 > best.2 then
          (e.1, specRawConfidence P attempts q e.1)
        else best) ("", -1), ?_, ?_, ?_⟩
  · unfold questionConfidence
    rw [hm, hw]
    simp only [Option.bind_eq_bind, Option.some_bind]
    rw [hsel]
    rfl
  · intro hnone
    rcases hA with h | ⟨e, he, hsk, -, -⟩
    · exact h
    · exact absurd ((hskip e he).mp hsk) (hnone e.1)
  · rintro ⟨a0, ha0⟩
    have hgt := specRawConfidence_gt_neg_one P hP attempts q a0 hpct ha0
    have hle := hC (a0, scoresOf attempts q a0) (hin a0 ha0) ((all_low_iff attempts q a0).mpr ha0)
    have hinit : (("", -1) : String × ℚ).2 < (m.foldl (fun best e =>
        if e.2.all (fun score => decide (score < 20)) then best
        else if specRawConfidence P attempts q e.1 > best.2 then
          (e.1, specRawConfidence P attempts q e.1)
        else best) ("", -1)).2 := lt_of_lt_of_le hgt hle
    rcases hA with h | ⟨e, he, hsk, -, h⟩
    · rw [h] at hinit
      exact absurd hinit (lt_irrefl _)
    · refine ⟨?_, ?_, ?_⟩
      · rw [h]
        exact (hskip e he).mp hsk
      · rw [h]
      · intro a ha
        have hsa := (all_low_iff attempts q a).mpr ha
        have h1 := hC (a, scoresOf attempts q a) (hin a ha) hsa
        have h2 := hD hsorted (a, scoresOf attempts q a) (hin a ha) hsa
        exact ⟨h1, fun heq => h2 heq hinit⟩

/-! ### The question loop -/

theorem mapM_range_spec {β : Type} (f : Nat → Option β) (Q : Nat → β → Prop) (n : Nat)
    (h : ∀ q, q < n → ∃ y, f q = some y ∧ Q q y) :
    ∃ ys, (List.range n).mapM f = some ys ∧ ys.length = n ∧
      ∀ q, q < n → ∃ y, ys[q]? = some y ∧ Q q y := by
  induction n with
  | zero =>
    exact ⟨[], rfl, rfl, fun q hq => absurd hq (Nat.not_lt_zero q)⟩
  | succ n ih =>
    obtain ⟨ys, hys, hlen, hQ⟩ := ih (fun q hq => h q (Nat.lt_succ_of_lt hq))
    obtain ⟨y, hy, hQy⟩ := h n (Nat.lt_succ_self n)
    refine ⟨ys ++ [y], ?_, ?_, ?_⟩
    · rw [List.range_succ, List.mapM_append, hys, List.mapM_cons, hy, List.mapM_nil]
      rfl
    · rw [List.length_append, hlen]
      rfl
    · intro q hq
      rcases Nat.lt_succ_iff_lt_or_eq.mp hq with hlt | rfl
      · obtain ⟨y', hy', hQ'⟩ := hQ q hlt
        refine ⟨y', ?_, hQ'⟩
        rw [List.getElem?_append_left (by rw [hlen]; exact hlt)]
        exact hy'
      · refine ⟨y, ?_, hQy⟩
        rw [List.getElem?_append_right (by rw [hlen]), hlen, Nat.sub_self]
        rfl

theorem storeInv_index (s : AnswerAnalyzer) (hinv : StoreInv s) (first : TestAttempt)
    (rest : List TestAttempt) (hat : s.attempts = first :: rest) (q : Nat)
    (hq : q < first.answers.length) : ∀ t ∈ s.attempts, q < t.answers.length := by
  intro t ht
  rw [hinv.2 t ht first (by rw [hat]; exact List.mem_cons_self _ _)]
  exact hq

theorem getAnswerConfidences_spec (P : Prims) (hP : P.Lawful) (s : AnswerAnalyzer)
    (hinv : StoreInv s) (first : TestAttempt) (rest : List TestAttempt)
    (hat : s.attempts = first :: rest) :
    ∃ r, getAnswerConfidences P s = some r ∧ r.length = first.answers.length ∧
      ∀ q, q < first.answers.length → ∃ entry, r[q]? = some entry ∧
        ∃ best : String × ℚ, entry = (best.1, max 0 (min 100 best.2)) ∧
          ((∀ a, ¬ Qualifies s.attempts q a) → best = ("", -1)) ∧
          ((∃ a, Qualifies s.attempts q a) →
            Qualifies s.attempts q best.1 ∧
            best.2 = specRawConfidence P s.attempts q best.1 ∧
            ∀ a, Qualifies s.attempts q a →
              specRawConfidence P s.attempts q a ≤ best.2 ∧
              (specRawConfidence P s.attempts q a = best.2 → best.1 ≤ a)) := by
  have hdef : getAnswerConfidences P s = (List.range first.answers.length).mapM
      (questionConfidence P s.attempts (P.sort s.attempts)) := by
    unfold getAnswerConfidences
    rw [hat]
  rw [hdef]
  apply mapM_range_spec
  intro q hq
  obtain ⟨best, hb, h1, h2⟩ := questionConfidence_spec P hP s.attempts q
    (storeInv_index s hinv first rest hat q hq) (fun t ht => (hinv.1 t ht).2.2.1)
  exact ⟨_, hb, best, rfl, h1, h2⟩

theorem SMap.update_ne_nil {V : Type} (d : V) (f : V → V) (k : String) (m : SMap V) :
    SMap.update d f k m ≠ [] := by
  cases m with
  | nil => simp [SMap.update]
  | cons hd rest =>
    obtain ⟨k', v⟩ := hd
    simp only [SMap.update]
    split_ifs <;> simp

theorem addAttempt_cases (s : AnswerAnalyzer) (answers : List String) (p : ℚ) :
    (s.addAttempt answers p = (.ok (), { s with
        attempts := s.attempts ++ [⟨answers, p⟩], combinationsCalculated := false }) ∧
      ¬ (p < 0 ∨ p > 100) ∧ answers ≠ [] ∧ answers.length ≤ s.maxAnswers ∧
      ∀ first, s.attempts.head? = some first → answers.length = first.answers.length) ∨
    ((∃ e, s.addAttempt answers p = (.error e, s)) ∧
      (p < 0 ∨ p > 100 ∨ answers = [] ∨ answers.length > s.maxAnswers ∨
        ∃ first, s.attempts.head? = some first ∧ answers.length ≠ first.answers.length)) := by
  unfold addAttempt
  by_cases h1 : p < 0 ∨ p > 100
  · right
    rw [if_pos h1]
    exact ⟨⟨_, rfl⟩, by tauto⟩
  · rw [if_neg h1]
    by_cases h2 : answers.isEmpty ∨ answers.length > s.maxAnswers
    · right
      rw [if_pos h2]
      refine ⟨⟨_, rfl⟩, ?_⟩
      rcases h2 with h2 | h2
      · exact Or.inr (Or.inr (Or.inl (List.isEmpty_iff.mp h2)))
      · exact Or.inr (Or.inr (Or.inr (Or.inl h2)))
    · rw [if_neg h2]
      have h2a : answers ≠ [] := fun h => h2 (Or.inl (List.isEmpty_iff.mpr h))
      have h2b : answers.length ≤ s.maxAnswers := by
        by_contra h
        exact h2 (Or.inr (not_le.mp h))
      cases hat : s.attempts with
      | nil =>
        left
        exact ⟨rfl, h1, h2a, h2b, by simp⟩
      | cons first rest =>
        by_cases h3 : answers.length ≠ first.answers.length
        · right
          simp only [if_pos h3]
          exact ⟨⟨_, rfl⟩, Or.inr (Or.inr (Or.inr (Or.inr ⟨first, by simp, h3⟩)))⟩
        · left
          simp only [if_neg h3]
          refine ⟨trivial, h1, h2a, h2b, ?_⟩
          intro f hf
          simp only [List.head?_cons, Option.some.injEq] at hf
          subst hf
          exact not_not.mp h3

theorem failed_iff_of_cases (s : AnswerAnalyzer) (answers : List String) (p : ℚ) :
    Failed (s.addAttempt answers p) ↔
      (p < 0 ∨ p > 100 ∨ answers = [] ∨ answers.length > s.maxAnswers ∨
        ∃ first, s.attempts.head? = some first ∧ answers.length ≠ first.answers.length) := by
  rcases addAttempt_cases s answers p with ⟨hok, h1, h2, h3, h4⟩ | ⟨⟨e, he⟩, hc⟩
  · constructor
    · rintro ⟨e, he⟩
      rw [hok] at he
      cases he
    · rintro (h | h | h | h | ⟨f, hf, hne⟩)
      · exact absurd (Or.inl h) h1
      · exact absurd (Or.inr h) h1
      · exact absurd h h2
      · exact absurd h3 (not_le.mpr h)
      · exact absurd (h4 f hf) hne
  · exact ⟨fun _ => hc, fun _ => ⟨e, by rw [he]⟩⟩

theorem failed_post (s : AnswerAnalyzer) (answers : List String) (p : ℚ)
    (h : Failed (s.addAttempt answers p)) : (s.addAttempt answers p).2 = s := by
  rcases addAttempt_cases s answers p with ⟨hok, -⟩ | ⟨⟨e, he⟩, -⟩
  · obtain ⟨e, he⟩ := h
    rw [hok] at he
    cases he
  · rw [he]

/-- C1: `addAttempt` throws exactly when the percentage is below 0 or above 100, or
the answer list is empty or longer than `maxAnswers`, or the store is non-empty and
the answer list differs in length from the first stored attempt; otherwise it
returns normally and the attempt list is the old one with the new attempt appended. -/
theorem addAttempt_fails_iff (s : AnswerAnalyzer) (answers : List String) (p : ℚ) :
    (Failed (s.addAttempt answers p) ↔
      (p < 0 ∨ p > 100 ∨ answers = [] ∨ answers.length > s.maxAnswers ∨
        ∃ first, s.attempts.head? = some first ∧ answers.length ≠ first.answers.length)) ∧
    (¬ Failed (s.addAttempt answers p) →
      (s.addAttempt answers p).1 = .ok () ∧
      (s.addAttempt answers p).2.attempts = s.attempts ++ [⟨answers, p⟩]) := by
  refine ⟨failed_iff_of_cases s answers p, ?_⟩
  intro hnf
  rcases addAttempt_cases s answers p with ⟨hok, -⟩ | ⟨⟨e, he⟩, -⟩
  · rw [hok]
    exact ⟨rfl, rfl⟩
  · exact absurd ⟨e, by rw [he]⟩ hnf

/-- C2: a throwing `addAttempt` leaves the object exactly as it was; a percentage
of -1 or of 101 always throws and keeps the attempt count, and an answer list whose
length differs from the first stored attempt's always throws and keeps the store. -/
theorem addAttempt_failure_keeps_store (s : AnswerAnalyzer) (answers : List String) (p : ℚ) :
    (Failed (s.addAttempt answers p) → (s.addAttempt answers p).2 = s) ∧
    (Failed (s.addAttempt answers (-1)) ∧
      (s.addAttempt answers (-1)).2.getNumAttempts = s.getNumAttempts) ∧
    (Failed (s.addAttempt answers 101) ∧
      (s.addAttempt answers 101).2.getNumAttempts = s.getNumAttempts) ∧
    (∀ first, s.attempts.head? = some first → answers.length ≠ first.answers.length →
      Failed (s.addAttempt answers p) ∧ (s.addAttempt answers p).2 = s) := by
  have hm : Failed (s.addAttempt answers (-1)) :=
    (failed_iff_of_cases s answers (-1)).mpr (Or.inl (by norm_num))
  have hM : Failed (s.addAttempt answers 101) :=
    (failed_iff_of_cases s answers 101).mpr (Or.inr (Or.inl (by norm_num)))
  refine ⟨failed_post s answers p, ⟨hm, ?_⟩, ⟨hM, ?_⟩, ?_⟩
  · rw [failed_post s answers (-1) hm]
  · rw [failed_post s answers 101 hM]
  · intro first hf hne
    have hF : Failed (s.addAttempt answers p) :=
      (failed_iff_of_cases s answers p).mpr (Or.inr (Or.inr (Or.inr (Or.inr ⟨first, hf, hne⟩))))
    exact ⟨hF, failed_post s answers p hF⟩

theorem storeInv_new (maxAns : Nat) : StoreInv (new maxAns) := by
  constructor <;> intro a ha <;> simp [new] at ha

theorem storeInv_clear (s : AnswerAnalyzer) : StoreInv s.clear := by
  constructor <;> intro a ha <;> simp [clear] at ha

theorem storeInv_addAttempt (s : AnswerAnalyzer) (answers : List String) (p : ℚ)
    (h : StoreInv s) : StoreInv (s.addAttempt answers p).2 := by
  rcases addAttempt_cases s answers p with ⟨hok, h1, h2, h3, h4⟩ | ⟨⟨e, he⟩, -⟩
  · rw [hok]
    have hlen : 1 ≤ answers.length := List.length_pos.mpr h2
    have hp : 0 ≤ p ∧ p ≤ 100 := by
      constructor
      · by_contra hc
        exact h1 (Or.inl (not_le.mp hc))
      · by_contra hc
        exact h1 (Or.inr (not_le.mp hc))
    have hsame : ∀ a ∈ s.attempts, a.answers.length = answers.length := by
      intro a ha
      cases hat : s.attempts with
      | nil => rw [hat] at ha; cases ha
      | cons first rest =>
        have hf := h4 first (by rw [hat]; rfl)
        rw [hf]
        exact h.2 a ha first (by rw [hat]; exact List.mem_cons_self _ _)
    constructor
    · intro a ha
      simp only [List.mem_append, List.mem_singleton] at ha
      rcases ha with ha | rfl
      · exact h.1 a ha
      · exact ⟨hlen, h3, hp.1, hp.2⟩
    · intro a ha b hb
      simp only [List.mem_append, List.mem_singleton] at ha hb
      rcases ha with ha | rfl <;> rcases hb with hb | rfl
      · exact h.2 a ha b hb
      · exact hsame a ha
      · exact (hsame b hb).symm
      · rfl
  · rw [he]
    exact h

/-- When every percentage passed is a finite number: each store reached from a fresh
analyzer by `addAttempt` calls (whether they throw or not) and `clear` calls
satisfies the store invariant. -/
theorem reachable_storeInv (s : AnswerAnalyzer) (h : Reachable s) : StoreInv s := by
  induction h with
  | init maxAns => exact storeInv_new maxAns
  | add answers p _ ih => exact storeInv_addAttempt _ answers p ih
  | clear _ _ => exact storeInv_clear _

/-! ### `addAttempt` and NaN -/

/-- On a percentage that is a finite number `addAttemptDouble` does what `addAttempt`
of the rational embedding does: the same outcome and the same stored attempts. -/
theorem addAttemptDouble_finite (s : AnswerAnalyzer) (answers : List String) (p : ℚ) :
    addAttemptDouble s.maxAnswers (s.attempts.map TestAttempt.toDouble) answers (.finite p) =
      ((s.addAttempt answers p).1,
        (s.addAttempt answers p).2.attempts.map TestAttempt.toDouble) := by
  unfold addAttemptDouble addAttempt
  have hguard : ((DoubleValue.finite p).lt (.finite 0) ||
      (DoubleValue.finite 100).lt (.finite p)) = decide (p < 0 ∨ p > 100) := by
    simp [DoubleValue.lt]
  rw [hguard]
  by_cases h1 : p < 0 ∨ p > 100
  · simp only [h1, decide_True, if_true]
  · simp only [h1, decide_False, Bool.false_eq_true, if_false]
    by_cases h2 : answers.isEmpty = true ∨ answers.length > s.maxAnswers
    · simp only [h2, if_true]
    · simp only [h2, if_false]
      cases hat : s.attempts with
      | nil => simp [TestAttempt.toDouble]
      | cons first rest =>
        by_cases h3 : answers.length ≠ first.answers.length
        · simp [TestAttempt.toDouble, h3, hat]
        · have h3' : answers.length = first.answers.length := not_not.mp h3
          simp [TestAttempt.toDouble, h3', hat]

/-- C3, evaluated at the failing input: on a fresh analyzer `addAttempt({"A"}, NaN)`
passes the three guards, both comparisons of the range guard being false for NaN,
and stores an attempt whose percentage does not lie in `[0, 100]`. -/
theorem addAttempt_stores_nan :
    addAttemptDouble (new 10).maxAnswers ((new 10).attempts.map TestAttempt.toDouble)
        ["A"] .nan = (.ok (), [⟨["A"], .nan⟩]) ∧
    ¬ DoubleValue.InRange .nan := by
  refine ⟨rfl, ?_⟩
  rintro ⟨q, hq, -⟩
  cases hq

/-! ### The reference library routines and the example stores -/

theorem refPrims_lawful : refPrims.Lawful := by
  haveI : IsTotal TestAttempt (fun a b => b.percentage ≤ a.percentage) :=
    ⟨fun a b => le_total _ _⟩
  haveI : IsTrans TestAttempt (fun a b => b.percentage ≤ a.percentage) :=
    ⟨fun _ _ _ hab hbc => le_trans hbc hab⟩
  refine ⟨?_, ?_, ?_, ?_, ?_, ?_⟩
  · intro l
    exact List.perm_insertionSort _ l
  · intro l
    exact List.sorted_insertionSort _ l
  · intro x
    show 0 < 1 / (1 - x + x * x / 2)
    apply div_pos one_pos
    nlinarith [mul_self_nonneg (x - 1)]
  · intro x
    show 0 ≤ if x ≤ 0 then 0 else (x + 1) / 2
    split_ifs with h
    · exact le_refl _
    · linarith
  · show (if (0 : ℚ) ≤ 0 then (0 : ℚ) else (0 + 1) / 2) = 0
    simp
  · intro x hx
    show x ≤ (if x ≤ 0 then 0 else (x + 1) / 2) * (if x ≤ 0 then 0 else (x + 1) / 2)
    split_ifs with h
    · linarith
    · nlinarith [mul_self_nonneg (x - 1)]

theorem scenarioStore_attempts : scenarioStore.attempts =
    [⟨["A", "B"], 90⟩, ⟨["A", "C"], 10⟩, ⟨["A", "B"], 95⟩] := by
  norm_num [scenarioStore, addAttempt, new]

theorem scenarioStore_inv : StoreInv scenarioStore :=
  storeInv_addAttempt _ _ _ (storeInv_addAttempt _ _ _ (storeInv_addAttempt _ _ _
    (storeInv_new 10)))

theorem emptyAnswerStore_attempts : emptyAnswerStore.attempts = [⟨[""], 10⟩] := by
  norm_num [emptyAnswerStore, addAttempt, new]

theorem emptyAnswerStore_inv : StoreInv emptyAnswerStore :=
  storeInv_addAttempt _ _ _ (storeInv_new 10)

theorem specWeightedScoreSum_le (P : Prims) (sorted : List TestAttempt) (q : Nat) (a : String)
    (M : ℚ) (hpct : ∀ t ∈ sorted, 0 ≤ t.percentage) (hM : ∀ t ∈ sorted, t.percentage ≤ M) :
    specWeightedScoreSum P sorted q a ≤ M * specTotalAbsWeight P sorted q a := by
  unfold specWeightedScoreSum specTotalAbsWeight
  rw [← List.sum_map_mul_left]
  apply List.sum_le_sum
  intro it hit
  rw [List.mem_filter] at hit
  have hmem := List.snd_mem_of_mem_enum hit.1
  calc it.2.percentage * rankWeight P it.1 it.2.percentage
      ≤ it.2.percentage * |rankWeight P it.1 it.2.percentage| :=
        mul_le_mul_of_nonneg_left (le_abs_self _) (hpct it.2 hmem)
    _ ≤ M * |rankWeight P it.1 it.2.percentage| :=
        mul_le_mul_of_nonneg_right (hM it.2 hmem) (abs_nonneg _)

theorem specHighScoreRate_le_one (sorted : List TestAttempt) (q : Nat) (a : String) :
    specHighScoreRate sorted q a ≤ 1 := by
  unfold specHighScoreRate
  have hpos : (0 : ℚ) < ((sorted.length / 2 + 1 : Nat) : ℚ) := by
    exact_mod_cast Nat.succ_pos _
  rw [div_le_one hpos]
  have h1 : (sorted.take (sorted.length / 2 + 1)).countP
      (fun t => decide (t.answers[q]? = some a ∧ 40 ≤ t.percentage)) ≤
      sorted.length / 2 + 1 :=
    le_trans (List.countP_le_length _) (List.length_take_le _ _)
  exact_mod_cast h1

theorem specRawConfidence_le_of_low (P : Prims) (hP : P.Lawful) (attempts : List TestAttempt)
    (q : Nat) (a : String) (M : ℚ) (hM0 : 0 ≤ M)
    (hpct : ∀ t ∈ attempts, 0 ≤ t.percentage) (hM : ∀ t ∈ attempts, t.percentage ≤ M)
    (hlow : ∃ t ∈ attempts, t.answers[q]? = some a ∧ t.percentage < 20) :
    specRawConfidence P attempts q a ≤ (M * (3 / 10) + 70) / 2 := by
  have hperm := hP.sort_perm attempts
  have hocc : ∃ t ∈ P.sort attempts, t.answers[q]? = some a := by
    obtain ⟨t, ht, hta, -⟩ := hlow
    exact ⟨t, hperm.mem_iff.mpr ht, hta⟩
  have htw := specTotalAbsWeight_pos P hP (P.sort attempts) q a hocc
  have hws := specWeightedScoreSum_le P (P.sort attempts) q a M
    (fun t ht => hpct t (hperm.mem_iff.mp ht)) (fun t ht => hM t (hperm.mem_iff.mp ht))
  have hrate := specHighScoreRate_le_one (P.sort attempts) q a
  have hk : 1 ≤ (scoresOf attempts q a).countP (fun s => decide (s < 20)) := by
    apply List.countP_pos_iff.mpr
    obtain ⟨t, ht, hta, h20⟩ := hlow
    exact ⟨t.percentage, (mem_scoresOf attempts q a _).mpr ⟨t, ht, hta, rfl⟩, by simpa using h20⟩
  unfold specRawConfidence
  simp only
  have havg : specWeightedScoreSum P (P.sort attempts) q a /
      specTotalAbsWeight P (P.sort attempts) q a ≤ M := by
    rw [div_le_iff₀ htw]
    exact hws
  generalize specWeightedScoreSum P (P.sort attempts) q a /
    specTotalAbsWeight P (P.sort attempts) q a = avg at havg ⊢
  have hD := hP.sqrt_nonneg (specVariance (scoresOf attempts q a) avg)
  generalize P.sqrt (specVariance (scoresOf attempts q a) avg) = r at hD ⊢
  have hpow := half_pow_bounds ((scoresOf attempts q a).countP (fun s => decide (s < 20)))
  have hh := hpow.2.2 hk
  generalize ((1 : ℚ) / 2) ^ ((scoresOf attempts q a).countP (fun s => decide (s < 20))) = h
    at hpow hh ⊢
  generalize specHighScoreRate (P.sort attempts) q a = rate at hrate ⊢
  have hDpos : (0 : ℚ) < 1 + r * (2 / 10) := by linarith
  have hy : (avg * (3 / 10) + rate * 100 * (7 / 10)) / (1 + r * (2 / 10)) ≤
      M * (3 / 10) + 70 := by
    rw [div_le_iff₀ hDpos]
    nlinarith
  generalize (avg * (3 / 10) + rate * 100 * (7 / 10)) / (1 + r * (2 / 10)) = y at hy ⊢
  by_cases hy0 : 0 ≤ y
  · nlinarith [hpow.1]
  · have hy0' : y < 0 := not_le.mp hy0
    nlinarith [hpow.1]

theorem scenario_q0 (a : String) (h : Qualifies scenarioStore.attempts 0 a) : a = "A" := by
  obtain ⟨t, ht, hta, h20⟩ := h
  rw [scenarioStore_attempts] at ht
  simp only [List.mem_cons, List.mem_singleton, List.not_mem_nil, or_false] at ht
  rcases ht with rfl | rfl | rfl <;> simpa using hta.symm

theorem scenario_q1 (a : String) (h : Qualifies scenarioStore.attempts 1 a) : a = "B" := by
  obtain ⟨t, ht, hta, h20⟩ := h
  rw [scenarioStore_attempts] at ht
  simp only [List.mem_cons, List.mem_singleton, List.not_mem_nil, or_false] at ht
  rcases ht with rfl | rfl | rfl
  · simpa using hta.symm
  · norm_num at h20
  · simpa using hta.symm

theorem scenario_qualifies_q0 : Qualifies scenarioStore.attempts 0 "A" := by
  rw [scenarioStore_attempts]
  exact ⟨⟨["A", "B"], 90⟩, by simp, rfl, by norm_num⟩

theorem scenario_qualifies_q1 : Qualifies scenarioStore.attempts 1 "B" := by
  rw [scenarioStore_attempts]
  exact ⟨⟨["A", "B"], 90⟩, by simp, rfl, by norm_num⟩

theorem scenario_disqualified_C : Disqualified scenarioStore.attempts 1 "C" := by
  rw [scenarioStore_attempts]
  refine ⟨⟨⟨["A", "C"], 10⟩, by simp, rfl⟩, ?_⟩
  intro t ht hta
  simp only [List.mem_cons, List.mem_singleton, List.not_mem_nil, or_false] at ht
  rcases ht with rfl | rfl | rfl
  · simp at hta
  · norm_num
  · simp at hta

theorem scenario_confidences (P : Prims) (hP : P.Lawful) :
    ∃ c0 c1, getAnswerConfidences P scenarioStore = some [("A", c0), ("B", c1)] ∧
      c0 = max 0 (min 100 (specRawConfidence P scenarioStore.attempts 0 "A")) ∧
      c1 = max 0 (min 100 (specRawConfidence P scenarioStore.attempts 1 "B")) := by
  obtain ⟨r, hr, hlen, hent⟩ := getAnswerConfidences_spec P hP scenarioStore scenarioStore_inv
    ⟨["A", "B"], 90⟩ [⟨["A", "C"], 10⟩, ⟨["A", "B"], 95⟩] scenarioStore_attempts
  obtain ⟨e0, he0, b0, hb0, -, hq0⟩ := hent 0 (by decide)
  obtain ⟨e1, he1, b1, hb1, -, hq1⟩ := hent 1 (by decide)
  obtain ⟨hQ0, hv0, -⟩ := hq0 ⟨"A", scenario_qualifies_q0⟩
  obtain ⟨hQ1, hv1, -⟩ := hq1 ⟨"B", scenario_qualifies_q1⟩
  have ha0 := scenario_q0 b0.1 hQ0
  have ha1 := scenario_q1 b1.1 hQ1
  rw [ha0] at hv0
  rw [ha1] at hv1
  rw [hv0, ha0] at hb0
  rw [hv1, ha1] at hb1
  match r, hlen, he0, he1 with
  | [x, y], _, he0, he1 =>
    simp only [List.getElem?_cons_zero, List.getElem?_cons_succ, Option.some.injEq] at he0 he1
    rw [he0, he1, hb0, hb1] at hr
    exact ⟨_, _, hr, rfl, rfl⟩

theorem scenario_raw_q0_lt (P : Prims) (hP : P.Lawful) :
    specRawConfidence P scenarioStore.attempts 0 "A" < 50 := by
  have h := specRawConfidence_le_of_low P hP scenarioStore.attempts 0 "A" 95 (by norm_num)
    (by
      intro t ht
      rw [scenarioStore_attempts] at ht
      simp only [List.mem_cons, List.mem_singleton, List.not_mem_nil, or_false] at ht
      rcases ht with rfl | rfl | rfl <;> norm_num)
    (by
      intro t ht
      rw [scenarioStore_attempts] at ht
      simp only [List.mem_cons, List.mem_singleton, List.not_mem_nil, or_false] at ht
      rcases ht with rfl | rfl | rfl <;> norm_num)
    (by
      rw [scenarioStore_attempts]
      exact ⟨⟨["A", "C"], 10⟩, by simp, rfl, by norm_num⟩)
  have : ((95 : ℚ) * (3 / 10) + 70) / 2 < 50 := by norm_num
  exact lt_of_le_of_lt h this

/-! ### Claims about the analysis methods -/

theorem head?_eq_cons (s : AnswerAnalyzer) (first : TestAttempt)
    (h : s.attempts.head? = some first) : ∃ rest, s.attempts = first :: rest := by
  cases hat : s.attempts with
  | nil => rw [hat] at h; cases h
  | cons x rest =>
    rw [hat] at h
    simp only [List.head?_cons, Option.some.injEq] at h
    exact ⟨rest, by rw [h]⟩

/-- C5: for the scenario store `getAnswerConfidences` returns best answer "A" for
question 0 and "B" for question 1, so `suggestNextAttempt` returns `["A", "B"]`;
"C" is observed at question 1 only in the attempt scoring below 20. -/
theorem scenario_best_answers (P : Prims) (hP : P.Lawful) :
    (∃ c0 c1, getAnswerConfidences P scenarioStore = some [("A", c0), ("B", c1)]) ∧
    suggestNextAttempt P scenarioStore = some ["A", "B"] ∧
    Disqualified scenarioStore.attempts 1 "C" := by
  obtain ⟨c0, c1, h, -, -⟩ := scenario_confidences P hP
  refine ⟨⟨c0, c1, h⟩, ?_, scenario_disqualified_C⟩
  unfold suggestNextAttempt
  rw [h]
  rfl

theorem scenario_best_answers_witness :
    (∃ c0 c1, getAnswerConfidences refPrims scenarioStore = some [("A", c0), ("B", c1)]) ∧
    suggestNextAttempt refPrims scenarioStore = some ["A", "B"] ∧
    Disqualified scenarioStore.attempts 1 "C" :=
  scenario_best_answers refPrims refPrims_lawful

/-- C6, as the code has it: for the scenario store the confidence reported for
question 0 (best answer "A") is below 50, because the attempt scoring 10 halves
the confidence of "A". -/
theorem scenario_confidence_q0_low (P : Prims) (hP : P.Lawful) :
    ∃ c0 c1, getAnswerConfidences P scenarioStore = some [("A", c0), ("B", c1)] ∧ c0 < 50 := by
  obtain ⟨c0, c1, h, hc0, -⟩ := scenario_confidences P hP
  refine ⟨c0, c1, h, ?_⟩
  rw [hc0]
  exact max_lt (by norm_num)
    (lt_of_le_of_lt (min_le_right _ _) (scenario_raw_q0_lt P hP))

theorem scenario_confidence_q0_low_witness :
    ∃ c0 c1, getAnswerConfidences refPrims scenarioStore = some [("A", c0), ("B", c1)] ∧
      c0 < 50 :=
  scenario_confidence_q0_low refPrims refPrims_lawful

/-- C6 as stated fails: whatever lawful library routines are used (and there are
some), the confidence reported for question 0 of the scenario store is never 50
or more. -/
theorem scenario_confidence_q0_not_high :
    refPrims.Lawful ∧
    ¬ ∃ P : Prims, P.Lawful ∧ ∃ r e, getAnswerConfidences P scenarioStore = some r ∧
      r[0]? = some e ∧ 50 ≤ e.2 := by
  refine ⟨refPrims_lawful, ?_⟩
  rintro ⟨P, hP, r, e, hr, he, h50⟩
  obtain ⟨c0, c1, h, hc0, -⟩ := scenario_confidences P hP
  rw [h] at hr
  simp only [Option.some.injEq] at hr
  subst hr
  simp only [List.getElem?_cons_zero, Option.some.injEq] at he
  subst he
  have hlt : c0 < 50 := by
    rw [hc0]
    exact max_lt (by norm_num)
      (lt_of_le_of_lt (min_le_right _ _) (scenario_raw_q0_lt P hP))
  exact absurd h50 (not_le.mpr hlt)

/-- C7, as the code has it: an observed answer other than the empty string all of
whose occurrences at `q` scored below 20 is never the best answer returned for `q`,
and when every answer observed at `q` is disqualified in this way the entry for `q`
is the empty string with confidence 0. -/
theorem disqualified_not_best (P : Prims) (hP : P.Lawful) (s : AnswerAnalyzer)
    (hinv : StoreInv s) (first : TestAttempt) (hfirst : s.attempts.head? = some first)
    (q : Nat) (hq : q < first.answers.length) :
    ∃ r e, getAnswerConfidences P s = some r ∧ r[q]? = some e ∧
      (∀ a, Disqualified s.attempts q a → a ≠ "" → e.1 ≠ a) ∧
      ((∀ a, (∃ t ∈ s.attempts, t.answers[q]? = some a) → Disqualified s.attempts q a) →
        e = ("", 0)) := by
  obtain ⟨rest, hat⟩ := head?_eq_cons s first hfirst
  obtain ⟨r, hr, -, hent⟩ := getAnswerConfidences_spec P hP s hinv first rest hat
  obtain ⟨e, he, best, hb, hnone, hsome⟩ := hent q hq
  have hclamp : max (0 : ℚ) (min 100 (-1)) = 0 := by norm_num
  refine ⟨r, e, hr, he, ?_, ?_⟩
  · intro a hdis hane
    by_cases hex : ∃ a', Qualifies s.attempts q a'
    · obtain ⟨⟨t, ht, hta, h20⟩, -, -⟩ := hsome hex
      rw [hb]
      intro heq
      simp only at heq
      rw [heq] at hta
      exact absurd (hdis.2 t ht hta) (not_lt.mpr h20)
    · have hb' := hnone (fun a' ha' => hex ⟨a', ha'⟩)
      rw [hb, hb']
      exact fun h => hane h.symm
  · intro hall
    have hb' := hnone (by
      rintro a ⟨t, ht, hta, h20⟩
      exact absurd ((hall a ⟨t, ht, hta⟩).2 t ht hta) (not_lt.mpr h20))
    rw [hb, hb']
    simp only [hclamp]

theorem emptyAnswer_disqualified : Disqualified emptyAnswerStore.attempts 0 "" := by
  rw [emptyAnswerStore_attempts]
  refine ⟨⟨⟨[""], 10⟩, by simp, rfl⟩, ?_⟩
  intro t ht _
  rw [List.mem_singleton] at ht
  rw [ht]
  norm_num

theorem disqualified_not_best_witness :
    ∃ r e, getAnswerConfidences refPrims emptyAnswerStore = some r ∧ r[0]? = some e ∧
      (∀ a, Disqualified emptyAnswerStore.attempts 0 a → a ≠ "" → e.1 ≠ a) ∧
      ((∀ a, (∃ t ∈ emptyAnswerStore.attempts, t.answers[0]? = some a) →
          Disqualified emptyAnswerStore.attempts 0 a) →
        e = ("", 0)) :=
  disqualified_not_best refPrims refPrims_lawful emptyAnswerStore emptyAnswerStore_inv
    ⟨[""], 10⟩ (by rw [emptyAnswerStore_attempts]; rfl) 0 (by decide)

/-- C7 as stated fails: in the store holding the single attempt `([""], 10)` the
empty string is an observed answer at question 0 whose only occurrence scored below
20, and it is the best answer `getAnswerConfidences` returns for question 0. -/
theorem emptyAnswer_returned :
    Disqualified emptyAnswerStore.attempts 0 "" ∧
    getAnswerConfidences refPrims emptyAnswerStore = some [("", 0)] := by
  refine ⟨emptyAnswer_disqualified, ?_⟩
  obtain ⟨r, hr, hlen, hent⟩ := getAnswerConfidences_spec refPrims refPrims_lawful
    emptyAnswerStore emptyAnswerStore_inv ⟨[""], 10⟩ [] emptyAnswerStore_attempts
  obtain ⟨e, he, best, hb, hnone, -⟩ := hent 0 (by decide)
  have hb' := hnone (by
    rintro a ⟨t, ht, -, h20⟩
    rw [emptyAnswerStore_attempts, List.mem_singleton] at ht
    rw [ht] at h20
    norm_num at h20)
  have hclamp : max (0 : ℚ) (min 100 (-1)) = 0 := by norm_num
  rw [hb'] at hb
  simp only [hclamp] at hb
  match r, hlen, he with
  | [x], _, he =>
    simp only [List.getElem?_cons_zero, Option.some.injEq] at he
    rw [he, hb] at hr
    exact hr

/-- In exact arithmetic: at a question where some answer occurs in an attempt
scoring at least 20, the best answer returned is a qualifying candidate whose specified confidence is
maximal among the qualifying candidates, it is the lexicographically smallest of the
candidates attaining that maximum, the reported confidence is that maximum clamped
to `[0, 100]`, and every qualifying candidate's confidence exceeds the initial
`bestConfidence` of -1. -/
theorem best_answer_maximal (P : Prims) (hP : P.Lawful) (s : AnswerAnalyzer)
    (hinv : StoreInv s) (first : TestAttempt) (hfirst : s.attempts.head? = some first)
    (q : Nat) (hq : q < first.answers.length) (hex : ∃ a, Qualifies s.attempts q a) :
    ∃ r e, getAnswerConfidences P s = some r ∧ r[q]? = some e ∧
      Qualifies s.attempts q e.1 ∧
      (∀ a, Qualifies s.attempts q a →
        -1 < specRawConfidence P s.attempts q a ∧
        specRawConfidence P s.attempts q a ≤ specRawConfidence P s.attempts q e.1 ∧
        (specRawConfidence P s.attempts q a = specRawConfidence P s.attempts q e.1 →
          e.1 ≤ a)) ∧
      e.2 = max 0 (min 100 (specRawConfidence P s.attempts q e.1)) := by
  obtain ⟨rest, hat⟩ := head?_eq_cons s first hfirst
  obtain ⟨r, hr, -, hent⟩ := getAnswerConfidences_spec P hP s hinv first rest hat
  obtain ⟨e, he, best, hb, -, hsome⟩ := hent q hq
  obtain ⟨hQ, hv, hmax⟩ := hsome hex
  have h1 : e.1 = best.1 := by rw [hb]
  have h2 : e.2 = max 0 (min 100 best.2) := by rw [hb]
  refine ⟨r, e, hr, he, ?_, ?_, ?_⟩
  · rw [h1]
    exact hQ
  · intro a ha
    obtain ⟨hle, htie⟩ := hmax a ha
    rw [h1, ← hv]
    exact ⟨specRawConfidence_gt_neg_one P hP s.attempts q a
      (fun t ht => (hinv.1 t ht).2.2.1) ha, hle, htie⟩
  · rw [h2, h1, ← hv]

theorem best_answer_maximal_witness :
    ∃ r e, getAnswerConfidences refPrims scenarioStore = some r ∧ r[1]? = some e ∧
      Qualifies scenarioStore.attempts 1 e.1 ∧
      (∀ a, Qualifies scenarioStore.attempts 1 a →
        -1 < specRawConfidence refPrims scenarioStore.attempts 1 a ∧
        specRawConfidence refPrims scenarioStore.attempts 1 a ≤
          specRawConfidence refPrims scenarioStore.attempts 1 e.1 ∧
        (specRawConfidence refPrims scenarioStore.attempts 1 a =
            specRawConfidence refPrims scenarioStore.attempts 1 e.1 →
          e.1 ≤ a)) ∧
      e.2 = max 0 (min 100 (specRawConfidence refPrims scenarioStore.attempts 1 e.1)) :=
  best_answer_maximal refPrims refPrims_lawful scenarioStore scenarioStore_inv
    ⟨["A", "B"], 90⟩ (by rw [scenarioStore_attempts]; rfl) 1 (by decide)
    ⟨"B", scenario_qualifies_q1⟩

theorem reachable_storeInv_witness : Reachable scenarioStore ∧ StoreInv scenarioStore :=
  ⟨Reachable.add _ _ (Reachable.add _ _ (Reachable.add _ _ (Reachable.init 10))),
    reachable_storeInv scenarioStore
      (Reachable.add _ _ (Reachable.add _ _ (Reachable.add _ _ (Reachable.init 10))))⟩

/-! ### `predictScore` -/

theorem foldl_cond_add (c : Nat → Prop) [DecidablePred c] (w : Nat → ℚ) (l : List Nat)
    (init : ℚ) :
    l.foldl (fun acc i => if c i then acc + w i else acc) init =
      init + ((l.filter (fun i => decide (c i))).map w).sum := by
  induction l generalizing init with
  | nil => simp
  | cons x xs ih =>
    rw [List.foldl_cons, ih]
    by_cases h : c x
    · simp [h, List.filter_cons, add_assoc]
    · simp [h, List.filter_cons]

theorem confidences_bounds (P : Prims) (hP : P.Lawful) (s : AnswerAnalyzer)
    (hinv : StoreInv s) (first : TestAttempt) (rest : List TestAttempt)
    (hat : s.attempts = first :: rest) :
    ∃ r, getAnswerConfidences P s = some r ∧ r.length = first.answers.length ∧
      ∀ e ∈ r, 0 ≤ e.2 ∧ e.2 ≤ 100 := by
  obtain ⟨r, hr, hlen, hent⟩ := getAnswerConfidences_spec P hP s hinv first rest hat
  refine ⟨r, hr, hlen, ?_⟩
  intro e he
  obtain ⟨i, hi⟩ := List.mem_iff_getElem?.mp he
  have hlt : i < first.answers.length := by
    rw [← hlen]
    obtain ⟨h, -⟩ := List.getElem?_eq_some.mp hi
    exact h
  obtain ⟨e', he', best, hb, -, -⟩ := hent i hlt
  rw [hi] at he'
  simp only [Option.some.injEq] at he'
  rw [he', hb]
  exact ⟨le_max_left _ _, max_le (by norm_num) (min_le_left _ _)⟩

theorem specWeight_pos (confidences : List (String × ℚ))
    (hc : ∀ e ∈ confidences, 0 ≤ e.2 ∧ e.2 ≤ 100) (i : Nat) :
    0 < 1 + ((confidences[i]?).map (fun e => e.2)).getD 0 / 100 := by
  cases h : confidences[i]? with
  | none => simp
  | some e =>
    have := (hc e (List.mem_iff_getElem?.mpr ⟨i, h⟩)).1
    simp only [Option.map_some', Option.getD_some]
    linarith [div_nonneg this (by norm_num : (0 : ℚ) ≤ 100)]

theorem similarityTo_spec (P : Prims) (s : AnswerAnalyzer) (answers : List String)
    (t : TestAttempt) (confidences : List (String × ℚ))
    (hr : getAnswerConfidences P s = some confidences)
    (hlen : confidences.length = t.answers.length)
    (hc : ∀ e ∈ confidences, 0 ≤ e.2 ∧ e.2 ≤ 100) :
    similarityTo P s answers t = some (specSimilarity confidences answers t) := by
  have hstep : ∀ i ∈ List.range (min answers.length t.answers.length), ∀ acc : ℚ × ℚ,
      (do
        let confidences ← getAnswerConfidences P s
        let entry ← confidences[i]?
        let weight := 1 + entry.2 / 100
        let mine ← answers[i]?
        let theirs ← t.answers[i]?
        pure (if mine = theirs then acc.1 + weight else acc.1, acc.2 + weight)) =
      some ((fun (acc : ℚ × ℚ) (i : Nat) =>
        ((if answers[i]? = t.answers[i]? then
            acc.1 + (1 + ((confidences[i]?).map (fun e => e.2)).getD 0 / 100)
          else acc.1),
          acc.2 + (1 + ((confidences[i]?).map (fun e => e.2)).getD 0 / 100))) acc i) := by
    intro i hi acc
    rw [List.mem_range, lt_min_iff] at hi
    have h1 : i < confidences.length := by rw [hlen]; exact hi.2
    rw [hr]
    simp only [Option.bind_eq_bind, Option.some_bind, List.getElem?_eq_getElem h1,
      List.getElem?_eq_getElem hi.1, List.getElem?_eq_getElem hi.2, Option.map_some',
      Option.getD_some, Option.some.injEq]
    rfl
  have hfold := foldlM_eq_some_foldl _ _ _ hstep ((0 : ℚ), (0 : ℚ))
  unfold similarityTo
  rw [hfold]
  simp only [Option.bind_eq_bind, Option.some_bind]
  rw [foldl_pair
    (fun (a : ℚ) (i : Nat) => if answers[i]? = t.answers[i]? then
      a + (1 + ((confidences[i]?).map (fun e => e.2)).getD 0 / 100) else a)
    (fun (b : ℚ) (i : Nat) => b + (1 + ((confidences[i]?).map (fun e => e.2)).getD 0 / 100)),
    foldl_cond_add (fun i => answers[i]? = t.answers[i]?)
      (fun i => 1 + ((confidences[i]?).map (fun e => e.2)).getD 0 / 100),
    foldl_add_eq (fun i : Nat => 1 + ((confidences[i]?).map (fun e => e.2)).getD 0 / 100)]
  simp only [zero_add]
  unfold specSimilarity
  simp only
  have hnn : 0 ≤ ((List.range (min answers.length t.answers.length)).map
      (fun i => 1 + ((confidences[i]?).map (fun e => e.2)).getD 0 / 100)).sum := by
    apply List.sum_nonneg
    intro x hx
    obtain ⟨i, -, rfl⟩ := List.mem_map.mp hx
    exact le_of_lt (specWeight_pos confidences hc i)
  by_cases h0 : ((List.range (min answers.length t.answers.length)).map
      (fun i => 1 + ((confidences[i]?).map (fun e => e.2)).getD 0 / 100)).sum = 0
  · rw [if_pos h0, h0]
    simp
  · rw [if_neg h0, if_pos (lt_of_le_of_ne hnn (Ne.symm h0))]
    rfl

theorem foldl_zip_weights (f : TestAttempt → ℚ) (l : List TestAttempt) (a b : ℚ) :
    (l.zip (l.map f)).foldl (fun (acc : ℚ × ℚ) (p : TestAttempt × ℚ) =>
        (acc.1 + p.2 * p.2 * (1 + p.1.percentage / 100),
          acc.2 + p.2 * p.2 * (1 + p.1.percentage / 100) * p.1.percentage)) (a, b) =
      (a + (l.map (fun t => f t * f t * (1 + t.percentage / 100))).sum,
        b + (l.map (fun t => f t * f t * (1 + t.percentage / 100) * t.percentage)).sum) := by
  induction l generalizing a b with
  | nil => simp
  | cons t ts ih =>
    rw [List.map_cons, List.zip_cons_cons, List.foldl_cons, ih]
    simp [add_assoc]

theorem specPredictionWeight_nonneg (confidences : List (String × ℚ))
    (candidate : List String) (t : TestAttempt) (hp : 0 ≤ t.percentage) :
    0 ≤ specPredictionWeight confidences candidate t := by
  unfold specPredictionWeight
  exact mul_nonneg (mul_self_nonneg _) (by linarith [div_nonneg hp (by norm_num : (0 : ℚ) ≤ 100)])

theorem weighted_sums_bounds (w : TestAttempt → ℚ) (l : List TestAttempt)
    (hw : ∀ t ∈ l, 0 ≤ w t) (hp : ∀ t ∈ l, 0 ≤ t.percentage ∧ t.percentage ≤ 100) :
    0 ≤ (l.map w).sum ∧ 0 ≤ (l.map (fun t => w t * t.percentage)).sum ∧
      (l.map (fun t => w t * t.percentage)).sum ≤ 100 * (l.map w).sum := by
  induction l with
  | nil => simp
  | cons t ts ih =>
    obtain ⟨h1, h2, h3⟩ := ih (fun x hx => hw x (List.mem_cons_of_mem _ hx))
      (fun x hx => hp x (List.mem_cons_of_mem _ hx))
    have hwt := hw t (List.mem_cons_self _ _)
    obtain ⟨hp0, hp1⟩ := hp t (List.mem_cons_self _ _)
    simp only [List.map_cons, List.sum_cons]
    refine ⟨by linarith, ?_, ?_⟩
    · nlinarith [mul_nonneg hwt hp0]
    · nlinarith [mul_nonneg hwt hp0, mul_nonneg hwt (sub_nonneg.mpr hp1)]

theorem specPredictedScore_bounds (confidences : List (String × ℚ))
    (attempts : List TestAttempt) (candidate : List String)
    (hp : ∀ t ∈ attempts, 0 ≤ t.percentage ∧ t.percentage ≤ 100) :
    0 ≤ specPredictedScore confidences attempts candidate ∧
      specPredictedScore confidences attempts candidate ≤ 100 := by
  obtain ⟨h1, h2, h3⟩ := weighted_sums_bounds (specPredictionWeight confidences candidate)
    attempts (fun t ht => specPredictionWeight_nonneg confidences candidate t (hp t ht).1) hp
  unfold specPredictedScore
  simp only
  split_ifs with h0
  · exact ⟨le_refl _, by norm_num⟩
  · have hpos := lt_of_le_of_ne h1 (Ne.symm h0)
    exact ⟨div_nonneg h2 h1, by rw [div_le_iff₀ hpos]; exact h3⟩

theorem predictScore_spec (P : Prims) (hP : P.Lawful) (s : AnswerAnalyzer)
    (hinv : StoreInv s) (first : TestAttempt) (rest : List TestAttempt)
    (hat : s.attempts = first :: rest) (answers : List String) (hne : answers ≠ []) :
    ∃ confidences, getAnswerConfidences P s = some confidences ∧
      predictScore P s answers = some (specPredictedScore confidences s.attempts answers) := by
  obtain ⟨confs, hr, hlen, hc⟩ := confidences_bounds P hP s hinv first rest hat
  refine ⟨confs, hr, ?_⟩
  have hsim : s.attempts.mapM (similarityTo P s answers) =
      some (s.attempts.map (specSimilarity confs answers)) := by
    apply mapM_eq_some_map
    intro t ht
    apply similarityTo_spec P s answers t confs hr _ hc
    rw [hlen]
    exact hinv.2 first (by rw [hat]; exact List.mem_cons_self _ _) t ht
  have hcond : ¬ (s.attempts.isEmpty = true ∨ answers.isEmpty = true) := by
    rw [hat]
    simp only [List.isEmpty_cons, Bool.false_eq_true, List.isEmpty_iff, false_or]
    exact hne
  unfold predictScore
  rw [if_neg hcond, hsim]
  simp only [Option.bind_eq_bind, Option.some_bind]
  rw [foldl_zip_weights (specSimilarity confs answers) s.attempts 0 0]
  simp only [zero_add]
  obtain ⟨h1, -, -⟩ := weighted_sums_bounds (specPredictionWeight confs answers)
    s.attempts (fun t ht => specPredictionWeight_nonneg confs answers t (hinv.1 t ht).2.2.1)
    (fun t ht => (hinv.1 t ht).2.2)
  unfold specPredictedScore
  simp only
  by_cases h0 : (s.attempts.map (specPredictionWeight confs answers)).sum = 0
  · rw [if_pos h0]
    have h0' : (s.attempts.map (fun t => specSimilarity confs answers t *
        specSimilarity confs answers t * (1 + t.percentage / 100))).sum = 0 := h0
    rw [h0']
    simp
  · rw [if_neg h0]
    have hpos : (s.attempts.map (fun t => specSimilarity confs answers t *
        specSimilarity confs answers t * (1 + t.percentage / 100))).sum > 0 :=
      lt_of_le_of_ne h1 (Ne.symm h0)
    rw [if_pos hpos]
    rfl

theorem specSimilarity_disjoint (confidences : List (String × ℚ)) (other : List String)
    (t : TestAttempt)
    (hdis : ∀ i, i < other.length → i < t.answers.length → other[i]? ≠ t.answers[i]?) :
    specSimilarity confidences other t = 0 := by
  unfold specSimilarity
  simp only
  have hf : (List.range (min other.length t.answers.length)).filter
      (fun i => decide (other[i]? = t.answers[i]?)) = [] := by
    rw [List.filter_eq_nil_iff]
    intro i hi
    rw [List.mem_range, lt_min_iff] at hi
    simpa using hdis i hi.1 hi.2
  rw [hf]
  simp

theorem specPredictedScore_disjoint (confidences : List (String × ℚ))
    (attempts : List TestAttempt) (other : List String)
    (hdis : ∀ t ∈ attempts, ∀ i, i < other.length → i < t.answers.length →
      other[i]? ≠ t.answers[i]?) :
    specPredictedScore confidences attempts other = 0 := by
  have hw : (attempts.map (specPredictionWeight confidences other)).sum = 0 := by
    apply List.sum_eq_zero
    intro x hx
    obtain ⟨t, ht, rfl⟩ := List.mem_map.mp hx
    unfold specPredictionWeight
    rw [specSimilarity_disjoint confidences other t (hdis t ht)]
    simp
  unfold specPredictedScore
  simp only
  rw [if_pos hw]

/-- In exact arithmetic: on a store satisfying the invariant `predictScore` returns
a value in `[0, 100]`; the value is 0 when the store or the candidate is empty, and otherwise
it is the weighted average of the stored percentages with per-attempt weight
`similarity² × (1 + percentage / 100)`, or 0 when the total weight is 0. -/
theorem predictScore_weighted_average (P : Prims) (hP : P.Lawful) (s : AnswerAnalyzer)
    (hinv : StoreInv s) (answers : List String) :
    ∃ v, predictScore P s answers = some v ∧ 0 ≤ v ∧ v ≤ 100 ∧
      ((s.attempts = [] ∨ answers = []) → v = 0) ∧
      (s.attempts ≠ [] → answers ≠ [] →
        ∃ confidences, getAnswerConfidences P s = some confidences ∧
          v = specPredictedScore confidences s.attempts answers) := by
  by_cases hempty : s.attempts = [] ∨ answers = []
  · refine ⟨0, ?_, le_refl _, by norm_num, fun _ => rfl, ?_⟩
    · have hcond : s.attempts.isEmpty = true ∨ answers.isEmpty = true := by
        rcases hempty with h | h
        · exact Or.inl (List.isEmpty_iff.mpr h)
        · exact Or.inr (List.isEmpty_iff.mpr h)
      unfold predictScore
      rw [if_pos hcond]
    · intro h1 h2
      rcases hempty with h | h
      · exact absurd h h1
      · exact absurd h h2
  · have h1 : s.attempts ≠ [] := fun h => hempty (Or.inl h)
    have h2 : answers ≠ [] := fun h => hempty (Or.inr h)
    obtain ⟨first, rest, hat⟩ := List.exists_cons_of_ne_nil h1
    obtain ⟨confs, hr, hv⟩ := predictScore_spec P hP s hinv first rest hat answers h2
    obtain ⟨hb0, hb1⟩ := specPredictedScore_bounds confs s.attempts answers
      (fun t ht => (hinv.1 t ht).2.2)
    exact ⟨_, hv, hb0, hb1, fun h => absurd h hempty, fun _ _ => ⟨confs, hr, rfl⟩⟩

theorem predictScore_weighted_average_witness :
    ∃ v, predictScore refPrims scenarioStore ["A", "B"] = some v ∧ 0 ≤ v ∧ v ≤ 100 ∧
      ((scenarioStore.attempts = [] ∨ ["A", "B"] = ([] : List String)) → v = 0) ∧
      (scenarioStore.attempts ≠ [] → ["A", "B"] ≠ ([] : List String) →
        ∃ confidences, getAnswerConfidences refPrims scenarioStore = some confidences ∧
          v = specPredictedScore confidences scenarioStore.attempts ["A", "B"]) :=
  predictScore_weighted_average refPrims refPrims_lawful scenarioStore scenarioStore_inv
    ["A", "B"]

/-- C10: on a non-empty store satisfying the invariant, `predictScore` of the answers
of a highest-scoring stored attempt is no lower than `predictScore` of any answer
list that agrees with no stored attempt at any position. -/
theorem predictScore_top_ge_disjoint (P : Prims) (hP : P.Lawful) (s : AnswerAnalyzer)
    (hinv : StoreInv s) (top : TestAttempt) (htop : top ∈ s.attempts)
    (_hmax : ∀ t ∈ s.attempts, t.percentage ≤ top.percentage) (other : List String)
    (hdis : ∀ t ∈ s.attempts, ∀ i, i < other.length → i < t.answers.length →
      other[i]? ≠ t.answers[i]?) :
    ∃ v w, predictScore P s top.answers = some v ∧ predictScore P s other = some w ∧
      w ≤ v := by
  have hne : s.attempts ≠ [] := List.ne_nil_of_mem htop
  obtain ⟨first, rest, hat⟩ := List.exists_cons_of_ne_nil hne
  have htopne : top.answers ≠ [] := List.length_pos.mp (hinv.1 top htop).1
  obtain ⟨confs, -, hv⟩ := predictScore_spec P hP s hinv first rest hat top.answers htopne
  obtain ⟨hb0, -⟩ := specPredictedScore_bounds confs s.attempts top.answers
    (fun t ht => (hinv.1 t ht).2.2)
  refine ⟨_, 0, hv, ?_, hb0⟩
  by_cases ho : other = []
  · unfold predictScore
    rw [if_pos (Or.inr (List.isEmpty_iff.mpr ho))]
  · obtain ⟨confs', -, hw⟩ := predictScore_spec P hP s hinv first rest hat other ho
    rw [hw, specPredictedScore_disjoint confs' s.attempts other hdis]

theorem predictScore_top_ge_disjoint_witness :
    ∃ v w, predictScore refPrims scenarioStore ["A", "B"] = some v ∧
      predictScore refPrims scenarioStore ["X", "Y"] = some w ∧ w ≤ v :=
  predictScore_top_ge_disjoint refPrims refPrims_lawful scenarioStore scenarioStore_inv
    ⟨["A", "B"], 95⟩ (by rw [scenarioStore_attempts]; simp)
    (by
      intro t ht
      rw [scenarioStore_attempts] at ht
      simp only [List.mem_cons, List.mem_singleton, List.not_mem_nil, or_false] at ht
      rcases ht with rfl | rfl | rfl <;> norm_num)
    ["X", "Y"]
    (by
      intro t ht i hi _
      rw [scenarioStore_attempts] at ht
      simp only [List.mem_cons, List.mem_singleton, List.not_mem_nil, or_false] at ht
      have hi' : i < 2 := hi
      rcases ht with rfl | rfl | rfl <;> interval_cases i <;> simp)

/-! ### `predictScore` in binary64 arithmetic -/

/-- Function `halvings` with enough fuel finds the leading bit. -/
theorem Binary64.halvings_spec (fuel n : Nat) (hn : 0 < n) (hf : n ≤ fuel) :
    2 ^ Binary64.halvings fuel n ≤ n ∧ n < 2 ^ (Binary64.halvings fuel n + 1) := by
  induction fuel generalizing n with
  | zero => omega
  | succ k ih =>
    unfold Binary64.halvings
    split_ifs with h
    · constructor
      · simpa using hn
      · simpa using h
    · have h2 := ih (n / 2) (by omega) (by omega)
      obtain ⟨hlo, hhi⟩ := h2
      constructor
      · rw [pow_succ]
        omega
      · rw [pow_succ]
        omega

/-- The leading bit of a positive `n`: `2 ^ log2 n ≤ n < 2 ^ (log2 n + 1)`. -/
theorem Binary64.log2_spec (n : Nat) (hn : 0 < n) :
    2 ^ Binary64.log2 n ≤ n ∧ n < 2 ^ (Binary64.log2 n + 1) :=
  Binary64.halvings_spec n n hn le_rfl

/-- The result of `nearestEven` is within one half of `n / d`. -/
theorem Binary64.nearestEven_spec (n d : Nat) (hd : 0 < d) :
    2 * d * Binary64.nearestEven n d ≤ 2 * n + d ∧ 2 * n ≤ 2 * d * Binary64.nearestEven n d + d := by
  have hdiv := Nat.div_add_mod n d
  have hmod := Nat.mod_lt n hd
  unfold Binary64.nearestEven
  simp only
  generalize n / d = q at *
  generalize n % d = r at *
  subst hdiv
  have e1 : 2 * d * q = 2 * (d * q) := by ring
  have e2 : 2 * d * (q + 1) = 2 * (d * q) + 2 * d := by ring
  split_ifs with h1 h2 h3
  · rw [e1]; omega
  · rw [e2]; omega
  · rw [e1]; omega
  · rw [e2]; omega

/-- The binary exponent found by `exponent`, with the powers of two multiplied out:
for `e = exponent n d`, `2 ^ e ≤ n / d < 2 ^ (e + 1)`. -/
theorem Binary64.exponent_spec (n d : Nat) (hn : 0 < n) (hd : 0 < d) :
    d * 2 ^ (Binary64.exponent n d).toNat ≤ n * 2 ^ (-Binary64.exponent n d).toNat ∧
    n * 2 ^ (-Binary64.exponent n d).toNat < 2 * (d * 2 ^ (Binary64.exponent n d).toNat) := by
  obtain ⟨ha1, ha2⟩ := Binary64.log2_spec n hn
  obtain ⟨hb1, hb2⟩ := Binary64.log2_spec d hd
  unfold Binary64.exponent
  simp only
  generalize Binary64.log2 n = a at *
  generalize Binary64.log2 d = b at *
  rcases Nat.lt_or_ge a b with hab | hab
  · -- the leading bit of `n` is below that of `d`
    obtain ⟨k, rfl⟩ : ∃ k, b = a + (k + 1) := ⟨b - a - 1, by omega⟩
    have e1 : ((a : Int) - ((a + (k + 1) : Nat) : Int)).toNat = 0 := by omega
    have e2 : (-((a : Int) - ((a + (k + 1) : Nat) : Int))).toNat = k + 1 := by omega
    have e3 : ((a : Int) - ((a + (k + 1) : Nat) : Int) - 1).toNat = 0 := by omega
    have e4 : (-((a : Int) - ((a + (k + 1) : Nat) : Int) - 1)).toNat = k + 1 + 1 := by omega
    rw [pow_succ] at ha2 hb2
    rw [pow_add] at hb1 hb2
    have m1 : 2 ^ a * 2 ^ (k + 1) ≤ n * 2 ^ (k + 1) := Nat.mul_le_mul_right _ ha1
    have m2 : n * 2 ^ (k + 1) < 2 ^ a * 2 * 2 ^ (k + 1) :=
      Nat.mul_lt_mul_of_pos_right ha2 (Nat.two_pow_pos _)
    have m3 : 2 ^ a * 2 * 2 ^ (k + 1) = 2 * (2 ^ a * 2 ^ (k + 1)) := by ring
    rw [e1, e2]
    simp only [pow_zero, mul_one]
    split_ifs with h
    · rw [e3, e4, pow_succ 2 (k + 1)]
      simp only [pow_zero, mul_one]
      have m4 : n * (2 ^ (k + 1) * 2) = 2 * (n * 2 ^ (k + 1)) := by ring
      rw [m4]
      generalize n * 2 ^ (k + 1) = x at *
      generalize 2 ^ a * 2 ^ (k + 1) = y at *
      omega
    · rw [e1, e2]
      simp only [pow_zero, mul_one]
      generalize n * 2 ^ (k + 1) = x at *
      generalize 2 ^ a * 2 ^ (k + 1) = y at *
      omega
  · -- the leading bit of `n` is not below that of `d`
    obtain ⟨k, rfl⟩ : ∃ k, a = b + k := ⟨a - b, by omega⟩
    have e1 : (((b + k : Nat) : Int) - (b : Int)).toNat = k := by omega
    have e2 : (-(((b + k : Nat) : Int) - (b : Int))).toNat = 0 := by omega
    rw [pow_succ] at ha2 hb2
    rw [pow_add] at ha1 ha2
    have m1 : 2 ^ b * 2 ^ k ≤ d * 2 ^ k := Nat.mul_le_mul_right _ hb1
    have m2 : d * 2 ^ k < 2 ^ b * 2 * 2 ^ k :=
      Nat.mul_lt_mul_of_pos_right hb2 (Nat.two_pow_pos _)
    have m3 : 2 ^ b * 2 * 2 ^ k = 2 * (2 ^ b * 2 ^ k) := by ring
    rw [e1, e2]
    simp only [pow_zero, mul_one]
    split_ifs with h
    · rcases Nat.eq_zero_or_pos k with hk0 | hkpos
      · subst hk0
        have e3 : (((b + 0 : Nat) : Int) - (b : Int) - 1).toNat = 0 := by omega
        have e4 : (-(((b + 0 : Nat) : Int) - (b : Int) - 1)).toNat = 1 := by omega
        rw [e3, e4]
        simp only [pow_zero, mul_one, pow_one] at *
        omega
      · obtain ⟨j, rfl⟩ : ∃ j, k = j + 1 := ⟨k - 1, by omega⟩
        have e3 : (((b + (j + 1) : Nat) : Int) - (b : Int) - 1).toNat = j := by omega
        have e4 : (-(((b + (j + 1) : Nat) : Int) - (b : Int) - 1)).toNat = 0 := by omega
        rw [e3, e4]
        simp only [pow_zero, mul_one]
        rw [pow_succ] at h ha1 m2
        have m4 : d * (2 ^ j * 2) = 2 * (d * 2 ^ j) := by ring
        have m5 : 2 ^ b * 2 * (2 ^ j * 2) = 2 * (2 ^ b * (2 ^ j * 2)) := by ring
        rw [m4] at h m2
        rw [m5] at m2
        generalize d * 2 ^ j = x at *
        generalize 2 ^ b * (2 ^ j * 2) = y at *
        omega
    · rw [e1, e2]
      simp only [pow_zero, mul_one]
      generalize d * 2 ^ k = x at *
      generalize 2 ^ b * 2 ^ k = y at *
      omega

/-- The result of `roundDouble` is within half a unit in the last place of its
argument: with `u` the exponent of that unit, `|roundDouble x - x| ≤ 2 ^ u / 2`. -/
theorem Binary64.roundDouble_near (x : ℚ) (hx : x ≠ 0) :
    |Binary64.roundDouble x - x| ≤
      2 ^ (max (Binary64.exponent x.num.natAbs x.den) (-1022) - 52).toNat /
        (2 * 2 ^ (-(max (Binary64.exponent x.num.natAbs x.den) (-1022) - 52)).toNat) := by
  unfold Binary64.roundDouble
  rw [if_neg hx]
  simp only
  generalize (max (Binary64.exponent x.num.natAbs x.den) (-1022) - 52).toNat = t
  generalize (-(max (Binary64.exponent x.num.natAbs x.den) (-1022) - 52)).toNat = s
  have hd : 0 < x.den := x.den_pos
  have hD : 0 < x.den * 2 ^ t := Nat.mul_pos hd (Nat.two_pow_pos _)
  obtain ⟨h1, h2⟩ := Binary64.nearestEven_spec (x.num.natAbs * 2 ^ s) (x.den * 2 ^ t) hD
  generalize Binary64.nearestEven (x.num.natAbs * 2 ^ s) (x.den * 2 ^ t) = m at h1 h2
  have hdq : (0 : ℚ) < (x.den : ℚ) := by exact_mod_cast hd
  have habs : abs x = (x.num.natAbs : ℚ) / (x.den : ℚ) := by
    have h4 : (x.num.natAbs : ℚ) = abs (x.num : ℚ) := by
      rw [Nat.cast_natAbs, Int.cast_abs]
    rw [h4]
    conv_lhs => rw [← Rat.num_div_den x]
    rw [abs_div, abs_of_pos hdq]
  have hs : (0 : ℚ) < 2 ^ s := by positivity
  have ht : (0 : ℚ) < 2 ^ t := by positivity
  have q1 : (2 : ℚ) * (x.den * 2 ^ t) * m ≤ 2 * (x.num.natAbs * 2 ^ s) + x.den * 2 ^ t := by
    exact_mod_cast h1
  have q2 : (2 : ℚ) * (x.num.natAbs * 2 ^ s) ≤ 2 * (x.den * 2 ^ t) * m + x.den * 2 ^ t := by
    exact_mod_cast h2
  have key : abs (((m * 2 ^ t : Nat) : ℚ) / ((2 ^ s : Nat) : ℚ) - abs x) ≤
      2 ^ t / (2 * 2 ^ s) := by
    rw [habs]
    push_cast
    rw [div_sub_div _ _ hs.ne.symm hdq.ne.symm, abs_div, abs_of_pos (mul_pos hs hdq),
      div_le_div_iff₀ (mul_pos hs hdq) (by positivity)]
    have k1 := mul_le_mul_of_nonneg_left q1 hs.le
    have k2 := mul_le_mul_of_nonneg_left q2 hs.le
    rcases abs_cases ((m : ℚ) * 2 ^ t * x.den - 2 ^ s * x.num.natAbs) with ⟨h, -⟩ | ⟨h, -⟩
    · rw [h]; nlinarith
    · rw [h]; nlinarith
  rcases lt_or_gt_of_ne hx with hneg | hpos
  · rw [if_pos hneg]
    rw [abs_of_neg hneg] at key
    have : -(((m * 2 ^ t : Nat) : ℚ) / ((2 ^ s : Nat) : ℚ)) - x =
        -(((m * 2 ^ t : Nat) : ℚ) / ((2 ^ s : Nat) : ℚ) - -x) := by ring
    rw [this, abs_neg]
    exact key
  · rw [if_neg (not_lt.mpr hpos.le)]
    rw [abs_of_pos hpos] at key
    exact key

/-- The literal `0.1` denotes the binary64 value `3602879701896397 / 2 ^ 55`. -/
theorem Binary64.roundDouble_tenth :
    Binary64.roundDouble (1 / 10) = 3602879701896397 / 2 ^ 55 := by decide!

/-- Values halfway between two neighbouring binary64 values go to the one with the
even significand: `1 + 2 ^ (-53)` to `1`, `1 + 3 * 2 ^ (-53)` to `1 + 2 ^ (-51)`. -/
theorem Binary64.roundDouble_ties :
    Binary64.roundDouble (1 + 1 / 2 ^ 53) = 1 ∧
    Binary64.roundDouble (1 + 3 / 2 ^ 53) = 1 + 1 / 2 ^ 51 := by decide!

/-- In the subnormal range the spacing is `2 ^ (-1074)`: three halves of it round to
twice it, and a half of it to zero. -/
theorem Binary64.roundDouble_subnormal :
    Binary64.roundDouble (3 / 2 ^ 1075) = 1 / 2 ^ 1073 ∧
    Binary64.roundDouble (1 / 2 ^ 1075) = 0 := by decide!

/-- On the store holding the one attempt `({"A","A","A","A","A","A","A"}, 100)` the
binary64 `getAnswerConfidences` reports `"A"` with confidence exactly 100 for each of
the seven questions; it calls `std::exp` and `std::sqrt` at zero only. -/
theorem Binary64.sevenStore_confidences :
    Binary64.getAnswerConfidences Binary64.standard sevenStore =
      some (List.replicate 7 ("A", 100)) := by decide!

/-- C9, evaluated at the failing input: on the store holding the one attempt
`({"A","A","A","A","A","A","A"}, 100)`, which satisfies the store invariant,
`predictScore({"A","X","X","X","X","X","X"})` computed in binary64 arithmetic
returns `100 + 2 ^ (-46)`, a value above 100.  The similarity is the rounded `2 / 14`,
the weight its rounded square doubled, and the rounded product of the weight and 100
divided by the weight rounds to the binary64 value next above 100; the quotient is
returned as it is. -/
theorem predictScore_exceeds_100 :
    Binary64.predictScore Binary64.standard sevenStore
        ["A", "X", "X", "X", "X", "X", "X"] = some (100 + 1 / 2 ^ 46) ∧
    (100 : ℚ) < 100 + 1 / 2 ^ 46 ∧
    StoreInv sevenStore := by
  refine ⟨by decide!, by norm_num, ?_⟩
  have hat : sevenStore.attempts = [⟨["A", "A", "A", "A", "A", "A", "A"], 100⟩] := by decide!
  have hmax : sevenStore.maxAnswers = 10 := by decide!
  constructor
  · intro a ha
    rw [hat, List.mem_singleton] at ha
    subst ha
    rw [hmax]
    norm_num
  · intro a ha b hb
    rw [hat, List.mem_singleton] at ha hb
    rw [ha, hb]

/-! ### Statistics -/

/-- C11: on a store with `n ≥ 1` attempts `getAverageScore` is the sum of the stored
percentages divided by `n` and `getScoreVariance` is the sum of the squared
deviations from `getAverageScore` divided by `n`; both are 0 on an empty store, and
the variance of a store holding exactly one attempt is 0. -/
theorem statistics_spec (s : AnswerAnalyzer) :
    (s.attempts ≠ [] →
      getAverageScore s =
        (s.attempts.map (fun t => t.percentage)).sum / (s.attempts.length : ℚ) ∧
      getScoreVariance s =
        (s.attempts.map (fun t =>
          (t.percentage - getAverageScore s) * (t.percentage - getAverageScore s))).sum /
          (s.attempts.length : ℚ)) ∧
    (s.attempts = [] → getAverageScore s = 0 ∧ getScoreVariance s = 0) ∧
    (∀ t, s.attempts = [t] → getScoreVariance s = 0) := by
  have hne : s.attempts ≠ [] →
      getAverageScore s =
        (s.attempts.map (fun t => t.percentage)).sum / (s.attempts.length : ℚ) ∧
      getScoreVariance s =
        (s.attempts.map (fun t =>
          (t.percentage - getAverageScore s) * (t.percentage - getAverageScore s))).sum /
          (s.attempts.length : ℚ) := by
    intro h
    have hemp : ¬ (s.attempts.isEmpty = true) := fun he => h (List.isEmpty_iff.mp he)
    constructor
    · unfold getAverageScore
      rw [if_neg hemp]
      simp only
      rw [foldl_add_eq (fun t : TestAttempt => t.percentage), zero_add]
    · rw [getScoreVariance, if_neg hemp]
      simp only
      rw [foldl_add_eq (fun t : TestAttempt =>
        (t.percentage - getAverageScore s) * (t.percentage - getAverageScore s)), zero_add]
  refine ⟨hne, ?_, ?_⟩
  · intro h
    unfold getScoreVariance getAverageScore
    rw [h]
    exact ⟨rfl, rfl⟩
  · intro t ht
    obtain ⟨havg, hvar⟩ := hne (by rw [ht]; exact List.cons_ne_nil _ _)
    rw [hvar, havg, ht]
    simp

/-! ### `getMostCommonAnswers` -/

theorem foldl_succ_eq {X : Type} (l : List X) (init : Int) :
    l.foldl (fun v _ => v + 1) init = init + (l.length : Nat) := by
  induction l generalizing init with
  | nil => simp
  | cons x xs ih =>
    rw [List.foldl_cons, ih, List.length_cons]
    push_cast
    ring

theorem countAnswers_spec (attempts : List TestAttempt) (q : Nat)
    (hq : ∀ t ∈ attempts, q < t.answers.length) :
    ∃ m, countAnswers attempts q = some m ∧
      m.Pairwise (fun a b => a.1 < b.1) ∧
      (∀ e ∈ m, (∃ t ∈ attempts, t.answers[q]? = some e.1) ∧
        e.2 = (occurrences attempts q e.1 : Nat)) ∧
      (∀ t ∈ attempts, ∀ a, t.answers[q]? = some a →
        (a, ((occurrences attempts q a : Nat) : Int)) ∈ m) := by
  have hval : ∀ a, (attempts.filter (fun t => decide (answerAt t q = a))).foldl
      (fun (v : Int) (_ : TestAttempt) => v + 1) 0 = (occurrences attempts q a : Nat) := by
    intro a
    rw [foldl_succ_eq, zero_add, filter_answerAt attempts q a hq, occurrences,
      List.countP_eq_length_filter]
  refine ⟨attempts.foldl (fun m t => SMap.update 0 (fun v => v + 1) (answerAt t q) m) [],
    ?_, ?_, ?_, ?_⟩
  · unfold countAnswers
    apply foldlM_eq_some_foldl
    intro t ht acc
    rw [getElem?_eq_answerAt t q (hq t ht)]
    rfl
  · exact SMap.build_sorted _ _ _ _
  · intro e he
    obtain ⟨⟨t, ht, hk⟩, hv⟩ := SMap.build_mem (0 : Int) (fun t => answerAt t q)
      (fun _ v => v + 1) attempts e he
    refine ⟨⟨t, ht, (answerAt_eq_iff t q e.1 (hq t ht)).mp hk⟩, ?_⟩
    rw [hv]
    exact hval e.1
  · intro t ht a ha
    have hm := SMap.mem_build (0 : Int) (fun t => answerAt t q)
      (fun _ v => v + 1) attempts t ht
    have hk : answerAt t q = a := (answerAt_eq_iff t q a (hq t ht)).mpr ha
    simp only [hk] at hm
    rw [hval a] at hm
    exact hm

theorem foldl_largest_spec (xs : List (String × Int)) (init : String × Int) :
    (xs.foldl (fun largest y => if decide (largest.2 < y.2) then y else largest) init = init ∨
      xs.foldl (fun largest y => if decide (largest.2 < y.2) then y else largest) init ∈ xs) ∧
    init.2 ≤ (xs.foldl (fun largest y => if decide (largest.2 < y.2) then y else largest)
      init).2 ∧
    (∀ y ∈ xs, y.2 ≤ (xs.foldl (fun largest y => if decide (largest.2 < y.2) then y else largest)
      init).2) ∧
    ((xs.foldl (fun largest y => if decide (largest.2 < y.2) then y else largest) init).2 =
        init.2 →
      xs.foldl (fun largest y => if decide (largest.2 < y.2) then y else largest) init = init) ∧
    (xs.Pairwise (fun a b => a.1 < b.1) → (∀ y ∈ xs, init.1 < y.1) → ∀ y ∈ xs,
      y.2 = (xs.foldl (fun largest y => if decide (largest.2 < y.2) then y else largest)
        init).2 →
      (xs.foldl (fun largest y => if decide (largest.2 < y.2) then y else largest) init).1 ≤
        y.1) := by
  induction xs generalizing init with
  | nil =>
    refine ⟨Or.inl rfl, le_refl _, ?_, fun _ => rfl, ?_⟩
    · intro y hy
      cases hy
    · intro _ _ y hy
      cases hy
  | cons x xs ih =>
    rw [List.foldl_cons]
    by_cases hlt : init.2 < x.2
    · -- the head replaces the running largest
      have hstep : (if decide (init.2 < x.2) then x else init) = x := by simp [hlt]
      rw [hstep]
      obtain ⟨hA, hB, hC, hE, hD⟩ := ih x
      refine ⟨?_, le_trans (le_of_lt hlt) hB, ?_, ?_, ?_⟩
      · right
        rcases hA with h | h
        · rw [h]
          exact List.mem_cons_self _ _
        · exact List.mem_cons_of_mem _ h
      · intro y hy
        rcases List.mem_cons.mp hy with rfl | hy
        · exact hB
        · exact hC y hy
      · intro heq
        rw [heq] at hB
        exact absurd hlt (not_lt.mpr hB)
      · intro hp _ y hy hv
        rw [List.pairwise_cons] at hp
        rcases List.mem_cons.mp hy with rfl | hy
        · rw [hE hv.symm]
        · exact hD hp.2 hp.1 y hy hv
    · -- the head leaves the running largest unchanged
      have hstep : (if decide (init.2 < x.2) then x else init) = init := by simp [hlt]
      rw [hstep]
      obtain ⟨hA, hB, hC, hE, hD⟩ := ih init
      refine ⟨?_, hB, ?_, hE, ?_⟩
      · rcases hA with h | h
        · exact Or.inl h
        · exact Or.inr (List.mem_cons_of_mem _ h)
      · intro y hy
        rcases List.mem_cons.mp hy with rfl | hy
        · exact le_trans (not_lt.mp hlt) hB
        · exact hC y hy
      · intro hp hinit y hy hv
        rw [List.pairwise_cons] at hp
        rcases List.mem_cons.mp hy with rfl | hy
        · have h1 : y.2 ≤ init.2 := not_lt.mp hlt
          have h2 : (xs.foldl (fun largest y => if decide (largest.2 < y.2) then y else largest)
              init).2 = init.2 := le_antisymm (hv ▸ h1) hB
          rw [hE h2]
          exact le_of_lt (hinit y (List.mem_cons_self _ _))
        · exact hD hp.2 (fun z hz => hinit z (List.mem_cons_of_mem _ hz)) y hy hv

theorem maxElement_spec (l : List (String × Int)) (hne : l ≠ [])
    (hs : l.Pairwise (fun a b => a.1 < b.1)) :
    ∃ r, maxElement (fun p1 p2 => decide (p1.2 < p2.2)) l = some r ∧ r ∈ l ∧
      (∀ y ∈ l, y.2 ≤ r.2) ∧ (∀ y ∈ l, y.2 = r.2 → r.1 ≤ y.1) := by
  cases l with
  | nil => exact absurd rfl hne
  | cons x xs =>
    rw [List.pairwise_cons] at hs
    obtain ⟨hA, hB, hC, hE, hD⟩ := foldl_largest_spec xs x
    refine ⟨_, rfl, ?_, ?_, ?_⟩
    · rcases hA with h | h
      · rw [h]
        exact List.mem_cons_self _ _
      · exact List.mem_cons_of_mem _ h
    · intro y hy
      rcases List.mem_cons.mp hy with rfl | hy
      · exact hB
      · exact hC y hy
    · intro y hy hv
      rcases List.mem_cons.mp hy with rfl | hy
      · rw [hE hv.symm]
      · exact hD hs.2 hs.1 y hy hv

theorem mostCommonAt_spec (attempts : List TestAttempt) (q : Nat)
    (hq : ∀ t ∈ attempts, q < t.answers.length) (hne : attempts ≠ []) :
    ∃ a, mostCommonAt attempts q = some a ∧
      (∃ t ∈ attempts, t.answers[q]? = some a) ∧
      ∀ b, occurrences attempts q b ≤ occurrences attempts q a ∧
        (occurrences attempts q b = occurrences attempts q a → a ≤ b) := by
  obtain ⟨m, hm, hsorted, hmem, hall⟩ := countAnswers_spec attempts q hq
  have hmne : m ≠ [] := by
    obtain ⟨t, ht⟩ := List.exists_mem_of_ne_nil attempts hne
    exact List.ne_nil_of_mem (hall t ht _ (getElem?_eq_answerAt t q (hq t ht)))
  obtain ⟨r, hr, hrm, hmax, htie⟩ := maxElement_spec m hmne hsorted
  obtain ⟨hocc, hcount⟩ := hmem r hrm
  have hpos : 0 < occurrences attempts q r.1 := by
    obtain ⟨t, ht, hta⟩ := hocc
    exact List.countP_pos_iff.mpr ⟨t, ht, by simpa using hta⟩
  refine ⟨r.1, ?_, hocc, ?_⟩
  · unfold mostCommonAt
    simp only [hm, Option.bind_eq_bind, Option.some_bind, hr]
    rfl
  · intro b
    by_cases hb : ∃ t ∈ attempts, t.answers[q]? = some b
    · obtain ⟨t, ht, htb⟩ := hb
      have hbm := hall t ht b htb
      have h1 : ((occurrences attempts q b : Nat) : Int) ≤ r.2 := hmax _ hbm
      rw [hcount] at h1
      constructor
      · exact_mod_cast h1
      · intro heq
        apply htie _ hbm
        show ((occurrences attempts q b : Nat) : Int) = r.2
        rw [hcount, heq]
    · have h0 : occurrences attempts q b = 0 := by
        rw [occurrences, List.countP_eq_zero]
        intro t ht
        simpa using fun h => hb ⟨t, ht, h⟩
      rw [h0]
      exact ⟨Nat.zero_le _, fun h => absurd h (Nat.ne_of_lt hpos)⟩

/-- C12: on a non-empty store satisfying the invariant, the entry of
`getMostCommonAnswers` for question `q` is an observed answer whose number of
occurrences at `q` is maximal, and it is the lexicographically smallest of the
answers attaining that number. -/
theorem most_common_is_plurality (s : AnswerAnalyzer) (hinv : StoreInv s)
    (first : TestAttempt) (hfirst : s.attempts.head? = some first) (q : Nat)
    (hq : q < first.answers.length) :
    ∃ r a, getMostCommonAnswers s = some r ∧ r[q]? = some a ∧
      (∃ t ∈ s.attempts, t.answers[q]? = some a) ∧
      ∀ b, occurrences s.attempts q b ≤ occurrences s.attempts q a ∧
        (occurrences s.attempts q b = occurrences s.attempts q a → a ≤ b) := by
  obtain ⟨rest, hat⟩ := head?_eq_cons s first hfirst
  have hdef : getMostCommonAnswers s =
      (List.range first.answers.length).mapM (mostCommonAt s.attempts) := by
    unfold getMostCommonAnswers
    rw [hat]
  obtain ⟨r, hr, -, hent⟩ := mapM_range_spec (mostCommonAt s.attempts)
    (fun q a => (∃ t ∈ s.attempts, t.answers[q]? = some a) ∧
      ∀ b, occurrences s.attempts q b ≤ occurrences s.attempts q a ∧
        (occurrences s.attempts q b = occurrences s.attempts q a → a ≤ b))
    first.answers.length
    (fun q hq => mostCommonAt_spec s.attempts q (storeInv_index s hinv first rest hat q hq)
      (by rw [hat]; exact List.cons_ne_nil _ _))
  obtain ⟨a, ha, hocc, hmax⟩ := hent q hq
  exact ⟨r, a, hdef ▸ hr, ha, hocc, hmax⟩

theorem most_common_is_plurality_witness :
    ∃ r a, getMostCommonAnswers scenarioStore = some r ∧ r[1]? = some a ∧
      (∃ t ∈ scenarioStore.attempts, t.answers[1]? = some a) ∧
      ∀ b, occurrences scenarioStore.attempts 1 b ≤ occurrences scenarioStore.attempts 1 a ∧
        (occurrences scenarioStore.attempts 1 b = occurrences scenarioStore.attempts 1 a →
          a ≤ b) :=
  most_common_is_plurality scenarioStore scenarioStore_inv ⟨["A", "B"], 90⟩
    (by rw [scenarioStore_attempts]; rfl) 1 (by decide)

/-! ### `getAnswerPatterns` -/

theorem NMap.mem_assign {V : Type} (k : Nat) (v : V) (m : NMap V) (e : Nat × V)
    (he : e ∈ NMap.assign k v m) : e.1 = k ∨ e ∈ m := by
  induction m with
  | nil =>
    simp only [NMap.assign, List.mem_singleton] at he
    exact Or.inl (by rw [he])
  | cons hd rest ih =>
    obtain ⟨k', v'⟩ := hd
    simp only [NMap.assign] at he
    split_ifs at he with h1 h2
    · rcases List.mem_cons.mp he with rfl | he
      · exact Or.inl rfl
      · exact Or.inr he
    · rcases List.mem_cons.mp he with rfl | he
      · exact Or.inl h2.symm
      · exact Or.inr (List.mem_cons_of_mem _ he)
    · rcases List.mem_cons.mp he with rfl | he
      · exact Or.inr (List.mem_cons_self _ _)
      · rcases ih he with h | h
        · exact Or.inl h
        · exact Or.inr (List.mem_cons_of_mem _ h)

theorem NMap.assign_sorted {V : Type} (k : Nat) (v : V) (m : NMap V)
    (hm : m.Pairwise (fun a b => a.1 < b.1)) :
    (NMap.assign k v m).Pairwise (fun a b => a.1 < b.1) := by
  induction m with
  | nil => simp [NMap.assign]
  | cons hd rest ih =>
    obtain ⟨k', v'⟩ := hd
    rw [List.pairwise_cons] at hm
    simp only [NMap.assign]
    split_ifs with h1 h2
    · rw [List.pairwise_cons]
      refine ⟨?_, List.pairwise_cons.mpr hm⟩
      intro e he
      rcases List.mem_cons.mp he with rfl | he
      · exact h1
      · exact lt_trans h1 (hm.1 e he)
    · rw [List.pairwise_cons]
      exact ⟨hm.1, hm.2⟩
    · rw [List.pairwise_cons]
      refine ⟨?_, ih hm.2⟩
      intro e he
      rcases NMap.mem_assign k v rest e he with h | h
      · rw [h]
        exact lt_of_le_of_ne (not_lt.mp h1) (fun hh => h2 hh.symm)
      · exact hm.1 e h

theorem NMap.lookup_assign {V : Type} (k : Nat) (v : V) (m : NMap V)
    (hm : m.Pairwise (fun a b => a.1 < b.1)) (k' : Nat) :
    (NMap.assign k v m).lookup k' = if k' = k then some v else m.lookup k' := by
  induction m with
  | nil =>
    simp only [NMap.assign, List.lookup_cons, List.lookup_nil]
    by_cases h : k' = k
    · simp [h]
    · have : (k' == k) = false := by simpa using h
      simp [h, this]
  | cons hd rest ih =>
    obtain ⟨k0, v0⟩ := hd
    rw [List.pairwise_cons] at hm
    simp only [NMap.assign]
    split_ifs with h1 h2 h3 h4 h5
    · subst h2
      simp [List.lookup_cons]
    · have : (k' == k) = false := by simpa using h2
      rw [List.lookup_cons, this]
    · subst h3
      subst h4
      simp [List.lookup_cons]
    · subst h3
      have : (k' == k) = false := by simpa using h4
      simp [List.lookup_cons, this]
    · subst h5
      have hne : (k' == k0) = false := by simpa using h3
      rw [List.lookup_cons, hne, ih hm.2]
      simp
    · rw [List.lookup_cons, List.lookup_cons, ih hm.2, if_neg h5]

theorem getAnswerPatterns_build (attempts : List TestAttempt) :
    (attempts.foldl (fun patterns attempt =>
        NMap.assign (scoreKey attempt) attempt.answers patterns) []).Pairwise
      (fun a b => a.1 < b.1) ∧
    ∀ k, (attempts.foldl (fun patterns attempt =>
        NMap.assign (scoreKey attempt) attempt.answers patterns) []).lookup k =
      ((attempts.filter (fun t => decide (scoreKey t = k))).getLast?).map
        (fun t => t.answers) := by
  induction attempts using List.reverseRecOn with
  | nil => simp
  | append_singleton xs x ih =>
    obtain ⟨hs, hl⟩ := ih
    rw [List.foldl_append, List.foldl_cons, List.foldl_nil]
    refine ⟨NMap.assign_sorted _ _ _ hs, ?_⟩
    intro k
    rw [NMap.lookup_assign _ _ _ hs, List.filter_append]
    by_cases hk : k = scoreKey x
    · have hf : List.filter (fun t => decide (scoreKey t = k)) [x] = [x] := by simp [hk]
      rw [if_pos hk, hf, List.getLast?_concat]
      rfl
    · have hne : ¬ scoreKey x = k := fun hh => hk hh.symm
      have hf : List.filter (fun t => decide (scoreKey t = k)) [x] = [] := by simp [hne]
      rw [if_neg hk, hf, List.append_nil, hl k]

theorem stdRound_nearest (x : ℚ) (hx : 0 ≤ x) :
    0 ≤ stdRound x ∧ ((stdRound x : ℤ) : ℚ) - 1 / 2 ≤ x ∧ x < ((stdRound x : ℤ) : ℚ) + 1 / 2 := by
  rw [stdRound, if_pos hx]
  have h1 := Int.floor_le (x + 1 / 2)
  have h2 := Int.lt_floor_add_one (x + 1 / 2)
  refine ⟨Int.floor_nonneg.mpr (by linarith), by linarith, by linarith⟩

/-- C13: on a store satisfying the invariant `getAnswerPatterns` returns a map
(keys strictly ascending) whose keys are exactly the percentages of the stored
attempts rounded to the nearest integer, halves away from zero, and whose value at a
key is the answer list of the last attempt, in insertion order, with that rounded
percentage. -/
theorem answer_patterns_last_write_wins (s : AnswerAnalyzer) (hinv : StoreInv s) :
    (getAnswerPatterns s).Pairwise (fun a b => a.1 < b.1) ∧
    (∀ k, (∃ v, (getAnswerPatterns s).lookup k = some v) ↔
      ∃ t ∈ s.attempts, scoreKey t = k) ∧
    (∀ k, (getAnswerPatterns s).lookup k =
      ((s.attempts.filter (fun t => decide (scoreKey t = k))).getLast?).map
        (fun t => t.answers)) ∧
    (∀ t ∈ s.attempts, ((scoreKey t : Nat) : ℤ) = stdRound t.percentage ∧
      ((scoreKey t : Nat) : ℚ) - 1 / 2 ≤ t.percentage ∧
      t.percentage < ((scoreKey t : Nat) : ℚ) + 1 / 2) := by
  obtain ⟨hs, hl⟩ := getAnswerPatterns_build s.attempts
  refine ⟨hs, ?_, hl, ?_⟩
  · intro k
    have hk := hl k
    change (getAnswerPatterns s).lookup k = _ at hk
    rw [hk]
    constructor
    · rintro ⟨v, hv⟩
      cases hlast : (s.attempts.filter (fun t => decide (scoreKey t = k))).getLast? with
      | none => rw [hlast] at hv; cases hv
      | some t =>
        have hmem := List.mem_of_mem_getLast? (Option.mem_def.mpr hlast)
        rw [List.mem_filter] at hmem
        exact ⟨t, hmem.1, by simpa using hmem.2⟩
    · rintro ⟨t, ht, htk⟩
      have hmem : t ∈ s.attempts.filter (fun t => decide (scoreKey t = k)) := by
        rw [List.mem_filter]
        exact ⟨ht, by simpa using htk⟩
      cases hlast : (s.attempts.filter (fun t => decide (scoreKey t = k))).getLast? with
      | none =>
        rw [List.getLast?_eq_none_iff] at hlast
        rw [hlast] at hmem
        cases hmem
      | some t' => exact ⟨t'.answers, rfl⟩
  · intro t ht
    obtain ⟨h0, h1, h2⟩ := stdRound_nearest t.percentage (hinv.1 t ht).2.2.1
    have hcast : ((scoreKey t : Nat) : ℤ) = stdRound t.percentage := by
      rw [scoreKey]
      exact Int.toNat_of_nonneg h0
    have hq : ((scoreKey t : Nat) : ℚ) = ((stdRound t.percentage : ℤ) : ℚ) := by
      rw [← hcast]
      simp
    rw [hq]
    exact ⟨hcast, h1, h2⟩

theorem answer_patterns_last_write_wins_witness :
    (getAnswerPatterns scenarioStore).Pairwise (fun a b => a.1 < b.1) ∧
    (∀ k, (∃ v, (getAnswerPatterns scenarioStore).lookup k = some v) ↔
      ∃ t ∈ scenarioStore.attempts, scoreKey t = k) ∧
    (∀ k, (getAnswerPatterns scenarioStore).lookup k =
      ((scenarioStore.attempts.filter (fun t => decide (scoreKey t = k))).getLast?).map
        (fun t => t.answers)) ∧
    (∀ t ∈ scenarioStore.attempts, ((scoreKey t : Nat) : ℤ) = stdRound t.percentage ∧
      ((scoreKey t : Nat) : ℚ) - 1 / 2 ≤ t.percentage ∧
      t.percentage < ((scoreKey t : Nat) : ℚ) + 1 / 2) :=
  answer_patterns_last_write_wins scenarioStore scenarioStore_inv

/-! ### A store with a single attempt -/

theorem sort_singleton (P : Prims) (hP : P.Lawful) (t : TestAttempt) : P.sort [t] = [t] :=
  List.perm_singleton.mp (hP.sort_perm [t])

theorem specRawConfidence_single (P : Prims) (hP : P.Lawful) (t : TestAttempt) (q : Nat)
    (a : String) (ha : t.answers[q]? = some a) (h20 : 20 ≤ t.percentage) :
    specRawConfidence P [t] q a =
      t.percentage * (3 / 10) + (if 40 ≤ t.percentage then 1 else 0) * 100 * (7 / 10) := by
  have he := hP.exp_pos (-(1 / 10) * ((0 : Nat) : ℚ))
  have hlow : ¬ t.percentage < 20 := not_lt.mpr h20
  have hscores : scoresOf [t] q a = [t.percentage] := by
    simp [scoresOf, ha]
  have hws : specWeightedScoreSum P [t] q a =
      t.percentage * P.exp (-(1 / 10) * ((0 : Nat) : ℚ)) := by
    simp [specWeightedScoreSum, List.enum, List.enumFrom, ha, rankWeight, hlow]
  have htw : specTotalAbsWeight P [t] q a = P.exp (-(1 / 10) * ((0 : Nat) : ℚ)) := by
    simp only [specTotalAbsWeight, List.enum, List.enumFrom, ha, decide_True, List.filter_cons_of_pos,
      List.filter_nil, List.map_cons, List.map_nil, List.sum_cons, List.sum_nil, add_zero,
      rankWeight, if_neg hlow, mul_one]
    exact abs_of_pos he
  have hvar : ∀ m, specVariance [t.percentage] m = 0 := by
    intro m
    simp [specVariance]
  have hrate : specHighScoreRate [t] q a = if 40 ≤ t.percentage then 1 else 0 := by
    unfold specHighScoreRate
    by_cases h40 : 40 ≤ t.percentage
    · simp [ha, h40]
    · simp [ha, h40]
  unfold specRawConfidence
  simp only [sort_singleton P hP t, hscores, hws, htw, hvar, hP.sqrt_zero, hrate]
  have hcnt : List.countP (fun s => decide (s < 20)) [t.percentage] = 0 := by
    simp [hlow]
  rw [hcnt, mul_div_assoc, div_self (ne_of_gt he)]
  simp

theorem questionConfidence_single (P : Prims) (hP : P.Lawful) (t : TestAttempt) (q : Nat)
    (a : String) (ha : t.answers[q]? = some a) (h0 : 0 ≤ t.percentage)
    (h100 : t.percentage ≤ 100) :
    questionConfidence P [t] (P.sort [t]) q =
      some (if 40 ≤ t.percentage then (a, 3 / 10 * t.percentage + 70)
        else if 20 ≤ t.percentage then (a, 3 / 10 * t.percentage)
        else ("", 0)) := by
  have hq : ∀ x ∈ [t], q < x.answers.length := by
    intro x hx
    rw [List.mem_singleton] at hx
    rw [hx]
    exact (List.getElem?_eq_some.mp ha).1
  have hpct : ∀ x ∈ [t], 0 ≤ x.percentage := by
    intro x hx
    rw [List.mem_singleton] at hx
    rw [hx]
    exact h0
  obtain ⟨best, hb, hnone, hsome⟩ := questionConfidence_spec P hP [t] q hq hpct
  rw [hb]
  by_cases h20 : 20 ≤ t.percentage
  · have hqual : Qualifies [t] q a := ⟨t, List.mem_singleton.mpr rfl, ha, h20⟩
    obtain ⟨⟨x, hx, hxa, -⟩, hv, -⟩ := hsome ⟨a, hqual⟩
    rw [List.mem_singleton] at hx
    rw [hx, ha] at hxa
    have hba : best.1 = a := (Option.some.inj hxa).symm
    rw [hba] at hv
    rw [specRawConfidence_single P hP t q a ha h20] at hv
    rw [hba, hv]
    by_cases h40 : 40 ≤ t.percentage
    · rw [if_pos h40, if_pos h40]
      have e1 : t.percentage * (3 / 10) + 1 * 100 * (7 / 10) = 3 / 10 * t.percentage + 70 := by
        ring
      rw [e1, min_eq_right (by linarith), max_eq_right (by linarith)]
    · rw [if_neg h40, if_neg h40, if_pos h20]
      have e1 : t.percentage * (3 / 10) + 0 * 100 * (7 / 10) = 3 / 10 * t.percentage := by
        ring
      rw [e1, min_eq_right (by linarith), max_eq_right (by linarith)]
  · have hb' := hnone (by
      rintro b ⟨x, hx, -, hx20⟩
      rw [List.mem_singleton] at hx
      rw [hx] at hx20
      exact h20 hx20)
    have h40 : ¬ 40 ≤ t.percentage := fun h => h20 (by linarith)
    rw [hb', if_neg h40, if_neg h20]
    norm_num

/-- C18: for a store holding exactly one attempt `(answers, s)` with `s` in
`[0, 100]`, `getAnswerConfidences` returns for every question `q` the pair
`(answers[q], 0.3 s + 70)` if `s ≥ 40`, `(answers[q], 0.3 s)` if `20 ≤ s < 40`, and
the empty string with confidence 0 if `s < 20`. -/
theorem single_attempt_confidences (P : Prims) (hP : P.Lawful) (s : AnswerAnalyzer)
    (answers : List String) (p : ℚ) (hs : s.attempts = [⟨answers, p⟩])
    (h0 : 0 ≤ p) (h100 : p ≤ 100) :
    getAnswerConfidences P s =
      some (answers.map (fun a =>
        if 40 ≤ p then (a, 3 / 10 * p + 70)
        else if 20 ≤ p then (a, 3 / 10 * p)
        else ("", 0))) := by
  have hdef : getAnswerConfidences P s = (List.range answers.length).mapM
      (questionConfidence P [⟨answers, p⟩] (P.sort [⟨answers, p⟩])) := by
    unfold getAnswerConfidences
    rw [hs]
  obtain ⟨r, hr, hlen, hent⟩ := mapM_range_spec
    (questionConfidence P [⟨answers, p⟩] (P.sort [⟨answers, p⟩]))
    (fun q e => ∃ a, answers[q]? = some a ∧
      e = (if 40 ≤ p then (a, 3 / 10 * p + 70)
        else if 20 ≤ p then (a, 3 / 10 * p)
        else ("", 0)))
    answers.length
    (by
      intro q hq
      have ha : answers[q]? = some answers[q] := List.getElem?_eq_getElem hq
      exact ⟨_, questionConfidence_single P hP ⟨answers, p⟩ q answers[q] ha h0 h100,
        answers[q], ha, rfl⟩)
  rw [hdef, hr]
  congr 1
  apply List.ext_getElem?
  intro n
  by_cases hn : n < answers.length
  · obtain ⟨e, he, a, ha, hea⟩ := hent n hn
    rw [he, List.getElem?_map, ha, hea]
    rfl
  · rw [List.getElem?_eq_none (by rw [hlen]; exact not_lt.mp hn),
      List.getElem?_eq_none (by rw [List.length_map]; exact not_lt.mp hn)]

theorem singleStore_attempts : singleStore.attempts = [⟨["A", "B"], 50⟩] := by
  norm_num [singleStore, addAttempt, new]

theorem single_attempt_confidences_witness :
    getAnswerConfidences refPrims singleStore =
      some (["A", "B"].map (fun a =>
        if 40 ≤ (50 : ℚ) then (a, 3 / 10 * (50 : ℚ) + 70)
        else if 20 ≤ (50 : ℚ) then (a, 3 / 10 * (50 : ℚ))
        else ("", 0))) :=
  single_attempt_confidences refPrims refPrims_lawful singleStore ["A", "B"] 50
    singleStore_attempts (by norm_num) (by norm_num)

/-! ### Independence of the insertion order -/

theorem sort_eq_of_perm (P : Prims) (hP : P.Lawful) (l1 l2 : List TestAttempt)
    (hperm : l1.Perm l2) (hnodup : (l1.map (fun t => t.percentage)).Nodup) :
    P.sort l1 = P.sort l2 := by
  have hp1 := hP.sort_perm l1
  have hp2 := hP.sort_perm l2
  apply List.Perm.eq_of_sorted _ (hP.sort_sorted l1) (hP.sort_sorted l2)
    (hp1.trans (hperm.trans hp2.symm))
  intro a b ha hb hab hba
  have ha1 : a ∈ l1 := hp1.mem_iff.mp ha
  have hb1 : b ∈ l1 := hperm.mem_iff.mpr (hp2.mem_iff.mp hb)
  exact List.inj_on_of_nodup_map hnodup ha1 hb1 (le_antisymm hba hab)

theorem scoresOf_perm (l1 l2 : List TestAttempt) (hperm : l1.Perm l2) (q : Nat) (a : String) :
    (scoresOf l1 q a).Perm (scoresOf l2 q a) :=
  (hperm.filter _).map _

theorem specVariance_perm (s1 s2 : List ℚ) (h : s1.Perm s2) (m : ℚ) :
    specVariance s1 m = specVariance s2 m := by
  unfold specVariance
  rw [h.length_eq, (h.map (fun s => (s - m) * (s - m))).sum_eq]

theorem specRawConfidence_perm (P : Prims) (hP : P.Lawful) (l1 l2 : List TestAttempt)
    (hperm : l1.Perm l2) (hnodup : (l1.map (fun t => t.percentage)).Nodup) (q : Nat)
    (a : String) : specRawConfidence P l1 q a = specRawConfidence P l2 q a := by
  unfold specRawConfidence
  simp only
  rw [sort_eq_of_perm P hP l1 l2 hperm hnodup,
    specVariance_perm _ _ (scoresOf_perm l1 l2 hperm q a),
    (scoresOf_perm l1 l2 hperm q a).countP_eq]

theorem qualifies_perm (l1 l2 : List TestAttempt) (hperm : l1.Perm l2) (q : Nat) (a : String) :
    Qualifies l1 q a ↔ Qualifies l2 q a := by
  constructor
  · rintro ⟨t, ht, h⟩
    exact ⟨t, hperm.mem_iff.mp ht, h⟩
  · rintro ⟨t, ht, h⟩
    exact ⟨t, hperm.mem_iff.mpr ht, h⟩

/-- In exact arithmetic: two stores satisfying the invariant that hold the same
attempts in different insertion orders, with pairwise distinct percentages, get the same result
from `getAnswerConfidences`: the same best answers and the same confidences. -/
theorem confidences_order_independent (P : Prims) (hP : P.Lawful) (s1 s2 : AnswerAnalyzer)
    (h1 : StoreInv s1) (h2 : StoreInv s2) (hperm : s1.attempts.Perm s2.attempts)
    (hnodup : (s1.attempts.map (fun t => t.percentage)).Nodup) :
    ∃ r, getAnswerConfidences P s1 = some r ∧ getAnswerConfidences P s2 = some r := by
  cases hat1 : s1.attempts with
  | nil =>
    have hat2 : s2.attempts = [] := by
      rw [hat1] at hperm
      exact List.Perm.eq_nil hperm.symm
    refine ⟨[], ?_, ?_⟩
    · unfold getAnswerConfidences
      rw [hat1]
    · unfold getAnswerConfidences
      rw [hat2]
  | cons f1 rest1 =>
    have hne2 : s2.attempts ≠ [] := by
      intro h
      rw [h] at hperm
      rw [List.Perm.eq_nil hperm] at hat1
      cases hat1
    obtain ⟨f2, rest2, hat2⟩ := List.exists_cons_of_ne_nil hne2
    have hf2 : f2 ∈ s1.attempts := hperm.mem_iff.mpr (by rw [hat2]; exact List.mem_cons_self _ _)
    have hlen : f1.answers.length = f2.answers.length :=
      h1.2 f1 (by rw [hat1]; exact List.mem_cons_self _ _) f2 hf2
    obtain ⟨r1, hr1, hl1, he1⟩ := getAnswerConfidences_spec P hP s1 h1 f1 rest1 hat1
    obtain ⟨r2, hr2, hl2, he2⟩ := getAnswerConfidences_spec P hP s2 h2 f2 rest2 hat2
    have heq : r1 = r2 := by
      apply List.ext_getElem?
      intro q
      by_cases hq : q < f1.answers.length
      · obtain ⟨e1, hq1, b1, hb1, hn1, hs1⟩ := he1 q hq
        obtain ⟨e2, hq2, b2, hb2, hn2, hs2⟩ := he2 q (hlen ▸ hq)
        rw [hq1, hq2, hb1, hb2]
        by_cases hex : ∃ a, Qualifies s1.attempts q a
        · obtain ⟨a, ha⟩ := hex
          obtain ⟨hQ1, hv1, hm1⟩ := hs1 ⟨a, ha⟩
          obtain ⟨hQ2, hv2, hm2⟩ :=
            hs2 ⟨a, (qualifies_perm _ _ hperm q a).mp ha⟩
          have hQ12 := (qualifies_perm _ _ hperm q b1.1).mp hQ1
          have hQ21 := (qualifies_perm _ _ hperm q b2.1).mpr hQ2
          have hraw : ∀ x, specRawConfidence P s1.attempts q x =
              specRawConfidence P s2.attempts q x :=
            specRawConfidence_perm P hP _ _ hperm hnodup q
          obtain ⟨hle21, htie21⟩ := hm1 b2.1 hQ21
          obtain ⟨hle12, htie12⟩ := hm2 b1.1 hQ12
          rw [hraw b2.1, ← hv2] at hle21 htie21
          rw [← hraw b1.1, ← hv1] at hle12 htie12
          have hval : b1.2 = b2.2 := le_antisymm hle12 hle21
          have hans : b1.1 = b2.1 := le_antisymm (htie21 hval.symm) (htie12 hval)
          rw [hval, hans]
        · have hnone1 : ∀ a, ¬ Qualifies s1.attempts q a := fun a ha => hex ⟨a, ha⟩
          have hnone2 : ∀ a, ¬ Qualifies s2.attempts q a :=
            fun a ha => hex ⟨a, (qualifies_perm _ _ hperm q a).mpr ha⟩
          rw [hn1 hnone1, hn2 hnone2]
      · rw [List.getElem?_eq_none (by rw [hl1]; exact not_lt.mp hq),
          List.getElem?_eq_none (by rw [hl2, ← hlen]; exact not_lt.mp hq)]
    exact ⟨r1, hr1, heq ▸ hr2⟩

theorem reorderedStore_attempts : reorderedStore.attempts =
    [⟨["A", "B"], 95⟩, ⟨["A", "C"], 10⟩, ⟨["A", "B"], 90⟩] := by
  norm_num [reorderedStore, addAttempt, new]

theorem reorderedStore_inv : StoreInv reorderedStore :=
  storeInv_addAttempt _ _ _ (storeInv_addAttempt _ _ _ (storeInv_addAttempt _ _ _
    (storeInv_new 10)))

theorem confidences_order_independent_witness :
    ∃ r, getAnswerConfidences refPrims scenarioStore = some r ∧
      getAnswerConfidences refPrims reorderedStore = some r :=
  confidences_order_independent refPrims refPrims_lawful scenarioStore reorderedStore
    scenarioStore_inv reorderedStore_inv
    (by
      rw [scenarioStore_attempts, reorderedStore_attempts]
      exact List.reverse_perm
        [(⟨["A", "B"], 95⟩ : TestAttempt), ⟨["A", "C"], 10⟩, ⟨["A", "B"], 90⟩])
    (by
      rw [scenarioStore_attempts]
      norm_num)

/-! ### Persistence -/

theorem lineBreakStoreA_attempts : lineBreakStoreA.attempts = [⟨["a\nb", "c"], 50⟩] := by
  norm_num [lineBreakStoreA, addAttempt, new]

theorem lineBreakStoreB_attempts : lineBreakStoreB.attempts = [⟨["a", "b\nc"], 50⟩] := by
  norm_num [lineBreakStoreB, addAttempt, new]

/-- C16, evaluated at the failing input: the two stores holding the single attempt
`(["a\nb", "c"], 50)` and the single attempt `(["a", "b\nc"], 50)` both satisfy the
store invariant, hold different attempts, and `saveToFile` writes the same text for
both, whatever `operator<<` writes for a `double`; so no reading of the written
text can reproduce the attempts of both. -/
theorem saveToFile_not_injective (showDouble : ℚ → String) :
    StoreInv lineBreakStoreA ∧ StoreInv lineBreakStoreB ∧
    lineBreakStoreA.attempts ≠ lineBreakStoreB.attempts ∧
    saveToFile showDouble lineBreakStoreA = saveToFile showDouble lineBreakStoreB ∧
    saveToFile showDouble lineBreakStoreA = "1\n2\na\nb\nc\n" ++ showDouble 50 ++ "\n" := by
  have hA : saveToFile showDouble lineBreakStoreA =
      "1\n2\na\nb\nc\n" ++ showDouble 50 ++ "\n" := by
    have h : toString 1 ++ "\n" ++ toString 2 ++ "\n" ++ "a\nb" ++ "\n" ++ "c" ++ "\n" =
        "1\n2\na\nb\nc\n" := by decide
    simp only [saveToFile, lineBreakStoreA_attempts, List.foldl_cons, List.foldl_nil,
      List.length_cons, List.length_nil, Nat.zero_add, Nat.reduceAdd]
    rw [h]
  have hB : saveToFile showDouble lineBreakStoreB =
      "1\n2\na\nb\nc\n" ++ showDouble 50 ++ "\n" := by
    have h : toString 1 ++ "\n" ++ toString 2 ++ "\n" ++ "a" ++ "\n" ++ "b\nc" ++ "\n" =
        "1\n2\na\nb\nc\n" := by decide
    simp only [saveToFile, lineBreakStoreB_attempts, List.foldl_cons, List.foldl_nil,
      List.length_cons, List.length_nil, Nat.zero_add, Nat.reduceAdd]
    rw [h]
  refine ⟨storeInv_addAttempt _ _ _ (storeInv_new 10),
    storeInv_addAttempt _ _ _ (storeInv_new 10), ?_, by rw [hA, hB], hA⟩
  rw [lineBreakStoreA_attempts, lineBreakStoreB_attempts]
  decide

end AnswerAnalyzer

namespace AnswerTracker

/-! ### The pair tracker -/

theorem validateInput_cases (input : String) :
    (validateInput input = .ok () ∧ ¬ Invalid input) ∨
    ((∃ e, validateInput input = .error e) ∧ Invalid input) := by
  unfold validateInput Invalid
  by_cases h1 : input = ""
  · right
    rw [if_pos h1]
    exact ⟨⟨_, rfl⟩, Or.inl h1⟩
  · rw [if_neg h1]
    by_cases h2 : strLength input > 100
    · right
      rw [if_pos h2]
      exact ⟨⟨_, rfl⟩, Or.inr h2⟩
    · left
      rw [if_neg h2]
      exact ⟨rfl, fun h => h.elim h1 h2⟩

theorem addAnswer_cases (t : AnswerTracker) (expected actual : String) :
    ((∃ e, t.addAnswer expected actual = (.error e, t)) ∧
      (Invalid expected ∨ Invalid actual)) ∨
    (t.addAnswer expected actual = (.ok false, t) ∧
      ¬ (Invalid expected ∨ Invalid actual) ∧ t.answerPairs.length ≥ t.maxAnswers) ∨
    (t.addAnswer expected actual =
        (.ok true, { t with answerPairs := t.answerPairs ++ [⟨expected, actual⟩] }) ∧
      ¬ (Invalid expected ∨ Invalid actual) ∧ t.answerPairs.length < t.maxAnswers) := by
  unfold addAnswer
  rcases validateInput_cases expected with ⟨h1, hv1⟩ | ⟨⟨e, h1⟩, hv1⟩
  · rcases validateInput_cases actual with ⟨h2, hv2⟩ | ⟨⟨e, h2⟩, hv2⟩
    · rw [h1, h2]
      simp only
      by_cases hfull : t.answerPairs.length ≥ t.maxAnswers
      · right; left
        rw [if_pos hfull]
        exact ⟨rfl, fun h => h.elim hv1 hv2, hfull⟩
      · right; right
        rw [if_neg hfull]
        exact ⟨rfl, fun h => h.elim hv1 hv2, not_le.mp hfull⟩
    · left
      rw [h1, h2]
      exact ⟨⟨e, rfl⟩, Or.inr hv2⟩
  · left
    rw [h1]
    exact ⟨⟨e, rfl⟩, Or.inl hv1⟩

theorem reachable_bounded (t : AnswerTracker) (h : Reachable t) :
    t.maxAnswers = 10 ∧ t.answerPairs.length ≤ t.maxAnswers := by
  induction h with
  | init => exact ⟨rfl, by decide⟩
  | @add t expected actual _ ih =>
    rcases addAnswer_cases t expected actual with ⟨⟨e, he⟩, -⟩ | ⟨he, -, -⟩ | ⟨he, -, hlt⟩
    · rw [he]; exact ih
    · rw [he]; exact ih
    · rw [he]
      refine ⟨ih.1, ?_⟩
      simp only [List.length_append, List.length_singleton]
      exact hlt
  | @setPercentage t _ ih =>
    unfold setSuccessPercentage
    split_ifs <;> exact ih
  | clear _ ih => exact ⟨ih.1, Nat.zero_le _⟩
  | readPercentage x _ ih => exact ih

/-- C14: `addAnswer` throws exactly when one of the two strings is empty or longer
than 100 characters, and then leaves the tracker unchanged; otherwise it returns
`false` and leaves the tracker unchanged when `maxAnswers` pairs (or more) are
stored, and else appends the pair at the end and returns `true`.  In every reachable
tracker `maxAnswers` is 10 and at most `maxAnswers` pairs are stored. -/
theorem addAnswer_spec (t : AnswerTracker) (expected actual : String) :
    ((∃ e, (t.addAnswer expected actual).1 = .error e) ↔
      (Invalid expected ∨ Invalid actual)) ∧
    ((Invalid expected ∨ Invalid actual) → (t.addAnswer expected actual).2 = t) ∧
    (¬ (Invalid expected ∨ Invalid actual) → t.answerPairs.length ≥ t.maxAnswers →
      (t.addAnswer expected actual).1 = .ok false ∧ (t.addAnswer expected actual).2 = t) ∧
    (¬ (Invalid expected ∨ Invalid actual) → t.answerPairs.length < t.maxAnswers →
      (t.addAnswer expected actual).1 = .ok true ∧
      (t.addAnswer expected actual).2 =
        { t with answerPairs := t.answerPairs ++ [⟨expected, actual⟩] }) ∧
    (Reachable t → t.maxAnswers = 10 ∧ t.answerPairs.length ≤ t.maxAnswers ∧
      (t.addAnswer expected actual).2.answerPairs.length ≤ t.maxAnswers) := by
  refine ⟨?_, ?_, ?_, ?_, ?_⟩
  · rcases addAnswer_cases t expected actual with ⟨⟨e, he⟩, hinv⟩ | ⟨he, hv, -⟩ | ⟨he, hv, -⟩
    · exact ⟨fun _ => hinv, fun _ => ⟨e, by rw [he]⟩⟩
    · rw [he]
      exact ⟨fun ⟨e, h⟩ => (by cases h), fun h => absurd h hv⟩
    · rw [he]
      exact ⟨fun ⟨e, h⟩ => (by cases h), fun h => absurd h hv⟩
  · intro hinv
    rcases addAnswer_cases t expected actual with ⟨⟨e, he⟩, -⟩ | ⟨he, hv, -⟩ | ⟨he, hv, -⟩
    · rw [he]
    · exact absurd hinv hv
    · exact absurd hinv hv
  · intro hv hfull
    rcases addAnswer_cases t expected actual with ⟨-, hinv⟩ | ⟨he, -, -⟩ | ⟨-, -, hlt⟩
    · exact absurd hinv hv
    · rw [he]
      exact ⟨rfl, rfl⟩
    · exact absurd hfull (not_le.mpr hlt)
  · intro hv hlt
    rcases addAnswer_cases t expected actual with ⟨-, hinv⟩ | ⟨-, -, hfull⟩ | ⟨he, -, -⟩
    · exact absurd hinv hv
    · exact absurd hfull (not_le.mpr hlt)
    · rw [he]
      exact ⟨rfl, rfl⟩
  · intro hr
    obtain ⟨h10, hle⟩ := reachable_bounded t hr
    have hpost := (reachable_bounded _ (Reachable.add expected actual hr)).2
    have hmax : (t.addAnswer expected actual).2.maxAnswers = t.maxAnswers := by
      rw [(reachable_bounded _ (Reachable.add expected actual hr)).1, h10]
    rw [hmax] at hpost
    exact ⟨h10, hle, hpost⟩

theorem foldl_correctCount (l : List AnswerPair) (init : Nat) :
    l.foldl (fun count pair =>
        if toLowerCase pair.expected = toLowerCase pair.actual then count + 1 else count) init =
      init + l.countP (fun pair => decide (toLowerCase pair.expected = toLowerCase pair.actual)) := by
  induction l generalizing init with
  | nil => simp
  | cons p ps ih =>
    rw [List.foldl_cons, ih, List.countP_cons]
    by_cases h : toLowerCase p.expected = toLowerCase p.actual
    · simp [h]
      omega
    · simp [h]

theorem setSuccessPercentage_value (t : AnswerTracker) :
    (t.answerPairs ≠ [] →
      getSuccessPercentage (setSuccessPercentage t) =
        100 * ((t.answerPairs.countP (fun pair =>
          decide (toLowerCase pair.expected = toLowerCase pair.actual)) : Nat) : ℚ) /
          (t.answerPairs.length : ℚ)) ∧
    (t.answerPairs = [] → getSuccessPercentage (setSuccessPercentage t) = 0) := by
  constructor
  · intro hne
    have hemp : ¬ (t.answerPairs.isEmpty = true) := fun he => hne (List.isEmpty_iff.mp he)
    unfold setSuccessPercentage getSuccessPercentage
    rw [if_neg hemp]
    simp only
    rw [foldl_correctCount, Nat.zero_add]
    ring
  · intro he
    unfold setSuccessPercentage getSuccessPercentage
    rw [if_pos (List.isEmpty_iff.mpr he)]

theorem addAnswer_new (expected actual : String) (h1 : ¬ Invalid expected)
    (h2 : ¬ Invalid actual) :
    (new.addAnswer expected actual).2 =
      { new with answerPairs := [⟨expected, actual⟩] } := by
  rcases addAnswer_cases new expected actual with ⟨-, hinv⟩ | ⟨-, -, hfull⟩ | ⟨he, -, -⟩
  · exact absurd hinv (fun h => h.elim h1 h2)
  · exact absurd hfull (by decide)
  · rw [he]
    rfl

/-- C15: after `setSuccessPercentage` the value of `getSuccessPercentage` is 100
times the number of stored pairs whose two strings are equal after lower-casing,
divided by the number of pairs, and 0 when there are no pairs; on a fresh tracker
the single pair `("Paris", "paris")` gives 100 and the single pair
`("Paris", "Lyon")` gives 0. -/
theorem successPercentage_spec (t : AnswerTracker) :
    (t.answerPairs ≠ [] →
      getSuccessPercentage (setSuccessPercentage t) =
        100 * ((t.answerPairs.countP (fun pair =>
          decide (toLowerCase pair.expected = toLowerCase pair.actual)) : Nat) : ℚ) /
          (t.answerPairs.length : ℚ)) ∧
    (t.answerPairs = [] → getSuccessPercentage (setSuccessPercentage t) = 0) ∧
    getSuccessPercentage (setSuccessPercentage (new.addAnswer "Paris" "paris").2) = 100 ∧
    getSuccessPercentage (setSuccessPercentage (new.addAnswer "Paris" "Lyon").2) = 0 := by
  refine ⟨(setSuccessPercentage_value t).1, (setSuccessPercentage_value t).2, ?_, ?_⟩
  · rw [addAnswer_new "Paris" "paris" (by unfold Invalid strLength; decide)
      (by unfold Invalid strLength; decide)]
    rw [(setSuccessPercentage_value _).1 (by simp)]
    have hc : toLowerCase "Paris" = toLowerCase "paris" := by decide
    simp [hc]
  · rw [addAnswer_new "Paris" "Lyon" (by unfold Invalid strLength; decide)
      (by unfold Invalid strLength; decide)]
    rw [(setSuccessPercentage_value _).1 (by simp)]
    have hc : ¬ toLowerCase "Paris" = toLowerCase "Lyon" := by decide
    simp [hc]

end AnswerTracker
